import Mathlib

/-! Bit-level utilities of `Ogre::Bitwise` (OgreMain/include/OgreBitwise.h).

A shallow embedding of the portable (non-intrinsic) code paths of the `Bitwise`
class, followed by theorems about it.

Conventions of the embedding

* `uint16`, `uint32`, `uint64` values are natural numbers; a theorem about a
  `uintW` argument carries the bound `x < 2 ^ W` where the property needs it.
  Every operation that can
  leave the range in C++ is reduced `% 2 ^ W` at the place where the machine
  wraps.  A left shift whose operand is masked so that no bit can leave the
  word is written without the reduction.
* `int` values that can be negative (the rebased exponent of `floatToHalfI`)
  are integers.
* A loop that stops on every input it can be entered with is a total function
  by well-founded recursion.  The renormalisation loop of `halfToFloatI`, which
  never stops on a zero mantissa, takes a fuel argument that bounds the number
  of executions of its body, and returns `none` when the fuel does not suffice.
* A division whose divisor can be zero returns `none` there.
* A `float` is the rational it denotes, and the rounding of the machine is a
  parameter `rnd` of the floating-point functions (see the section on floating
  point).
* Raw memory reached through a `char *` is a list of bytes; pointers into it
  are offsets from the start of the list.
* The union of `bswap64` is modelled for both byte orders of the machine.
-/

namespace Ogre
namespace Bitwise

/-! ## Half / single conversions -/

/-- `Bitwise::floatToHalfI`: a single in `uint32` format to a half in `uint16`
format.  `s` and `m` are non-negative `int`s, `e` is an `int` in `-112 .. 143`. -/
def floatToHalfI (i : Nat) : Nat :=
  let s : Nat := (i >>> 16) &&& 0x00008000
  let e : Int := (((i >>> 23) &&& 0x000000ff : Nat) : Int) - (127 - 15)
  let m : Nat := i &&& 0x007fffff
  if e ≤ 0 then
    if e < -10 then
      0
    else
      let m := (m ||| 0x00800000) >>> (1 - e).toNat
      (s ||| (m >>> 13)) % 2 ^ 16
  else if e = 0xff - (127 - 15) then
    if m = 0 then
      (s ||| 0x7c00) % 2 ^ 16
    else
      let m := m >>> 13
      (s ||| 0x7c00 ||| m ||| (if m = 0 then 1 else 0)) % 2 ^ 16
  else
    if e > 30 then
      (s ||| 0x7c00) % 2 ^ 16
    else
      (s ||| (e.toNat <<< 10) ||| (m >>> 13)) % 2 ^ 16

/-- The renormalisation loop of `halfToFloatI`,
`while( !( m & 0x00000400 ) ) { m <<= 1; e -= 1; }` on `uint32` variables.
The fuel bounds the number of executions of the body. -/
def renormalize : Nat → Nat → Nat → Option (Nat × Nat)
  | 0, m, e => if m &&& 0x00000400 = 0 then none else some (m, e)
  | fuel + 1, m, e =>
    if m &&& 0x00000400 = 0 then
      renormalize fuel ((m <<< 1) % 2 ^ 32) ((e + (2 ^ 32 - 1)) % 2 ^ 32)
    else some (m, e)

/-- The common tail of `halfToFloatI`: rebias the exponent and assemble. -/
def assembleSingle (s e m : Nat) : Nat :=
  let e := (e + (127 - 15)) % 2 ^ 32
  let m := (m <<< 13) % 2 ^ 32
  ((s <<< 31) % 2 ^ 32) ||| ((e <<< 23) % 2 ^ 32) ||| m

/-- `Bitwise::halfToFloatI`: a half in `uint16` format to a single in `uint32`
format.  `fuel` bounds the number of shifts of the renormalisation loop. -/
def halfToFloatI (fuel : Nat) (y : Nat) : Option Nat :=
  let s : Nat := (y >>> 15) &&& 0x00000001
  let e : Nat := (y >>> 10) &&& 0x0000001f
  let m : Nat := y &&& 0x000003ff
  if e = 0 then
    if m = 0 then
      some ((s <<< 31) % 2 ^ 32)
    else
      match renormalize fuel m e with
      | none => none
      | some (m, e) =>
        let e := (e + 1) % 2 ^ 32
        let m := m &&& 0xfffffbff
        some (assembleSingle s e m)
  else if e = 31 then
    if m = 0 then
      some (((s <<< 31) % 2 ^ 32) ||| 0x7f800000)
    else
      some (((s <<< 31) % 2 ^ 32) ||| 0x7f800000 ||| ((m <<< 13) % 2 ^ 32))
  else
    some (assembleSingle s e m)

/-! ### Fields of the two formats -/

/-- Sign bit of a half, as `halfToFloatI` extracts it. -/
def halfSign (y : Nat) : Nat := (y >>> 15) &&& 0x00000001

/-- Biased exponent field of a half, as `halfToFloatI` extracts it. -/
def halfExp (y : Nat) : Nat := (y >>> 10) &&& 0x0000001f

/-- Mantissa field of a half, as `halfToFloatI` extracts it. -/
def halfMant (y : Nat) : Nat := y &&& 0x000003ff

/-- Sign bit of a single. -/
def singleSign (i : Nat) : Nat := (i >>> 31) &&& 0x00000001

/-- Biased exponent field of a single, as `floatToHalfI` extracts it. -/
def singleExp (i : Nat) : Nat := (i >>> 23) &&& 0x000000ff

/-- Mantissa field of a single, as `floatToHalfI` extracts it. -/
def singleMant (i : Nat) : Nat := i &&& 0x007fffff

/-! ### The numbers denoted by bit patterns -/

/-- The rational denoted by a 16-bit pattern read as an IEEE half (1/5/10 bits,
bias 15); `none` for infinities and NaNs. -/
def halfValue (h : Nat) : Option ℚ :=
  let s : Nat := (h / 2 ^ 15) % 2
  let e : Nat := (h / 2 ^ 10) % 2 ^ 5
  let m : Nat := h % 2 ^ 10
  if e = 31 then none
  else if e = 0 then some ((-1 : ℚ) ^ s * (m : ℚ) * (2 : ℚ) ^ (-24 : Int))
  else some ((-1 : ℚ) ^ s * ((2 ^ 10 + m : Nat) : ℚ) * (2 : ℚ) ^ ((e : Int) - 25))

/-- The rational denoted by a 32-bit pattern read as an IEEE single (1/8/23 bits,
bias 127); `none` for infinities and NaNs. -/
def singleValue (i : Nat) : Option ℚ :=
  let s : Nat := (i / 2 ^ 31) % 2
  let e : Nat := (i / 2 ^ 23) % 2 ^ 8
  let m : Nat := i % 2 ^ 23
  if e = 255 then none
  else if e = 0 then some ((-1 : ℚ) ^ s * (m : ℚ) * (2 : ℚ) ^ (-149 : Int))
  else some ((-1 : ℚ) ^ s * ((2 ^ 23 + m : Nat) : ℚ) * (2 : ℚ) ^ ((e : Int) - 150))

/-! ## Byte swapping -/

/-- `Bitwise::bswap16`, portable branch.  The `uint16` argument is promoted to `int`
before shifting and the result is converted back to `uint16`. -/
def bswap16 (arg : Nat) : Nat :=
  (((arg <<< 8) &&& 0xFF00) ||| ((arg >>> 8) &&& 0x00FF)) % 2 ^ 16

/-- `Bitwise::bswap32`, portable branch.  Both left shifts act on masked values, so
no bit leaves the 32-bit word. -/
def bswap32 (arg : Nat) : Nat :=
  ((arg &&& 0x000000FF) <<< 24) ||| ((arg &&& 0x0000FF00) <<< 8) |||
    ((arg >>> 8) &&& 0x0000FF00) ||| ((arg >>> 24) &&& 0x000000FF)

/-- Reading the member `ul` of `union { uint64 sv; uint32 ul[2]; }` after writing `sv`:
the pair `(ul[0], ul[1])`.  On a little-endian machine `ul[0]` is the low word. -/
def unionRead (bigEndian : Bool) (sv : Nat) : Nat × Nat :=
  if bigEndian then (sv / 2 ^ 32 % 2 ^ 32, sv % 2 ^ 32)
  else (sv % 2 ^ 32, sv / 2 ^ 32 % 2 ^ 32)

/-- Reading the member `sv` of the union after writing `ul[0]` and `ul[1]`. -/
def unionWrite (bigEndian : Bool) (ul : Nat × Nat) : Nat :=
  if bigEndian then (ul.1 % 2 ^ 32) * 2 ^ 32 + ul.2 % 2 ^ 32
  else (ul.2 % 2 ^ 32) * 2 ^ 32 + ul.1 % 2 ^ 32

/-- `Bitwise::bswap64`, portable branch: the two 32-bit words are swapped through a
union and each is byte-swapped. -/
def bswap64 (bigEndian : Bool) (arg : Nat) : Nat :=
  let tmp := unionRead bigEndian arg
  let result0 := bswap32 tmp.2
  let result1 := bswap32 tmp.1
  unionWrite bigEndian (result0, result1)

/-- Byte `k` of a number, counted from the least significant byte. -/
def byteOf (x k : Nat) : Nat := (x >>> (8 * k)) &&& 0xFF

/-! ## Buffer reversal -/

/-- The body `swapByte = *p0; *p0 = *p1; *p1 = swapByte;` of the reversal loops, on a
buffer given as the list of its bytes with `p0` and `p1` as offsets.  An access
outside the buffer (undefined in C++) leaves the list as it is. -/
def swapBytes {α : Type} (buf : List α) (p0 p1 : Nat) : List α :=
  match buf[p0]?, buf[p1]? with
  | some a, some b => (buf.set p0 b).set p1 a
  | _, _ => buf

/-- The loop `for( ...; p0 < p1; ++p0, --p1 ) { swap *p0, *p1 }` shared by
`bswapBuffer` and `bswapChunks`.  The offsets are integers: for an empty range
`p1` starts one below `p0`. -/
def reverseLoop {α : Type} (buf : List α) (p0 p1 : Int) : List α :=
  if p0 < p1 then reverseLoop (swapBytes buf p0.toNat p1.toNat) (p0 + 1) (p1 - 1) else buf
termination_by (p1 - p0).toNat
decreasing_by omega

/-- `Bitwise::bswapBuffer( pData, size )`: `p0 = pData`, `p1 = p0 + size - 1`. -/
def bswapBuffer {α : Type} (pData : List α) (size : Nat) : List α :=
  reverseLoop pData 0 ((0 : Int) + size - 1)

/-- `Bitwise::bswapChunks( pData, size, count )`: for each `c < count` in turn the
reversal loop runs with `p0 = pData + c * size`, `p1 = p0 + size - 1`. -/
def bswapChunks {α : Type} (pData : List α) (size count : Nat) : List α :=
  (List.range count).foldl
    (fun buf c => reverseLoop buf ((c * size : Nat) : Int) (((c * size : Nat) : Int) + size - 1))
    pData

/-! ## Powers of two -/

/-- `Bitwise::firstPO2From` on a `uint32`: `--n` and `++n` wrap modulo `2 ^ 32`. -/
def firstPO2From (n : Nat) : Nat :=
  let n := (n + (2 ^ 32 - 1)) % 2 ^ 32
  let n := n ||| (n >>> 16)
  let n := n ||| (n >>> 8)
  let n := n ||| (n >>> 4)
  let n := n ||| (n >>> 2)
  let n := n ||| (n >>> 1)
  let n := (n + 1) % 2 ^ 32
  n

/-- The numbers the documentation of `firstPO2From` counts as powers of two: zero
and `2 ^ k`. -/
def PowerOfTwoOrZero (m : Nat) : Prop := m = 0 ∨ ∃ k : Nat, m = 2 ^ k

/-- The or-cascade in the middle of `firstPO2From`, named for the proofs. -/
def smear (x : Nat) : Nat :=
  let n := x ||| (x >>> 16)
  let n := n ||| (n >>> 8)
  let n := n ||| (n >>> 4)
  let n := n ||| (n >>> 2)
  n ||| (n >>> 1)

/-! ## Bit scans, masks and fixed-point channels -/

/-- `Bitwise::isPO2<uint32>`: `( n & ( n - 1 ) ) == 0`, the subtraction wrapping at
zero. -/
def isPO2 (n : Nat) : Bool := (n &&& ((n + (2 ^ 32 - 1)) % 2 ^ 32)) == 0

/-- The loop `while( value != 0 ) { ++result; value >>= 1; }` of
`mostSignificantBitSet`; it stops on every input. -/
def mostSignificantBitSetLoop (value result : Nat) : Nat :=
  if value ≠ 0 then mostSignificantBitSetLoop (value >>> 1) ((result + 1) % 2 ^ 32)
  else result
termination_by value
decreasing_by
  rw [Nat.shiftRight_eq_div_pow]
  omega

/-- `Bitwise::mostSignificantBitSet`: `return result - 1` wraps for `result = 0`. -/
def mostSignificantBitSet (value : Nat) : Nat :=
  (mostSignificantBitSetLoop value 0 + (2 ^ 32 - 1)) % 2 ^ 32

/-- The loop `while( ( mask & 1 ) == 0 ) { ++result; mask >>= 1; }` of `getBitShift`.
It is entered only behind the guard `mask == 0`, and a non-zero even `mask` stays
non-zero when halved, which is what makes it stop; `result` stays far below the
word size, so `++result` never wraps. -/
def getBitShiftLoop (mask result : Nat) (h : mask ≠ 0) : Nat :=
  if hb : mask &&& 1 = 0 then
    getBitShiftLoop (mask >>> 1) (result + 1)
      (by rw [Nat.and_one_is_mod] at hb; rw [Nat.shiftRight_eq_div_pow]; omega)
  else result
termination_by mask
decreasing_by
  rw [Nat.shiftRight_eq_div_pow]
  omega

/-- `Bitwise::getBitShift`. -/
def getBitShift (mask : Nat) : Nat :=
  if h : mask = 0 then 0 else getBitShiftLoop mask 0 h

/-- `Bitwise::convertBitPattern<uint32, uint32>`.  The product and the final shift
wrap modulo `2 ^ 32`; a zero divisor `srcMax` (undefined in C++) gives `none`. -/
def convertBitPattern (srcValue srcBitMask destBitMask : Nat) : Option Nat :=
  let srcValue := srcValue &&& srcBitMask
  let srcBitShift := getBitShift srcBitMask
  let srcValue := srcValue >>> srcBitShift
  let srcMax := srcBitMask >>> srcBitShift
  let destBitShift := getBitShift destBitMask
  let destMax := destBitMask >>> destBitShift
  if srcMax = 0 then none
  else
    let destValue := ((srcValue * destMax) % 2 ^ 32) / srcMax
    some ((destValue <<< destBitShift) % 2 ^ 32)

/-- The `uint32` expression `( 1u << k ) - 1u`. -/
def lowMask (k : Nat) : Nat := ((1 <<< k) % 2 ^ 32 + (2 ^ 32 - 1)) % 2 ^ 32

/-- `Bitwise::fixedToFixed`.  The product `value * ( 1u << p )` wraps modulo `2 ^ 32`;
a zero divisor `( 1u << n ) - 1u` (undefined in C++) gives `none`.  Shift counts of 32
or more are undefined in C++, and the theorems keep `n` and `p` at most 31. -/
def fixedToFixed (value n p : Nat) : Option Nat :=
  if n > p then
    some (value >>> (n - p))
  else if n < p then
    if value = 0 then some 0
    else if value = lowMask n then some (lowMask p)
    else if lowMask n = 0 then none
    else some (((value * ((1 <<< p) % 2 ^ 32)) % 2 ^ 32) / lowMask n)
  else some value

/-- The first `p` bits of the `n`-bit pattern `value` repeated for ever, read as a
number: what the documentation of `fixedToFixed` says fills the `p` bits. -/
def repeatedPattern (value n : Nat) : Nat → Nat
  | 0 => 0
  | p + 1 =>
    if p + 1 ≤ n then value >>> (n - (p + 1))
    else if n = 0 then 0
    else (value <<< (p + 1 - n)) ||| repeatedPattern value n (p + 1 - n)
termination_by p => p
decreasing_by omega

/-! ## Partial-width integers in memory -/

/-- The store `( (uint16 *)dest )[0] = v` in the byte order of the machine. -/
def store16 (bigEndian : Bool) (dest : List Nat) (v : Nat) : List Nat :=
  if bigEndian then (dest.set 0 (v / 2 ^ 8 % 2 ^ 8)).set 1 (v % 2 ^ 8)
  else (dest.set 0 (v % 2 ^ 8)).set 1 (v / 2 ^ 8 % 2 ^ 8)

/-- The load `( (const uint16 *)src )[0]` in the byte order of the machine. -/
def load16 (bigEndian : Bool) (src : List Nat) : Nat :=
  if bigEndian then src.getD 0 0 * 2 ^ 8 + src.getD 1 0
  else src.getD 1 0 * 2 ^ 8 + src.getD 0 0

/-- The store `( (uint32 *)dest )[0] = v` in the byte order of the machine. -/
def store32 (bigEndian : Bool) (dest : List Nat) (v : Nat) : List Nat :=
  if bigEndian then
    (((dest.set 0 (v / 2 ^ 24 % 2 ^ 8)).set 1 (v / 2 ^ 16 % 2 ^ 8)).set 2
      (v / 2 ^ 8 % 2 ^ 8)).set 3 (v % 2 ^ 8)
  else
    (((dest.set 0 (v % 2 ^ 8)).set 1 (v / 2 ^ 8 % 2 ^ 8)).set 2
      (v / 2 ^ 16 % 2 ^ 8)).set 3 (v / 2 ^ 24 % 2 ^ 8)

/-- The load `( (const uint32 *)src )[0]` in the byte order of the machine. -/
def load32 (bigEndian : Bool) (src : List Nat) : Nat :=
  if bigEndian then
    src.getD 0 0 * 2 ^ 24 + src.getD 1 0 * 2 ^ 16 + src.getD 2 0 * 2 ^ 8 + src.getD 3 0
  else
    src.getD 3 0 * 2 ^ 24 + src.getD 2 0 * 2 ^ 16 + src.getD 1 0 * 2 ^ 8 + src.getD 0 0

/-- `Bitwise::intWrite( dest, n, value )` on the bytes at `dest`.  `bigEndian` is the
byte order of the machine, which `OGRE_ENDIAN` names at build time; the casts to
`uint8`, `uint16` and `uint32` reduce the value. -/
def intWrite (bigEndian : Bool) (dest : List Nat) (n : Int) (value : Nat) : List Nat :=
  if n = 1 then dest.set 0 (value % 2 ^ 8)
  else if n = 2 then store16 bigEndian dest (value % 2 ^ 16)
  else if n = 3 then
    if bigEndian then
      ((dest.set 0 (((value >>> 16) &&& 0xFF) % 2 ^ 8)).set 1
        (((value >>> 8) &&& 0xFF) % 2 ^ 8)).set 2 ((value &&& 0xFF) % 2 ^ 8)
    else
      ((dest.set 2 (((value >>> 16) &&& 0xFF) % 2 ^ 8)).set 1
        (((value >>> 8) &&& 0xFF) % 2 ^ 8)).set 0 ((value &&& 0xFF) % 2 ^ 8)
  else if n = 4 then store32 bigEndian dest (value % 2 ^ 32)
  else dest

/-- `Bitwise::intRead( src, n )` on the bytes at `src`. -/
def intRead (bigEndian : Bool) (src : List Nat) (n : Int) : Nat :=
  if n = 1 then src.getD 0 0
  else if n = 2 then load16 bigEndian src
  else if n = 3 then
    if bigEndian then
      ((src.getD 0 0 <<< 16) % 2 ^ 32) ||| ((src.getD 1 0 <<< 8) % 2 ^ 32) ||| src.getD 2 0
    else
      src.getD 0 0 ||| ((src.getD 1 0 <<< 8) % 2 ^ 32) ||| ((src.getD 2 0 <<< 16) % 2 ^ 32)
  else if n = 4 then load32 bigEndian src
  else 0

/-! ## Floating point

A `float` is the rational it denotes.  Every floating-point operation computes the
exact result and then rounds it with `rnd`, the rounding of the machine, which the
functions take as a parameter: the theorems assume of it only what holds of every IEEE
rounding mode, that a value a `float` can hold is left as it is and that rounding is
monotone. -/

/-- The rationals that a `float` can hold. -/
def IsSingle (q : ℚ) : Prop := ∃ i : Nat, i < 2 ^ 32 ∧ singleValue i = some q

/-- Conversion of a `float` to an integer type: the fraction is discarded. -/
def truncate (x : ℚ) : Int := if 0 ≤ x then ⌊x⌋ else ⌈x⌉

/-- `Bitwise::floatToFixed`.  `static_cast<float>( 1u << bits )` and the product are
rounded; the conversion to `unsigned int` truncates. -/
def floatToFixed (rnd : ℚ → ℚ) (value : ℚ) (bits : Nat) : Nat :=
  if value ≤ 0 then 0
  else if value ≥ 1 then lowMask bits
  else (truncate (rnd (value * rnd (((1 <<< bits) % 2 ^ 32 : Nat) : ℚ)))).toNat

/-- Modelled from the spec: `Math::Clamp( val, minval, maxval )` of OgreMath.h, which is
not among the sources; the value is brought into `[minval, maxval]` as
`max( min( val, maxval ), minval )`. -/
def clamp (val minval maxval : ℚ) : ℚ := max (min val maxval) minval

/-- `Bitwise::floatToSnorm16`.  After the clamp the value lies in the range of `int16`,
so the cast only truncates. -/
def floatToSnorm16 (rnd : ℚ → ℚ) (v : ℚ) : Int :=
  truncate (clamp
    (if v ≥ 0 then rnd (rnd (v * 32767) + 1 / 2) else rnd (rnd (v * 32767) - 1 / 2))
    (-32768) 32767)

/-- `Bitwise::snorm16ToFloat`: `std::max( v / 32767.0f, -1.0f )`, the `int16` being
converted to `float` for the division. -/
def snorm16ToFloat (rnd : ℚ → ℚ) (v : Int) : ℚ :=
  max (rnd (rnd (v : ℚ) / 32767)) (-1)

/-- `Bitwise::floatToSnorm8`. -/
def floatToSnorm8 (rnd : ℚ → ℚ) (v : ℚ) : Int :=
  truncate (clamp
    (if v ≥ 0 then rnd (rnd (v * 127) + 1 / 2) else rnd (rnd (v * 127) - 1 / 2))
    (-128) 127)

/-- `Bitwise::snorm8ToFloat`: `std::max( v / 127.0f, -1.0f )`. -/
def snorm8ToFloat (rnd : ℚ → ℚ) (v : Int) : ℚ :=
  max (rnd (rnd (v : ℚ) / 127)) (-1)

/-! ## Zero counts

`ctz32`, `clz32`, `ctz64` and `clz64` guard the zero input themselves and hand every
other input to an intrinsic of the compiler.  The branch embedded is the one for GCC and
Clang (`__builtin_ctz` and its relatives); the intrinsics are not part of the sources. -/

/-- Modelled from the spec: the intrinsics `__builtin_ctz` (`width` 32) and
`__builtin_ctzll` (`width` 64), which are missing from the sources: the trailing zero
count, the number of zero bits below the lowest set bit of a `width`-bit value.  The
intrinsic is undefined at zero, where this count is `width`. -/
def countTrailingZeros : Nat → Nat → Nat
  | 0, _ => 0
  | width + 1, x => if x % 2 = 1 then 0 else countTrailingZeros width (x / 2) + 1

/-- Modelled from the spec: the intrinsics `__builtin_clz` (`width` 32) and
`__builtin_clzll` (`width` 64), which are missing from the sources: the leading zero
count, the number of zero bits above the highest set bit of a `width`-bit value.  The
intrinsic is undefined at zero, where this count is `width`. -/
def countLeadingZeros : Nat → Nat → Nat
  | 0, _ => 0
  | width + 1, x => if x / 2 ^ width % 2 = 1 then 0 else countLeadingZeros width x + 1

/-- `Bitwise::ctz32`: `static_cast<uint32>( __builtin_ctz( value ) )` behind the guard. -/
def ctz32 (value : Nat) : Nat :=
  if value = 0 then 32 else countTrailingZeros 32 value % 2 ^ 32

/-- `Bitwise::clz32`: `static_cast<uint32>( __builtin_clz( value ) )` behind the guard. -/
def clz32 (value : Nat) : Nat :=
  if value = 0 then 32 else countLeadingZeros 32 value % 2 ^ 32

/-- `Bitwise::ctz64`: `static_cast<uint32>( __builtin_ctzll( value ) )` behind the
guard. -/
def ctz64 (value : Nat) : Nat :=
  if value = 0 then 64 else countTrailingZeros 64 value % 2 ^ 32

/-- `Bitwise::clz64`: `static_cast<uint32>( __builtin_clzll( value ) )` behind the
guard. -/
def clz64 (value : Nat) : Nat :=
  if value = 0 then 64 else countLeadingZeros 64 value % 2 ^ 32

end Bitwise

/-! ## SimpleMatrixAf4x3 (Math/Array/C/OgreArrayMatrixAf4x3.h)

The fixed-size arrays `_m[16]` and `mChunkBase[12]` are functions from the index to the
element; the code only uses constant indices inside the arrays.  The element type `α`
stands for `Real`, which in the C build is also `ArrayReal`. -/

/-- Modelled from the spec: `Matrix4` of OgreMatrix4.h, which is not among the sources:
the canonical AoS matrix, 16 contiguous row-major values `_m[0] .. _m[15]`. -/
structure Matrix4 (α : Type) where
  /-- The 16 values, row by row. -/
  _m : Nat → α

/-- `SimpleMatrixAf4x3`, whose only member is `ArrayReal mChunkBase[12]`. -/
structure SimpleMatrixAf4x3 (α : Type) where
  /-- The 12 values of the three rows that carry information. -/
  mChunkBase : Nat → α

/-- The assignment `a[i] = v` to an element of an array. -/
def assign {α : Type} (a : Nat → α) (i : Nat) (v : α) : Nat → α :=
  fun j => if j = i then v else a j

/-- The loop `for( int i = 0; i < 12; i += 4 )` of `SimpleMatrixAf4x3::load`, from the
value `i` of its counter on. -/
def SimpleMatrixAf4x3.loadLoop {α : Type} (src : Matrix4 α) (i : Nat)
    (mChunkBase : Nat → α) : Nat → α :=
  if i < 12 then
    let c := assign mChunkBase i (src._m i)
    let c := assign c (i + 1) (src._m (i + 1))
    let c := assign c (i + 2) (src._m (i + 2))
    let c := assign c (i + 3) (src._m (i + 3))
    SimpleMatrixAf4x3.loadLoop src (i + 4) c
  else mChunkBase
termination_by 12 - i
decreasing_by omega

/-- `SimpleMatrixAf4x3::load( const Matrix4 &src )`. -/
def SimpleMatrixAf4x3.load {α : Type} (self : SimpleMatrixAf4x3 α) (src : Matrix4 α) :
    SimpleMatrixAf4x3 α :=
  { mChunkBase := SimpleMatrixAf4x3.loadLoop src 0 self.mChunkBase }

/-- The loop `for( int i = 0; i < 12; i += 4 )` of `SimpleMatrixAf4x3::store`, from the
value `i` of its counter on. -/
def SimpleMatrixAf4x3.storeLoop {α : Type} (self : SimpleMatrixAf4x3 α) (i : Nat)
    (m : Nat → α) : Nat → α :=
  if i < 12 then
    let d := assign m i (self.mChunkBase i)
    let d := assign d (i + 1) (self.mChunkBase (i + 1))
    let d := assign d (i + 2) (self.mChunkBase (i + 2))
    let d := assign d (i + 3) (self.mChunkBase (i + 3))
    SimpleMatrixAf4x3.storeLoop self (i + 4) d
  else m
termination_by 12 - i
decreasing_by omega

/-- `SimpleMatrixAf4x3::store( Matrix4 *dst )`: the twelve values, then the fixed last
row. -/
def SimpleMatrixAf4x3.store {α : Type} [OfNat α 0] [OfNat α 1] (self : SimpleMatrixAf4x3 α)
    (dst : Matrix4 α) : Matrix4 α :=
  let m := SimpleMatrixAf4x3.storeLoop self 0 dst._m
  let m := assign m 12 0
  let m := assign m 13 0
  let m := assign m 14 0
  let m := assign m 15 1
  { _m := m }

namespace Bitwise

/-! ## Arithmetic reading of the bit operations -/

/-- A bitwise or of two numbers with disjoint bit ranges is their sum. -/
theorem or_eq_add_of_lt (k a b : Nat) (ha : a % 2 ^ k = 0) (hb : b < 2 ^ k) :
    a ||| b = a + b := by
  have h := Nat.mul_add_lt_is_or hb (a / 2 ^ k)
  have h2 : 2 ^ k * (a / 2 ^ k) = a := by
    have := Nat.div_add_mod a (2 ^ k)
    omega
  rw [h2] at h
  exact h.symm

/-- Masking with `n` consecutive ones starting at bit `k` selects a digit. -/
theorem and_shifted_mask (x n k : Nat) :
    x &&& ((2 ^ n - 1) * 2 ^ k) = (x / 2 ^ k % 2 ^ n) * 2 ^ k := by
  apply Nat.eq_of_testBit_eq
  intro i
  rw [Nat.mul_comm _ (2 ^ k), Nat.mul_comm _ (2 ^ k), Nat.testBit_and, Nat.testBit_mul_pow_two,
    Nat.testBit_mul_pow_two, Nat.testBit_mod_two_pow, Nat.testBit_two_pow_sub_one,
    ← Nat.shiftRight_eq_div_pow, Nat.testBit_shiftRight]
  by_cases h : k ≤ i
  · have : k + (i - k) = i := by omega
    simp [h, this, Bool.and_comm]
  · simp [h]

theorem halfSign_eq (y : Nat) : halfSign y = y / 2 ^ 15 % 2 := by
  unfold halfSign
  rw [Nat.shiftRight_eq_div_pow]
  exact Nat.and_pow_two_sub_one_eq_mod _ 1

theorem halfExp_eq (y : Nat) : halfExp y = y / 2 ^ 10 % 2 ^ 5 := by
  unfold halfExp
  rw [Nat.shiftRight_eq_div_pow]
  exact Nat.and_pow_two_sub_one_eq_mod _ 5

theorem halfMant_eq (y : Nat) : halfMant y = y % 2 ^ 10 :=
  Nat.and_pow_two_sub_one_eq_mod _ 10

theorem singleSign_eq (i : Nat) : singleSign i = i / 2 ^ 31 % 2 := by
  unfold singleSign
  rw [Nat.shiftRight_eq_div_pow]
  exact Nat.and_pow_two_sub_one_eq_mod _ 1

theorem singleExp_eq (i : Nat) : singleExp i = i / 2 ^ 23 % 2 ^ 8 := by
  unfold singleExp
  rw [Nat.shiftRight_eq_div_pow]
  exact Nat.and_pow_two_sub_one_eq_mod _ 8

theorem singleMant_eq (i : Nat) : singleMant i = i % 2 ^ 23 :=
  Nat.and_pow_two_sub_one_eq_mod _ 23

theorem sign16_eq (i : Nat) : (i >>> 16) &&& 0x00008000 = singleSign i * 2 ^ 15 := by
  rw [singleSign_eq, Nat.shiftRight_eq_div_pow]
  have := and_shifted_mask (i / 2 ^ 16) 1 15
  rw [Nat.div_div_eq_div_mul] at this
  exact this

theorem singleSign_lt (i : Nat) : singleSign i < 2 := by rw [singleSign_eq]; omega
theorem singleMant_lt (i : Nat) : singleMant i < 2 ^ 23 := by rw [singleMant_eq]; omega
theorem singleExp_lt (i : Nat) : singleExp i < 2 ^ 8 := by rw [singleExp_eq]; omega

/-- `floatToHalfI` with the three fields named. -/
theorem floatToHalfI_fields (i : Nat) :
    floatToHalfI i =
      if (singleExp i : Int) - (127 - 15) ≤ 0 then
        if (singleExp i : Int) - (127 - 15) < -10 then 0
        else (singleSign i * 2 ^ 15 |||
          (((singleMant i ||| 0x00800000) >>> (1 - ((singleExp i : Int) - (127 - 15))).toNat)
            >>> 13)) % 2 ^ 16
      else if (singleExp i : Int) - (127 - 15) = 0xff - (127 - 15) then
        if singleMant i = 0 then (singleSign i * 2 ^ 15 ||| 0x7c00) % 2 ^ 16
        else (singleSign i * 2 ^ 15 ||| 0x7c00 ||| singleMant i >>> 13 |||
          (if singleMant i >>> 13 = 0 then 1 else 0)) % 2 ^ 16
      else
        if (singleExp i : Int) - (127 - 15) > 30 then (singleSign i * 2 ^ 15 ||| 0x7c00) % 2 ^ 16
        else (singleSign i * 2 ^ 15 ||| (((singleExp i : Int) - (127 - 15)).toNat <<< 10) |||
          (singleMant i >>> 13)) % 2 ^ 16 := by
  rw [← sign16_eq]
  rfl

theorem floatToHalfI_nan_eq (i : Nat) (he : singleExp i = 255) (hm : singleMant i ≠ 0) :
    floatToHalfI i = singleSign i * 2 ^ 15 + 31 * 2 ^ 10 +
      (if singleMant i / 2 ^ 13 = 0 then 1 else singleMant i / 2 ^ 13) := by
  rw [floatToHalfI_fields, he, if_neg (by decide), if_pos (by decide), if_neg hm,
    Nat.shiftRight_eq_div_pow]
  have hm23 := singleMant_lt i
  have hs := singleSign_lt i
  have hm10 : singleMant i / 2 ^ 13 < 2 ^ 10 := by omega
  generalize singleMant i / 2 ^ 13 = m at hm10 ⊢
  rw [or_eq_add_of_lt 15 _ 0x7c00 (by omega) (by omega),
    or_eq_add_of_lt 10 _ m (by omega) hm10]
  by_cases h0 : m = 0
  · subst h0
    rw [if_pos rfl, or_eq_add_of_lt 10 _ 1 (by omega) (by omega)]
    omega
  · rw [if_neg h0, if_neg h0, Nat.or_zero]
    omega

/-- Fields of the half produced for a single NaN. -/
theorem floatToHalfI_nan_fields (i : Nat) (he : singleExp i = 255) (hm : singleMant i ≠ 0) :
    floatToHalfI i < 2 ^ 16 ∧ halfSign (floatToHalfI i) = singleSign i ∧
    halfExp (floatToHalfI i) = 31 ∧
    halfMant (floatToHalfI i) =
      (if singleMant i >>> 13 ≠ 0 then singleMant i >>> 13 else 1) ∧
    halfMant (floatToHalfI i) ≠ 0 := by
  have hr := floatToHalfI_nan_eq i he hm
  have hm23 := singleMant_lt i
  have hs := singleSign_lt i
  rw [halfSign_eq, halfExp_eq, halfMant_eq, Nat.shiftRight_eq_div_pow, hr]
  have hm10 : singleMant i / 2 ^ 13 < 2 ^ 10 := by omega
  generalize singleMant i / 2 ^ 13 = m at hm10 ⊢
  generalize singleSign i = s at hs ⊢
  by_cases h0 : m = 0
  · subst h0
    simp only [if_pos, ne_eq, not_true_eq_false, if_false]
    omega
  · simp only [h0, if_false, ne_eq, not_false_eq_true, if_true]
    omega

theorem halfSign_lt (y : Nat) : halfSign y < 2 := by rw [halfSign_eq]; omega
theorem halfExp_lt (y : Nat) : halfExp y < 2 ^ 5 := by rw [halfExp_eq]; omega
theorem halfMant_lt (y : Nat) : halfMant y < 2 ^ 10 := by rw [halfMant_eq]; omega

theorem and_bit10 (m : Nat) : m &&& 0x00000400 = (m / 2 ^ 10 % 2) * 2 ^ 10 :=
  and_shifted_mask m 1 10

/-- The loop stops after exactly `j` shifts when bit 10 of `m * 2 ^ j` is the
leading bit. -/
theorem renormalize_eq (j : Nat) : ∀ fuel m e : Nat, j ≤ fuel → e < 2 ^ 32 →
    2 ^ 10 ≤ m * 2 ^ j → m * 2 ^ j < 2 ^ 11 →
    renormalize fuel m e = some (m * 2 ^ j, (e + j * (2 ^ 32 - 1)) % 2 ^ 32) := by
  induction j with
  | zero =>
    intro fuel m e _ he h1 h2
    have hb : m &&& 0x00000400 ≠ 0 := by rw [and_bit10]; omega
    have he' : (e + 0 * (2 ^ 32 - 1)) % 2 ^ 32 = e := by omega
    cases fuel <;> simp [renormalize, hb] <;> omega
  | succ j ih =>
    intro fuel m e hf he h1 h2
    have hpos : 1 ≤ 2 ^ j := Nat.one_le_two_pow
    have hm2 : m * 2 ^ (j + 1) = (m * 2) * 2 ^ j := by ring
    have hlt : m * 2 ≤ (m * 2) * 2 ^ j := Nat.le_mul_of_pos_right _ (by omega)
    rw [hm2] at h1 h2
    have hb : m &&& 0x00000400 = 0 := by rw [and_bit10]; omega
    obtain ⟨f, rfl⟩ : ∃ f, fuel = f + 1 := ⟨fuel - 1, by omega⟩
    have hsh : (m <<< 1) % 2 ^ 32 = m * 2 := by rw [Nat.shiftLeft_eq]; omega
    have hstep : renormalize (f + 1) m e =
        renormalize f ((m <<< 1) % 2 ^ 32) ((e + (2 ^ 32 - 1)) % 2 ^ 32) := by
      simp only [renormalize, hb, if_true]
    have he2 : (e + (2 ^ 32 - 1)) % 2 ^ 32 < 2 ^ 32 := Nat.mod_lt _ (by norm_num)
    have hE : ((e + (2 ^ 32 - 1)) % 2 ^ 32 + j * (2 ^ 32 - 1)) % 2 ^ 32 =
        (e + (j + 1) * (2 ^ 32 - 1)) % 2 ^ 32 := by omega
    rw [hstep, hsh, ih f (m * 2) _ (by omega) he2 h1 h2, hE, hm2]

theorem exists_shift (m : Nat) (h0 : m ≠ 0) (h : m < 2 ^ 10) :
    ∃ j, 1 ≤ j ∧ j ≤ 10 ∧ 2 ^ 10 ≤ m * 2 ^ j ∧ m * 2 ^ j < 2 ^ 11 := by
  have key : ∀ m < 1024, m ≠ 0 →
      ∃ j < 11, 1 ≤ j ∧ j ≤ 10 ∧ 2 ^ 10 ≤ m * 2 ^ j ∧ m * 2 ^ j < 2 ^ 11 := by
    decide!
  obtain ⟨j, -, hj⟩ := key m h h0
  exact ⟨j, hj⟩

/-- `halfToFloatI` with the three fields named. -/
theorem halfToFloatI_fields (fuel y : Nat) :
    halfToFloatI fuel y =
      if halfExp y = 0 then
        if halfMant y = 0 then some ((halfSign y <<< 31) % 2 ^ 32)
        else
          match renormalize fuel (halfMant y) (halfExp y) with
          | none => none
          | some (m, e) => some (assembleSingle (halfSign y) ((e + 1) % 2 ^ 32) (m &&& 0xfffffbff))
      else if halfExp y = 31 then
        if halfMant y = 0 then some (((halfSign y <<< 31) % 2 ^ 32) ||| 0x7f800000)
        else some (((halfSign y <<< 31) % 2 ^ 32) ||| 0x7f800000 |||
          ((halfMant y <<< 13) % 2 ^ 32))
      else some (assembleSingle (halfSign y) (halfExp y) (halfMant y)) := rfl

theorem assembleSingle_eq (s e m E : Nat) (hs : s < 2) (hE : (e + (127 - 15)) % 2 ^ 32 = E)
    (hE8 : E < 2 ^ 8) (hm : m < 2 ^ 10) :
    assembleSingle s e m = s * 2 ^ 31 + E * 2 ^ 23 + m * 2 ^ 13 := by
  unfold assembleSingle
  simp only [Nat.shiftLeft_eq]
  rw [hE]
  have h1 : s * 2 ^ 31 % 2 ^ 32 = s * 2 ^ 31 := by omega
  have h2 : E * 2 ^ 23 % 2 ^ 32 = E * 2 ^ 23 := by omega
  have h3 : m * 2 ^ 13 % 2 ^ 32 = m * 2 ^ 13 := by omega
  rw [h1, h2, h3, or_eq_add_of_lt 31 (s * 2 ^ 31) (E * 2 ^ 23) (by omega) (by omega),
    or_eq_add_of_lt 23 _ (m * 2 ^ 13) (by omega) (by omega)]

theorem halfToFloatI_zero (fuel y : Nat) (he : halfExp y = 0) (hm : halfMant y = 0) :
    halfToFloatI fuel y = some (halfSign y * 2 ^ 31) := by
  have hs := halfSign_lt y
  rw [halfToFloatI_fields, if_pos he, if_pos hm, Nat.shiftLeft_eq]
  congr 1
  omega

theorem halfToFloatI_normal (fuel y : Nat) (he : halfExp y ≠ 0) (he' : halfExp y ≠ 31) :
    halfToFloatI fuel y =
      some (halfSign y * 2 ^ 31 + (halfExp y + 112) * 2 ^ 23 + halfMant y * 2 ^ 13) := by
  have hs := halfSign_lt y
  have hE := halfExp_lt y
  rw [halfToFloatI_fields, if_neg he, if_neg he',
    assembleSingle_eq _ _ _ (halfExp y + 112) hs (by omega) (by omega) (halfMant_lt y)]

theorem and_clear_bit10 (m : Nat) (h1 : 2 ^ 10 ≤ m) (h2 : m < 2 ^ 11) :
    m &&& 0xfffffbff = m - 2 ^ 10 := by
  have hsplit : (0xfffffbff : Nat) = (2 ^ 21 - 1) * 2 ^ 11 + (2 ^ 10 - 1) := by norm_num
  have hor : (0xfffffbff : Nat) = (2 ^ 21 - 1) * 2 ^ 11 ||| (2 ^ 10 - 1) := by
    rw [or_eq_add_of_lt 11 _ _ (by norm_num) (by norm_num)]
    exact hsplit
  rw [hor, Nat.and_or_distrib_left, and_shifted_mask, Nat.and_pow_two_sub_one_eq_mod,
    or_eq_add_of_lt 11 _ _ (by omega) (by omega)]
  omega

theorem halfToFloatI_subnormal (fuel y j : Nat) (he : halfExp y = 0) (hj1 : 1 ≤ j)
    (hj : j ≤ fuel) (h1 : 2 ^ 10 ≤ halfMant y * 2 ^ j) (h2 : halfMant y * 2 ^ j < 2 ^ 11) :
    halfToFloatI fuel y =
      some (halfSign y * 2 ^ 31 + (113 - j) * 2 ^ 23 + (halfMant y * 2 ^ j - 2 ^ 10) * 2 ^ 13) := by
  have hs := halfSign_lt y
  have hm := halfMant_lt y
  have hm0 : halfMant y ≠ 0 := by
    intro h0
    rw [h0] at h1
    omega
  have hj10 : j ≤ 10 := by
    by_contra hc
    have : 2 ^ 11 ≤ 2 ^ j := Nat.pow_le_pow_right (by norm_num) (by omega)
    have : 1 * 2 ^ j ≤ halfMant y * 2 ^ j := Nat.mul_le_mul_right _ (by omega)
    omega
  rw [halfToFloatI_fields, if_pos he, if_neg hm0, he,
    renormalize_eq j fuel _ 0 hj (by norm_num) h1 h2]
  simp only
  rw [and_clear_bit10 _ h1 h2,
    assembleSingle_eq _ _ _ (113 - j) hs (by omega) (by omega) (by omega)]

theorem singleValue_fields (s e m : Nat) (hs : s < 2) (he : e < 2 ^ 8) (hm : m < 2 ^ 23) :
    singleValue (s * 2 ^ 31 + e * 2 ^ 23 + m) =
      if e = 255 then none
      else if e = 0 then some ((-1 : ℚ) ^ s * (m : ℚ) * (2 : ℚ) ^ (-149 : Int))
      else some ((-1 : ℚ) ^ s * ((2 ^ 23 + m : Nat) : ℚ) * (2 : ℚ) ^ ((e : Int) - 150)) := by
  have h1 : (s * 2 ^ 31 + e * 2 ^ 23 + m) / 2 ^ 31 % 2 = s := by omega
  have h2 : (s * 2 ^ 31 + e * 2 ^ 23 + m) / 2 ^ 23 % 2 ^ 8 = e := by omega
  have h3 : (s * 2 ^ 31 + e * 2 ^ 23 + m) % 2 ^ 23 = m := by omega
  simp only [singleValue, h1, h2, h3]

theorem halfValue_fields (y : Nat) :
    halfValue y =
      if halfExp y = 31 then none
      else if halfExp y = 0 then
        some ((-1 : ℚ) ^ halfSign y * (halfMant y : ℚ) * (2 : ℚ) ^ (-24 : Int))
      else some ((-1 : ℚ) ^ halfSign y * ((2 ^ 10 + halfMant y : Nat) : ℚ) *
        (2 : ℚ) ^ ((halfExp y : Int) - 25)) := by
  simp only [halfValue, halfSign_eq, halfExp_eq, halfMant_eq]

theorem two_zpow_neg13 : (2 : ℚ) ^ (-13 : Int) = 1 / 2 ^ 13 := by
  rw [zpow_neg, one_div]
  norm_cast

theorem value_normal (s e m : Nat) :
    (-1 : ℚ) ^ s * ((2 ^ 23 + m * 2 ^ 13 : Nat) : ℚ) * (2 : ℚ) ^ (((e + 112 : Nat) : Int) - 150) =
      (-1 : ℚ) ^ s * ((2 ^ 10 + m : Nat) : ℚ) * (2 : ℚ) ^ ((e : Int) - 25) := by
  have h : (2 : ℚ) ^ (((e + 112 : Nat) : Int) - 150) =
      (2 : ℚ) ^ (-13 : Int) * (2 : ℚ) ^ ((e : Int) - 25) := by
    have hx : ((e + 112 : Nat) : Int) - 150 = -13 + ((e : Int) - 25) := by omega
    rw [← zpow_add₀ (by norm_num : (2 : ℚ) ≠ 0), hx]
  rw [h]
  push_cast
  rw [two_zpow_neg13]
  ring

theorem value_subnormal (s m j : Nat) (hj : j ≤ 113) (h1 : 2 ^ 10 ≤ m * 2 ^ j) :
    (-1 : ℚ) ^ s * ((2 ^ 23 + (m * 2 ^ j - 2 ^ 10) * 2 ^ 13 : Nat) : ℚ) *
        (2 : ℚ) ^ (((113 - j : Nat) : Int) - 150) =
      (-1 : ℚ) ^ s * (m : ℚ) * (2 : ℚ) ^ (-24 : Int) := by
  have hn : 2 ^ 23 + (m * 2 ^ j - 2 ^ 10) * 2 ^ 13 = m * 2 ^ j * 2 ^ 13 := by
    have h23 : (2 : Nat) ^ 23 = 2 ^ 10 * 2 ^ 13 := by norm_num
    rw [h23, ← Nat.add_mul, Nat.add_sub_cancel' h1]
  have h : (2 : ℚ) ^ (((113 - j : Nat) : Int) - 150) =
      (2 : ℚ) ^ (-24 : Int) * (2 : ℚ) ^ (-13 : Int) * ((2 : ℚ) ^ (j : Int))⁻¹ := by
    have h2 : (2 : ℚ) ≠ 0 := by norm_num
    have hx : ((113 - j : Nat) : Int) - 150 = -24 + -13 + -(j : Int) := by omega
    rw [← zpow_neg, ← zpow_add₀ h2, ← zpow_add₀ h2, hx]
  rw [hn, h, two_zpow_neg13, zpow_natCast]
  push_cast
  have hj0 : (2 : ℚ) ^ j ≠ 0 := pow_ne_zero _ (by norm_num)
  field_simp
  ring

/-- For a finite half, ten shifts of fuel suffice and the single produced denotes the
same number. -/
theorem halfToFloatI_value (h fuel : Nat) (hfin : halfExp h ≠ 31) (hfuel : 10 ≤ fuel) :
    ∃ r, halfToFloatI fuel h = some r ∧ singleValue r = halfValue h := by
  have hs := halfSign_lt h
  have hE := halfExp_lt h
  have hm := halfMant_lt h
  by_cases he : halfExp h = 0
  · by_cases hm0 : halfMant h = 0
    · refine ⟨_, halfToFloatI_zero fuel h he hm0, ?_⟩
      have := singleValue_fields (halfSign h) 0 0 hs (by norm_num) (by norm_num)
      rw [halfValue_fields, if_neg hfin, if_pos he, hm0]
      simpa using this
    · obtain ⟨j, hj1, hj10, h1, h2⟩ := exists_shift _ hm0 hm
      refine ⟨_, halfToFloatI_subnormal fuel h j he hj1 (by omega) h1 h2, ?_⟩
      rw [singleValue_fields _ _ _ hs (by omega) (by omega), if_neg (by omega),
        if_neg (by omega), value_subnormal _ _ _ (by omega) h1,
        halfValue_fields, if_neg hfin, if_pos he]
  · refine ⟨_, halfToFloatI_normal fuel h he hfin, ?_⟩
    rw [singleValue_fields _ _ _ hs (by omega) (by omega), if_neg (by omega),
      if_neg (by omega), value_normal, halfValue_fields, if_neg hfin, if_neg he]

theorem halfValue_isSome (h : Nat) (hfin : halfExp h ≠ 31) : ∃ q, halfValue h = some q := by
  rw [halfValue_fields, if_neg hfin]
  by_cases he : halfExp h = 0
  · exact ⟨_, if_pos he⟩
  · exact ⟨_, if_neg he⟩

theorem floatToHalfI_underflow (i : Nat) (he : singleExp i ≤ 101) : floatToHalfI i = 0 := by
  rw [floatToHalfI_fields, if_pos (by omega), if_pos (by omega)]

theorem subnormalMant_lt (m E : Nat) (hm : m < 2 ^ 23) (h1 : 102 ≤ E) (h2 : E ≤ 112) :
    (2 ^ 23 + m) / 2 ^ (126 - E) < 2 ^ 10 := by
  apply Nat.div_lt_of_lt_mul
  have hp : 2 ^ 14 ≤ 2 ^ (126 - E) := Nat.pow_le_pow_right (by norm_num) (by omega)
  calc 2 ^ 23 + m < 2 ^ 14 * 2 ^ 10 := by omega
    _ ≤ 2 ^ (126 - E) * 2 ^ 10 := Nat.mul_le_mul_right _ hp

theorem floatToHalfI_subnormal (i : Nat) (h1 : 102 ≤ singleExp i) (h2 : singleExp i ≤ 112) :
    floatToHalfI i =
      singleSign i * 2 ^ 15 + (2 ^ 23 + singleMant i) / 2 ^ (126 - singleExp i) := by
  have hs := singleSign_lt i
  have hm := singleMant_lt i
  have hsh : (1 - ((singleExp i : Int) - (127 - 15))).toNat = 113 - singleExp i := by omega
  have hM := subnormalMant_lt (singleMant i) (singleExp i) hm h1 h2
  have hpow : 2 ^ (113 - singleExp i) * 2 ^ 13 = 2 ^ (126 - singleExp i) := by
    rw [← Nat.pow_add]
    congr 1
    omega
  rw [floatToHalfI_fields, if_pos (by omega), if_neg (by omega), hsh, Nat.or_comm (singleMant i),
    or_eq_add_of_lt 23 0x00800000 (singleMant i) (by norm_num) hm,
    (by norm_num : (0x00800000 : Nat) = 2 ^ 23),
    Nat.shiftRight_eq_div_pow, Nat.shiftRight_eq_div_pow, Nat.div_div_eq_div_mul, hpow,
    or_eq_add_of_lt 15 (singleSign i * 2 ^ 15) _ (by omega) (by omega)]
  generalize (2 ^ 23 + singleMant i) / 2 ^ (126 - singleExp i) = M at hM ⊢
  omega

theorem floatToHalfI_normal (i : Nat) (h1 : 113 ≤ singleExp i) (h2 : singleExp i ≤ 142) :
    floatToHalfI i =
      singleSign i * 2 ^ 15 + (singleExp i - 112) * 2 ^ 10 + singleMant i / 2 ^ 13 := by
  have hs := singleSign_lt i
  have hm := singleMant_lt i
  have he : ((singleExp i : Int) - (127 - 15)).toNat = singleExp i - 112 := by omega
  rw [floatToHalfI_fields, if_neg (by omega), if_neg (by omega), if_neg (by omega), he,
    Nat.shiftLeft_eq, Nat.shiftRight_eq_div_pow,
    or_eq_add_of_lt 15 (singleSign i * 2 ^ 15) _ (by omega) (by omega),
    or_eq_add_of_lt 10 _ (singleMant i / 2 ^ 13) (by omega) (by omega)]
  omega

theorem singleValue_eq_fields (i : Nat) :
    singleValue i =
      if singleExp i = 255 then none
      else if singleExp i = 0 then
        some ((-1 : ℚ) ^ singleSign i * (singleMant i : ℚ) * (2 : ℚ) ^ (-149 : Int))
      else some ((-1 : ℚ) ^ singleSign i * ((2 ^ 23 + singleMant i : Nat) : ℚ) *
        (2 : ℚ) ^ ((singleExp i : Int) - 150)) := by
  simp only [singleValue, singleSign_eq, singleExp_eq, singleMant_eq]

theorem halfValue_of_fields (s e m : Nat) (hs : s < 2) (he : e < 2 ^ 5) (hm : m < 2 ^ 10) :
    halfValue (s * 2 ^ 15 + e * 2 ^ 10 + m) =
      if e = 31 then none
      else if e = 0 then some ((-1 : ℚ) ^ s * (m : ℚ) * (2 : ℚ) ^ (-24 : Int))
      else some ((-1 : ℚ) ^ s * ((2 ^ 10 + m : Nat) : ℚ) * (2 : ℚ) ^ ((e : Int) - 25)) := by
  have h1 : (s * 2 ^ 15 + e * 2 ^ 10 + m) / 2 ^ 15 % 2 = s := by omega
  have h2 : (s * 2 ^ 15 + e * 2 ^ 10 + m) / 2 ^ 10 % 2 ^ 5 = e := by omega
  have h3 : (s * 2 ^ 15 + e * 2 ^ 10 + m) % 2 ^ 10 = m := by omega
  simp only [halfValue, h1, h2, h3]

theorem halfExp_of_fields (s e m : Nat) (he : e < 2 ^ 5) (hm : m < 2 ^ 10) :
    halfExp (s * 2 ^ 15 + e * 2 ^ 10 + m) = e := by
  rw [halfExp_eq]
  omega

theorem abs_sign (s : Nat) : |(-1 : ℚ) ^ s| = 1 := by
  rw [abs_pow, abs_neg, abs_one, one_pow]

/-- An underflowing single is below the smallest half subnormal. -/
theorem tol_underflow (s m E : Nat) (hm : m < 2 ^ 23) (hE : E ≤ 101) :
    |(-1 : ℚ) ^ s * ((2 ^ 23 + m : Nat) : ℚ) * (2 : ℚ) ^ ((E : Int) - 150)| ≤
      (2 : ℚ) ^ (-24 : Int) := by
  have hp : (0 : ℚ) < (2 : ℚ) ^ ((E : Int) - 150) := zpow_pos (by norm_num) _
  rw [abs_mul, abs_mul, abs_sign, one_mul, abs_of_nonneg (Nat.cast_nonneg _), abs_of_pos hp]
  have h1 : (2 : ℚ) ^ ((E : Int) - 150) ≤ (2 : ℚ) ^ (-49 : Int) :=
    zpow_le_zpow_right₀ (by norm_num) (by omega)
  have h2 : ((2 ^ 23 + m : Nat) : ℚ) ≤ (2 : ℚ) ^ (24 : Int) := by
    have : 2 ^ 23 + m ≤ 2 ^ 24 := by omega
    calc ((2 ^ 23 + m : Nat) : ℚ) ≤ ((2 ^ 24 : Nat) : ℚ) := by exact_mod_cast this
      _ = (2 : ℚ) ^ (24 : Int) := by norm_num
  calc ((2 ^ 23 + m : Nat) : ℚ) * (2 : ℚ) ^ ((E : Int) - 150)
      ≤ (2 : ℚ) ^ (24 : Int) * (2 : ℚ) ^ (-49 : Int) :=
        mul_le_mul h2 h1 hp.le (by positivity)
    _ ≤ (2 : ℚ) ^ (-24 : Int) := by
        rw [← zpow_add₀ (by norm_num : (2 : ℚ) ≠ 0)]
        exact zpow_le_zpow_right₀ (by norm_num) (by norm_num)

theorem tol_denormal (s m : Nat) (hm : m < 2 ^ 23) :
    |(-1 : ℚ) ^ s * (m : ℚ) * (2 : ℚ) ^ (-149 : Int)| ≤ (2 : ℚ) ^ (-24 : Int) := by
  have hp : (0 : ℚ) < (2 : ℚ) ^ (-149 : Int) := zpow_pos (by norm_num) _
  rw [abs_mul, abs_mul, abs_sign, one_mul, abs_of_nonneg (Nat.cast_nonneg _), abs_of_pos hp]
  have h2 : (m : ℚ) ≤ (2 : ℚ) ^ (23 : Int) := by
    calc (m : ℚ) ≤ ((2 ^ 23 : Nat) : ℚ) := by exact_mod_cast hm.le
      _ = (2 : ℚ) ^ (23 : Int) := by norm_num
  calc (m : ℚ) * (2 : ℚ) ^ (-149 : Int)
      ≤ (2 : ℚ) ^ (23 : Int) * (2 : ℚ) ^ (-149 : Int) :=
        mul_le_mul_of_nonneg_right h2 hp.le
    _ ≤ (2 : ℚ) ^ (-24 : Int) := by
        rw [← zpow_add₀ (by norm_num : (2 : ℚ) ≠ 0)]
        exact zpow_le_zpow_right₀ (by norm_num) (by norm_num)

/-- Truncation into a half subnormal loses less than one unit `2 ^ -24`. -/
theorem tol_subnormal (s m E : Nat) (h1 : 102 ≤ E) (h2 : E ≤ 112) :
    |(-1 : ℚ) ^ s * (((2 ^ 23 + m) / 2 ^ (126 - E) : Nat) : ℚ) * (2 : ℚ) ^ (-24 : Int) -
      (-1 : ℚ) ^ s * ((2 ^ 23 + m : Nat) : ℚ) * (2 : ℚ) ^ ((E : Int) - 150)| ≤
      (2 : ℚ) ^ (-24 : Int) := by
  have h20 : (2 : ℚ) ≠ 0 := by norm_num
  have hx : (E : Int) - 150 = -24 + -((126 - E : Nat) : Int) := by omega
  have hD : (0 : ℚ) < (2 : ℚ) ^ (126 - E) := pow_pos (by norm_num) _
  have hu : (0 : ℚ) < (2 : ℚ) ^ (-24 : Int) := zpow_pos (by norm_num) _
  have hdm := Nat.div_add_mod (2 ^ 23 + m) (2 ^ (126 - E))
  have hr : (2 ^ 23 + m) % 2 ^ (126 - E) < 2 ^ (126 - E) := Nat.mod_lt _ (Nat.two_pow_pos _)
  generalize (2 ^ 23 + m) / 2 ^ (126 - E) = M at hdm
  generalize (2 ^ 23 + m) % 2 ^ (126 - E) = R at hdm hr
  have hA : ((2 ^ 23 + m : Nat) : ℚ) = (2 : ℚ) ^ (126 - E) * M + R := by
    rw [← hdm]
    push_cast
    ring
  have hR : (R : ℚ) ≤ (2 : ℚ) ^ (126 - E) := by exact_mod_cast hr.le
  rw [hx, zpow_add₀ h20, zpow_neg (2 : ℚ) ((126 - E : Nat) : Int), zpow_natCast, hA]
  have heq : (-1 : ℚ) ^ s * (M : ℚ) * (2 : ℚ) ^ (-24 : Int) -
      (-1 : ℚ) ^ s * ((2 : ℚ) ^ (126 - E) * M + R) *
        ((2 : ℚ) ^ (-24 : Int) * ((2 : ℚ) ^ (126 - E))⁻¹) =
      (-1 : ℚ) ^ s * (-((R : ℚ) / (2 : ℚ) ^ (126 - E)) * (2 : ℚ) ^ (-24 : Int)) := by
    field_simp
    ring
  rw [heq, abs_mul, abs_sign, one_mul, abs_mul, abs_neg, abs_of_pos hu,
    abs_of_nonneg (div_nonneg (Nat.cast_nonneg _) hD.le)]
  have : (R : ℚ) / (2 : ℚ) ^ (126 - E) ≤ 1 := (div_le_one hD).mpr hR
  calc (R : ℚ) / (2 : ℚ) ^ (126 - E) * (2 : ℚ) ^ (-24 : Int)
      ≤ 1 * (2 : ℚ) ^ (-24 : Int) := mul_le_mul_of_nonneg_right this hu.le
    _ = (2 : ℚ) ^ (-24 : Int) := one_mul _

/-- Truncation of the low 13 mantissa bits loses at most `2 ^ -10` of the value. -/
theorem tol_normal (s m E : Nat) (h1 : 113 ≤ E) :
    |(-1 : ℚ) ^ s * ((2 ^ 10 + m / 2 ^ 13 : Nat) : ℚ) * (2 : ℚ) ^ (((E - 112 : Nat) : Int) - 25) -
      (-1 : ℚ) ^ s * ((2 ^ 23 + m : Nat) : ℚ) * (2 : ℚ) ^ ((E : Int) - 150)| ≤
      (2 : ℚ) ^ (-10 : Int) *
        |(-1 : ℚ) ^ s * ((2 ^ 23 + m : Nat) : ℚ) * (2 : ℚ) ^ ((E : Int) - 150)| := by
  have h20 : (2 : ℚ) ≠ 0 := by norm_num
  have hx : ((E - 112 : Nat) : Int) - 25 = 13 + ((E : Int) - 150) := by omega
  have hw : (0 : ℚ) < (2 : ℚ) ^ ((E : Int) - 150) := zpow_pos (by norm_num) _
  have hdm := Nat.div_add_mod m (2 ^ 13)
  have hr : m % 2 ^ 13 < 2 ^ 13 := Nat.mod_lt _ (Nat.two_pow_pos _)
  generalize m / 2 ^ 13 = M at hdm
  generalize m % 2 ^ 13 = R at hdm hr
  have hA : ((2 ^ 23 + m : Nat) : ℚ) = 2 ^ 23 + 2 ^ 13 * (M : ℚ) + R := by
    rw [← hdm]
    push_cast
    ring
  have hR : (R : ℚ) ≤ 2 ^ 13 := by exact_mod_cast hr.le
  have hR0 : (0 : ℚ) ≤ R := Nat.cast_nonneg _
  have hM0 : (0 : ℚ) ≤ M := Nat.cast_nonneg _
  have h13 : (2 : ℚ) ^ (13 : Int) = 2 ^ 13 := by norm_cast
  have h10 : (2 : ℚ) ^ (-10 : Int) = 1 / 2 ^ 10 := by
    rw [zpow_neg, one_div]
    norm_cast
  rw [hx, zpow_add₀ h20, hA, h13, h10]
  generalize (2 : ℚ) ^ ((E : Int) - 150) = w at hw
  have heq : (-1 : ℚ) ^ s * ((2 ^ 10 + M : Nat) : ℚ) * (2 ^ 13 * w) -
      (-1 : ℚ) ^ s * (2 ^ 23 + 2 ^ 13 * (M : ℚ) + R) * w = (-1 : ℚ) ^ s * (-(R * w)) := by
    push_cast
    ring
  rw [heq]
  simp only [abs_mul, abs_neg, abs_sign, one_mul]
  rw [abs_of_nonneg hR0, abs_of_pos hw,
    abs_of_nonneg (by positivity : (0 : ℚ) ≤ 2 ^ 23 + 2 ^ 13 * (M : ℚ) + R)]
  have : (R : ℚ) ≤ 1 / 2 ^ 10 * (2 ^ 23 + 2 ^ 13 * (M : ℚ) + R) := by
    have : (1 : ℚ) / 2 ^ 10 * (2 ^ 23 + 2 ^ 13 * (M : ℚ) + R) =
        2 ^ 13 + (8 * M + R / 2 ^ 10) := by ring
    rw [this]
    have : (0 : ℚ) ≤ 8 * M + R / 2 ^ 10 := by positivity
    linarith
  calc (R : ℚ) * w ≤ 1 / 2 ^ 10 * (2 ^ 23 + 2 ^ 13 * (M : ℚ) + R) * w :=
        mul_le_mul_of_nonneg_right this hw.le
    _ = 1 / 2 ^ 10 * ((2 ^ 23 + 2 ^ 13 * (M : ℚ) + R) * w) := by ring

theorem roundtrip_tolerance_aux (f fuel : Nat) (hE : singleExp f ≤ 142) (hfuel : 10 ≤ fuel) :
    ∃ r qr qf, halfToFloatI fuel (floatToHalfI f) = some r ∧ singleValue r = some qr ∧
      singleValue f = some qf ∧
      |qr - qf| ≤ max ((2 : ℚ) ^ (-10 : Int) * |qf|) ((2 : ℚ) ^ (-24 : Int)) := by
  have hs := singleSign_lt f
  have hm := singleMant_lt f
  by_cases h101 : singleExp f ≤ 101
  · obtain ⟨r, hr, hv⟩ := halfToFloatI_value 0 fuel (by decide) hfuel
    have h0 : halfValue 0 = some 0 := by
      have := halfValue_of_fields 0 0 0 (by norm_num) (by norm_num) (by norm_num)
      simpa using this
    rw [floatToHalfI_underflow f h101]
    by_cases he0 : singleExp f = 0
    · have hf : singleValue f = some ((-1 : ℚ) ^ singleSign f * (singleMant f : ℚ) *
          (2 : ℚ) ^ (-149 : Int)) := by
        rw [singleValue_eq_fields, if_neg (by omega), if_pos he0]
      refine ⟨r, 0, _, hr, hv.trans h0, hf, ?_⟩
      rw [zero_sub, abs_neg]
      exact le_max_of_le_right (tol_denormal _ _ hm)
    · have hf : singleValue f = some ((-1 : ℚ) ^ singleSign f *
          ((2 ^ 23 + singleMant f : Nat) : ℚ) * (2 : ℚ) ^ ((singleExp f : Int) - 150)) := by
        rw [singleValue_eq_fields, if_neg (by omega), if_neg he0]
      refine ⟨r, 0, _, hr, hv.trans h0, hf, ?_⟩
      rw [zero_sub, abs_neg]
      exact le_max_of_le_right (tol_underflow _ _ _ hm h101)
  · have hf : singleValue f = some ((-1 : ℚ) ^ singleSign f *
        ((2 ^ 23 + singleMant f : Nat) : ℚ) * (2 : ℚ) ^ ((singleExp f : Int) - 150)) := by
      rw [singleValue_eq_fields, if_neg (by omega), if_neg (by omega)]
    by_cases h112 : singleExp f ≤ 112
    · have hM := subnormalMant_lt (singleMant f) (singleExp f) hm (by omega) h112
      have hh : floatToHalfI f = singleSign f * 2 ^ 15 + 0 * 2 ^ 10 +
          (2 ^ 23 + singleMant f) / 2 ^ (126 - singleExp f) := by
        rw [floatToHalfI_subnormal f (by omega) h112]
        omega
      obtain ⟨r, hr, hv⟩ := halfToFloatI_value (floatToHalfI f) fuel
        (by rw [hh, halfExp_of_fields _ _ _ (by norm_num) hM]; decide) hfuel
      rw [hh, halfValue_of_fields _ _ _ hs (by norm_num) hM, if_neg (by decide),
        if_pos rfl] at hv
      exact ⟨r, _, _, hr, hv, hf, le_max_of_le_right (tol_subnormal _ _ _ (by omega) h112)⟩
    · have hM : singleMant f / 2 ^ 13 < 2 ^ 10 := by omega
      have hh := floatToHalfI_normal f (by omega) hE
      obtain ⟨r, hr, hv⟩ := halfToFloatI_value (floatToHalfI f) fuel
        (by rw [hh, halfExp_of_fields _ _ _ (by omega) hM]; omega) hfuel
      rw [hh, halfValue_of_fields _ _ _ hs (by omega) hM, if_neg (by omega),
        if_neg (by omega)] at hv
      exact ⟨r, _, _, hr, hv, hf, le_max_of_le_left (tol_normal _ _ _ (by omega))⟩

theorem byteOf_eq (x k : Nat) : byteOf x k = x / 2 ^ (8 * k) % 2 ^ 8 := by
  unfold byteOf
  rw [Nat.shiftRight_eq_div_pow]
  exact Nat.and_pow_two_sub_one_eq_mod _ 8

theorem and_byte0 (x : Nat) : x &&& 0xFF = x % 2 ^ 8 := Nat.and_pow_two_sub_one_eq_mod x 8

theorem and_byte1 (x : Nat) : x &&& 0xFF00 = (x / 2 ^ 8 % 2 ^ 8) * 2 ^ 8 :=
  and_shifted_mask x 8 8

theorem bswap16_eq (x : Nat) : bswap16 x = (x % 2 ^ 8) * 2 ^ 8 + x / 2 ^ 8 % 2 ^ 8 := by
  unfold bswap16
  rw [and_byte0, and_byte1, Nat.shiftLeft_eq, Nat.shiftRight_eq_div_pow,
    or_eq_add_of_lt 8 _ _ (by omega) (by omega)]
  omega

theorem bswap32_eq (x : Nat) :
    bswap32 x = (x % 2 ^ 8) * 2 ^ 24 + (x / 2 ^ 8 % 2 ^ 8) * 2 ^ 16 +
      (x / 2 ^ 16 % 2 ^ 8) * 2 ^ 8 + x / 2 ^ 24 % 2 ^ 8 := by
  unfold bswap32
  rw [and_byte0, and_byte0, and_byte1, and_byte1, Nat.shiftLeft_eq, Nat.shiftLeft_eq,
    Nat.shiftRight_eq_div_pow, Nat.shiftRight_eq_div_pow,
    or_eq_add_of_lt 24 (x % 2 ^ 8 * 2 ^ 24) _ (by omega) (by omega),
    or_eq_add_of_lt 16 _ (x / 2 ^ 8 / 2 ^ 8 % 2 ^ 8 * 2 ^ 8) (by omega) (by omega),
    or_eq_add_of_lt 8 _ (x / 2 ^ 24 % 2 ^ 8) (by omega) (by omega)]
  omega

theorem bswap32_lt (x : Nat) : bswap32 x < 2 ^ 32 := by
  rw [bswap32_eq]
  omega

theorem bswap64_eq (be : Bool) (x : Nat) :
    bswap64 be x = bswap32 (x % 2 ^ 32) * 2 ^ 32 + bswap32 (x / 2 ^ 32 % 2 ^ 32) := by
  have h1 := bswap32_lt (x % 2 ^ 32)
  have h2 := bswap32_lt (x / 2 ^ 32 % 2 ^ 32)
  cases be <;> simp only [bswap64, unionRead, unionWrite, if_true, if_false,
    Bool.false_eq_true, Nat.mod_eq_of_lt h1, Nat.mod_eq_of_lt h2]

/-- The four bytes of a number assembled from four bytes. -/
theorem bytes_of_sum (a b c d : Nat) (ha : a < 2 ^ 8) (hb : b < 2 ^ 8) (hc : c < 2 ^ 8)
    (hd : d < 2 ^ 8) :
    (a * 2 ^ 24 + b * 2 ^ 16 + c * 2 ^ 8 + d) % 2 ^ 8 = d ∧
    (a * 2 ^ 24 + b * 2 ^ 16 + c * 2 ^ 8 + d) / 2 ^ 8 % 2 ^ 8 = c ∧
    (a * 2 ^ 24 + b * 2 ^ 16 + c * 2 ^ 8 + d) / 2 ^ 16 % 2 ^ 8 = b ∧
    (a * 2 ^ 24 + b * 2 ^ 16 + c * 2 ^ 8 + d) / 2 ^ 24 % 2 ^ 8 = a := by
  refine ⟨?_, ?_, ?_, ?_⟩ <;> omega

theorem bswap32_bswap32 (x : Nat) (hx : x < 2 ^ 32) : bswap32 (bswap32 x) = x := by
  have h0 : x % 2 ^ 8 < 2 ^ 8 := Nat.mod_lt _ (by norm_num)
  have h1 : x / 2 ^ 8 % 2 ^ 8 < 2 ^ 8 := Nat.mod_lt _ (by norm_num)
  have h2 : x / 2 ^ 16 % 2 ^ 8 < 2 ^ 8 := Nat.mod_lt _ (by norm_num)
  have h3 : x / 2 ^ 24 % 2 ^ 8 < 2 ^ 8 := Nat.mod_lt _ (by norm_num)
  obtain ⟨e0, e1, e2, e3⟩ := bytes_of_sum _ _ _ _ h0 h1 h2 h3
  rw [bswap32_eq (bswap32 x), bswap32_eq x, e0, e1, e2, e3]
  clear e0 e1 e2 e3
  omega

theorem bswap16_lt (x : Nat) : bswap16 x < 2 ^ 16 := by
  rw [bswap16_eq]
  omega

theorem bytes_of_sum2 (a b : Nat) (ha : a < 2 ^ 8) (hb : b < 2 ^ 8) :
    (a * 2 ^ 8 + b) % 2 ^ 8 = b ∧ (a * 2 ^ 8 + b) / 2 ^ 8 % 2 ^ 8 = a := by
  constructor <;> omega

theorem byteOf_bswap16 (x k : Nat) (hk : k < 2) : byteOf (bswap16 x) k = byteOf x (1 - k) := by
  have h0 : x % 2 ^ 8 < 2 ^ 8 := Nat.mod_lt _ (by norm_num)
  have h1 : x / 2 ^ 8 % 2 ^ 8 < 2 ^ 8 := Nat.mod_lt _ (by norm_num)
  obtain ⟨e0, e1⟩ := bytes_of_sum2 _ _ h0 h1
  rw [byteOf_eq, byteOf_eq, bswap16_eq]
  interval_cases k
  · rw [Nat.mul_zero, Nat.pow_zero, Nat.div_one]
    exact e0
  · rw [Nat.sub_self, Nat.mul_zero, Nat.pow_zero, Nat.div_one]
    exact e1

theorem byteOf_bswap32 (x k : Nat) (hk : k < 4) : byteOf (bswap32 x) k = byteOf x (3 - k) := by
  have h0 : x % 2 ^ 8 < 2 ^ 8 := Nat.mod_lt _ (by norm_num)
  have h1 : x / 2 ^ 8 % 2 ^ 8 < 2 ^ 8 := Nat.mod_lt _ (by norm_num)
  have h2 : x / 2 ^ 16 % 2 ^ 8 < 2 ^ 8 := Nat.mod_lt _ (by norm_num)
  have h3 : x / 2 ^ 24 % 2 ^ 8 < 2 ^ 8 := Nat.mod_lt _ (by norm_num)
  obtain ⟨e0, e1, e2, e3⟩ := bytes_of_sum _ _ _ _ h0 h1 h2 h3
  rw [byteOf_eq, byteOf_eq, bswap32_eq]
  interval_cases k
  · rw [Nat.mul_zero, Nat.pow_zero, Nat.div_one]
    exact e0
  · rw [Nat.mul_one]
    exact e1
  · exact e2
  · rw [Nat.sub_self, Nat.mul_zero, Nat.pow_zero, Nat.div_one]
    exact e3

theorem byteOf_low_word (a b k : Nat) (hk : k < 4) :
    byteOf (a * 2 ^ 32 + b) k = byteOf b k := by
  rw [byteOf_eq, byteOf_eq]
  interval_cases k <;> norm_num <;> omega

theorem byteOf_high_word (a b k : Nat) (hb : b < 2 ^ 32) (hk : k < 4) :
    byteOf (a * 2 ^ 32 + b) (k + 4) = byteOf a k := by
  rw [byteOf_eq, byteOf_eq]
  interval_cases k <;> norm_num <;> omega

theorem byteOf_mod_word (x k : Nat) (hk : k < 4) : byteOf (x % 2 ^ 32) k = byteOf x k := by
  rw [byteOf_eq, byteOf_eq]
  interval_cases k <;> norm_num <;> omega

theorem byteOf_div_word (x k : Nat) (hk : k < 4) :
    byteOf (x / 2 ^ 32 % 2 ^ 32) k = byteOf x (k + 4) := by
  rw [byteOf_eq, byteOf_eq]
  interval_cases k <;> norm_num <;> omega

theorem byteOf_bswap64 (be : Bool) (x k : Nat) (hk : k < 8) :
    byteOf (bswap64 be x) k = byteOf x (7 - k) := by
  rw [bswap64_eq]
  by_cases h4 : k < 4
  · rw [byteOf_low_word _ _ _ h4, byteOf_bswap32 _ _ h4,
      byteOf_div_word _ _ (by omega)]
    congr 1
    omega
  · obtain ⟨j, rfl⟩ : ∃ j, k = j + 4 := ⟨k - 4, by omega⟩
    rw [byteOf_high_word _ _ _ (bswap32_lt _) (by omega), byteOf_bswap32 _ _ (by omega),
      byteOf_mod_word _ _ (by omega)]
    congr 1
    omega

theorem bswap64_lt (be : Bool) (x : Nat) : bswap64 be x < 2 ^ 64 := by
  have h1 := bswap32_lt (x % 2 ^ 32)
  have h2 := bswap32_lt (x / 2 ^ 32 % 2 ^ 32)
  rw [bswap64_eq]
  omega

theorem bswap64_words (be : Bool) (x : Nat) (hx : x < 2 ^ 64) :
    bswap64 be x = (bswap32 (x &&& 0xFFFFFFFF) <<< 32) ||| bswap32 (x >>> 32) := by
  have h2 := bswap32_lt (x >>> 32)
  have hlo : x &&& 0xFFFFFFFF = x % 2 ^ 32 := Nat.and_pow_two_sub_one_eq_mod x 32
  have hhi : x / 2 ^ 32 % 2 ^ 32 = x >>> 32 := by
    rw [Nat.shiftRight_eq_div_pow]
    omega
  rw [bswap64_eq, hlo, hhi, Nat.shiftLeft_eq, or_eq_add_of_lt 32 _ _ (by omega) h2]

theorem swapBytes_length {α : Type} (buf : List α) (p0 p1 : Nat) :
    (swapBytes buf p0 p1).length = buf.length := by
  unfold swapBytes
  split <;> simp

theorem swapBytes_get {α : Type} (buf : List α) (p0 p1 j : Nat) (h0 : p0 < buf.length)
    (h1 : p1 < buf.length) :
    (swapBytes buf p0 p1)[j]? =
      if j = p1 then buf[p0]? else if j = p0 then buf[p1]? else buf[j]? := by
  unfold swapBytes
  rw [List.getElem?_eq_getElem h0, List.getElem?_eq_getElem h1]
  simp only [List.getElem?_set, List.length_set]
  by_cases hj1 : j = p1
  · subst hj1
    simp [h1]
  · by_cases hj0 : j = p0
    · subst hj0
      simp [h0, hj1, Ne.symm hj1]
    · simp [hj1, hj0, Ne.symm hj1, Ne.symm hj0]

theorem reverseLoop_step {α : Type} (buf : List α) (p0 p1 : Int) (h : p0 < p1) :
    reverseLoop buf p0 p1 = reverseLoop (swapBytes buf p0.toNat p1.toNat) (p0 + 1) (p1 - 1) := by
  rw [reverseLoop, if_pos h]

theorem reverseLoop_stop {α : Type} (buf : List α) (p0 p1 : Int) (h : ¬ p0 < p1) :
    reverseLoop buf p0 p1 = buf := by
  rw [reverseLoop, if_neg h]

/-- The loop started on the window of `w` bytes at offset `lo` reverses the window
and leaves the other bytes alone. -/
theorem reverseLoop_window {α : Type} (w : Nat) : ∀ (lo : Nat) (buf : List α),
    lo + w ≤ buf.length →
    (reverseLoop buf (lo : Int) ((lo : Int) + w - 1)).length = buf.length ∧
    ∀ i : Nat, (reverseLoop buf (lo : Int) ((lo : Int) + w - 1))[i]? =
      if lo ≤ i ∧ i < lo + w then buf[lo + (lo + w - 1 - i)]? else buf[i]? := by
  induction w using Nat.strong_induction_on with
  | _ w ih =>
    intro lo buf hlen
    by_cases hw : w < 2
    · rw [reverseLoop_stop _ _ _ (by omega)]
      refine ⟨rfl, fun i => ?_⟩
      by_cases hi : lo ≤ i ∧ i < lo + w
      · rw [if_pos hi]
        congr 1
        omega
      · rw [if_neg hi]
    · have hlt : (lo : Int) < (lo : Int) + w - 1 := by omega
      have e0 : (lo : Int).toNat = lo := by omega
      have e1 : ((lo : Int) + w - 1).toNat = lo + w - 1 := by omega
      have e2 : (lo : Int) + 1 = ((lo + 1 : Nat) : Int) := by omega
      have e3 : (lo : Int) + w - 1 - 1 = ((lo + 1 : Nat) : Int) + (w - 2 : Nat) - 1 := by omega
      rw [reverseLoop_step _ _ _ hlt, e0, e1, e2, e3]
      have hlen' : lo + 1 + (w - 2) ≤ (swapBytes buf lo (lo + w - 1)).length := by
        rw [swapBytes_length]
        omega
      obtain ⟨hl, hg⟩ := ih (w - 2) (by omega) (lo + 1) (swapBytes buf lo (lo + w - 1)) hlen'
      refine ⟨by rw [hl, swapBytes_length], fun i => ?_⟩
      rw [hg i]
      by_cases hin : lo + 1 ≤ i ∧ i < lo + 1 + (w - 2)
      · rw [if_pos hin, if_pos (by omega),
          swapBytes_get _ _ _ _ (by omega) (by omega), if_neg (by omega), if_neg (by omega)]
        congr 1
        omega
      · rw [if_neg hin, swapBytes_get _ _ _ _ (by omega) (by omega)]
        by_cases h1 : i = lo + w - 1
        · rw [if_pos h1, if_pos (by omega)]
          congr 1
          omega
        · rw [if_neg h1]
          by_cases h0 : i = lo
          · rw [if_pos h0, if_pos (by omega)]
            congr 1
            omega
          · rw [if_neg h0, if_neg (by omega)]

theorem bswapBuffer_get {α : Type} (pData : List α) (size : Nat)
    (h : size ≤ pData.length) :
    (bswapBuffer pData size).length = pData.length ∧
    ∀ i : Nat, (bswapBuffer pData size)[i]? =
      if i < size then pData[size - 1 - i]? else pData[i]? := by
  have hw := reverseLoop_window size 0 pData (by omega)
  rw [Nat.cast_zero] at hw
  refine ⟨hw.1, fun i => ?_⟩
  have := hw.2 i
  unfold bswapBuffer
  rw [this]
  by_cases hi : i < size
  · rw [if_pos (by omega), if_pos hi]
    congr 1
    omega
  · rw [if_neg (by omega), if_neg hi]

/-- Index-wise description of `bswapBuffer`, with the whole-buffer case. -/
theorem bswapBuffer_spec {α : Type} (pData : List α) (size : Nat)
    (h : size ≤ pData.length) :
    (bswapBuffer pData size).length = pData.length ∧
    (∀ i : Nat, i < size → (bswapBuffer pData size)[i]? = pData[size - 1 - i]?) ∧
    (∀ i : Nat, size ≤ i → (bswapBuffer pData size)[i]? = pData[i]?) ∧
    (size = pData.length → bswapBuffer pData size = pData.reverse) := by
  obtain ⟨hl, hg⟩ := bswapBuffer_get pData size h
  refine ⟨hl, fun i hi => ?_, fun i hi => ?_, fun hs => ?_⟩
  · rw [hg i, if_pos hi]
  · rw [hg i, if_neg (by omega)]
  · apply List.ext_getElem?
    intro i
    rw [hg i]
    by_cases hi : i < size
    · rw [if_pos hi, List.getElem?_reverse (by omega), hs]
    · rw [if_neg hi, List.getElem?_eq_none (by omega),
        List.getElem?_eq_none (by rw [List.length_reverse]; omega)]

theorem bswapChunks_succ {α : Type} (pData : List α) (size n : Nat) :
    bswapChunks pData size (n + 1) =
      reverseLoop (bswapChunks pData size n) ((n * size : Nat) : Int)
        (((n * size : Nat) : Int) + size - 1) := by
  unfold bswapChunks
  rw [List.range_succ, List.foldl_append]
  rfl

theorem bswapChunks_invariant {α : Type} (pData : List α) (size : Nat) : ∀ count : Nat,
    size * count ≤ pData.length →
    (bswapChunks pData size count).length = pData.length ∧
    (∀ c i : Nat, c < count → i < size →
      (bswapChunks pData size count)[c * size + i]? = pData[c * size + (size - 1 - i)]?) ∧
    (∀ j : Nat, size * count ≤ j → (bswapChunks pData size count)[j]? = pData[j]?) := by
  intro count
  induction count with
  | zero =>
    intro _
    refine ⟨rfl, fun c i hc _ => absurd hc (Nat.not_lt_zero c), fun j _ => rfl⟩
  | succ n ih =>
    intro hlen
    have hmul : size * (n + 1) = n * size + size := by ring
    have hmul' : size * n = n * size := Nat.mul_comm _ _
    obtain ⟨hl, hc, hr⟩ := ih (by omega)
    obtain ⟨wl, wg⟩ := reverseLoop_window size (n * size) (bswapChunks pData size n)
      (by omega)
    rw [bswapChunks_succ]
    refine ⟨by rw [wl, hl], fun c i hcn hi => ?_, fun j hj => ?_⟩
    · rw [wg]
      by_cases hcn' : c < n
      · have : (c + 1) * size ≤ n * size := Nat.mul_le_mul_right _ hcn'
        have : (c + 1) * size = c * size + size := by ring
        rw [if_neg (by omega)]
        exact hc c i hcn' hi
      · have hcn2 : c = n := by omega
        subst hcn2
        rw [if_pos (by omega), hr _ (by omega)]
        congr 1
        omega
    · rw [wg, if_neg (by omega)]
      exact hr j (by omega)

/-- One smearing step. -/
theorem testBit_smear (y d j : Nat) :
    (y ||| (y >>> d)).testBit j = (y.testBit j || y.testBit (d + j)) := by
  rw [Nat.testBit_or, Nat.testBit_shiftRight]

theorem smear_step (x y d s : Nat) (hd : d = 2 ^ s) (hs : s < 5)
    (hy : ∀ j, y.testBit j = true ↔ ∃ t, t < 32 ∧ t % 2 ^ (s + 1) = 0 ∧ x.testBit (j + t) = true) :
    ∀ j, (y ||| (y >>> d)).testBit j = true ↔
      ∃ t, t < 32 ∧ t % 2 ^ s = 0 ∧ x.testBit (j + t) = true := by
  intro j
  rw [testBit_smear, Bool.or_eq_true, hy, hy]
  subst hd
  constructor
  · rintro (⟨t, h1, h2, h3⟩ | ⟨t, h1, h2, h3⟩)
    · refine ⟨t, h1, ?_, h3⟩
      interval_cases s <;> omega
    · refine ⟨2 ^ s + t, ?_, ?_, ?_⟩
      · interval_cases s <;> omega
      · interval_cases s <;> omega
      · rw [← h3]
        congr 1
        omega
  · rintro ⟨t, h1, h2, h3⟩
    by_cases ht : t % 2 ^ (s + 1) = 0
    · exact Or.inl ⟨t, h1, ht, h3⟩
    · refine Or.inr ⟨t - 2 ^ s, ?_, ?_, ?_⟩
      · omega
      · interval_cases s <;> omega
      · rw [← h3]
        congr 1
        have : 2 ^ s ≤ t := by interval_cases s <;> omega
        omega

theorem firstPO2From_eq (n : Nat) :
    firstPO2From n = (smear ((n + (2 ^ 32 - 1)) % 2 ^ 32) + 1) % 2 ^ 32 := rfl

theorem testBit_smear_iff (x j : Nat) :
    (smear x).testBit j = true ↔ ∃ t, t < 32 ∧ x.testBit (j + t) = true := by
  have h5 : ∀ j, x.testBit j = true ↔
      ∃ t, t < 32 ∧ t % 2 ^ (4 + 1) = 0 ∧ x.testBit (j + t) = true := by
    intro j
    constructor
    · intro h
      exact ⟨0, by norm_num, by norm_num, h⟩
    · rintro ⟨t, h1, h2, h3⟩
      have : t = 0 := by omega
      subst this
      exact h3
  have h4 := smear_step x _ 16 4 (by norm_num) (by norm_num) h5
  have h3 := smear_step x _ 8 3 (by norm_num) (by norm_num) h4
  have h2 := smear_step x _ 4 2 (by norm_num) (by norm_num) h3
  have h1 := smear_step x _ 2 1 (by norm_num) (by norm_num) h2
  have h0 := smear_step x _ 1 0 (by norm_num) (by norm_num) h1
  have := h0 j
  simp only [Nat.pow_zero, Nat.mod_one, true_and] at this
  exact this

theorem testBit_top (x k : Nat) (h1 : 2 ^ k ≤ x) (h2 : x < 2 ^ (k + 1)) :
    x.testBit k = true := by
  rw [Nat.testBit_to_div_mod]
  have : x / 2 ^ k = 1 := by
    apply Nat.div_eq_of_lt_le
    · omega
    · rw [Nat.pow_succ] at h2
      omega
  rw [this]
  rfl

theorem smear_eq (x k : Nat) (h1 : 2 ^ k ≤ x) (h2 : x < 2 ^ (k + 1)) (hk : k < 32) :
    smear x = 2 ^ (k + 1) - 1 := by
  apply Nat.eq_of_testBit_eq
  intro j
  rw [Nat.testBit_two_pow_sub_one]
  by_cases hj : j < k + 1
  · rw [decide_eq_true hj, testBit_smear_iff]
    refine ⟨k - j, by omega, ?_⟩
    have : j + (k - j) = k := by omega
    rw [this]
    exact testBit_top x k h1 h2
  · rw [decide_eq_false hj]
    apply Bool.eq_false_iff.mpr
    intro h
    rw [testBit_smear_iff] at h
    obtain ⟨t, -, ht⟩ := h
    have hlt : x < 2 ^ (j + t) :=
      lt_of_lt_of_le h2 (Nat.pow_le_pow_right (by norm_num) (by omega))
    rw [Nat.testBit_lt_two_pow hlt] at ht
    exact Bool.false_ne_true ht

theorem exists_log (x : Nat) (h0 : x ≠ 0) (hx : x < 2 ^ 32) :
    ∃ k, k < 32 ∧ 2 ^ k ≤ x ∧ x < 2 ^ (k + 1) := by
  refine ⟨Nat.log2 x, ?_, ?_, Nat.lt_log2_self⟩
  · exact (Nat.log2_lt h0).mpr hx
  · exact Nat.log2_self_le h0

theorem firstPO2From_of_log (n k : Nat) (hn : 2 ≤ n) (hn32 : n ≤ 2 ^ 32)
    (h1 : 2 ^ k ≤ n - 1) (h2 : n - 1 < 2 ^ (k + 1)) (hk : k < 32) :
    firstPO2From n = 2 ^ (k + 1) % 2 ^ 32 := by
  have hx : (n + (2 ^ 32 - 1)) % 2 ^ 32 = n - 1 := by omega
  have hpos : 1 ≤ 2 ^ (k + 1) := Nat.one_le_two_pow
  rw [firstPO2From_eq, hx, smear_eq _ k h1 h2 hk, Nat.sub_add_cancel hpos]

theorem firstPO2From_least (n : Nat) (hn : n ≤ 2 ^ 31) :
    n ≤ firstPO2From n ∧ PowerOfTwoOrZero (firstPO2From n) ∧
    ∀ m, n ≤ m → PowerOfTwoOrZero m → firstPO2From n ≤ m := by
  by_cases h0 : n = 0
  · subst h0
    have : firstPO2From 0 = 0 := by decide
    rw [this]
    exact ⟨le_refl _, Or.inl rfl, fun m _ _ => Nat.zero_le m⟩
  by_cases h1 : n = 1
  · subst h1
    have : firstPO2From 1 = 1 := by decide
    rw [this]
    exact ⟨le_refl _, Or.inr ⟨0, rfl⟩, fun m hm _ => hm⟩
  obtain ⟨k, hk, hlo, hhi⟩ := exists_log (n - 1) (by omega) (by omega)
  have hk31 : k < 31 := by
    by_contra hc
    have : 2 ^ 31 ≤ 2 ^ k := Nat.pow_le_pow_right (by norm_num) (by omega)
    omega
  have hle : 2 ^ (k + 1) ≤ 2 ^ 31 := Nat.pow_le_pow_right (by norm_num) (by omega)
  have hv : firstPO2From n = 2 ^ (k + 1) := by
    rw [firstPO2From_of_log n k (by omega) (by omega) hlo hhi hk]
    exact Nat.mod_eq_of_lt (by omega)
  rw [hv]
  refine ⟨by omega, Or.inr ⟨k + 1, rfl⟩, ?_⟩
  rintro m hm (rfl | ⟨a, rfl⟩)
  · omega
  · apply Nat.pow_le_pow_right (by norm_num)
    by_contra hc
    have : 2 ^ a ≤ 2 ^ k := Nat.pow_le_pow_right (by norm_num) (by omega)
    omega

theorem firstPO2From_wrap (n : Nat) (h1 : 2 ^ 31 < n) (h2 : n < 2 ^ 32) :
    firstPO2From n = 0 := by
  obtain ⟨k, hk, hlo, hhi⟩ := exists_log (n - 1) (by omega) (by omega)
  have hk31 : k = 31 := by
    by_contra hc
    have : 2 ^ (k + 1) ≤ 2 ^ 31 := Nat.pow_le_pow_right (by norm_num) (by omega)
    omega
  subst hk31
  rw [firstPO2From_of_log n 31 (by omega) (by omega) hlo hhi hk]
  norm_num

theorem single_fields_of (s e m : Nat) (hs : s < 2) (he : e < 2 ^ 8) (hm : m < 2 ^ 23) :
    singleSign (s * 2 ^ 31 + e * 2 ^ 23 + m) = s ∧ singleExp (s * 2 ^ 31 + e * 2 ^ 23 + m) = e ∧
    singleMant (s * 2 ^ 31 + e * 2 ^ 23 + m) = m := by
  rw [singleSign_eq, singleExp_eq, singleMant_eq]
  refine ⟨?_, ?_, ?_⟩ <;> omega

theorem half_eq_fields (h : Nat) (hh : h < 2 ^ 16) :
    h = halfSign h * 2 ^ 15 + halfExp h * 2 ^ 10 + halfMant h := by
  rw [halfSign_eq, halfExp_eq, halfMant_eq]
  omega

/-- Every finite half other than negative zero survives the round trip through a
single. -/
theorem floatToHalfI_halfToFloatI (h fuel : Nat) (hh : h < 2 ^ 16) (hfin : halfExp h ≠ 31)
    (hne : h ≠ 0x8000) (hfuel : 10 ≤ fuel) :
    (halfToFloatI fuel h).map floatToHalfI = some h := by
  have hs := halfSign_lt h
  have hE := halfExp_lt h
  have hm := halfMant_lt h
  have hfields := half_eq_fields h hh
  by_cases he : halfExp h = 0
  · by_cases hm0 : halfMant h = 0
    · have hs0 : halfSign h = 0 := by omega
      have h0 : h = 0 := by omega
      rw [halfToFloatI_zero fuel h he hm0, hs0, h0]
      decide
    · obtain ⟨j, hj1, hj10, h1, h2⟩ := exists_shift _ hm0 hm
      rw [halfToFloatI_subnormal fuel h j he hj1 (by omega) h1 h2, Option.map_some']
      have hM : (halfMant h * 2 ^ j - 2 ^ 10) * 2 ^ 13 < 2 ^ 23 := by omega
      obtain ⟨f1, f2, f3⟩ := single_fields_of (halfSign h) (113 - j) _ hs (by omega) hM
      have hpow : 2 ^ (126 - (113 - j)) = 2 ^ j * 2 ^ 13 := by
        rw [← Nat.pow_add]
        congr 1
        omega
      have hn : 2 ^ 23 + (halfMant h * 2 ^ j - 2 ^ 10) * 2 ^ 13 =
          halfMant h * (2 ^ j * 2 ^ 13) := by
        have h23 : (2 : Nat) ^ 23 = 2 ^ 10 * 2 ^ 13 := by norm_num
        rw [h23, ← Nat.add_mul, Nat.add_sub_cancel' h1, Nat.mul_assoc]
      rw [floatToHalfI_subnormal _ (by omega) (by omega), f1, f2, f3, hpow, hn,
        Nat.mul_div_cancel _ (Nat.mul_pos (Nat.two_pow_pos j) (Nat.two_pow_pos 13))]
      exact congrArg some (by omega)
  · rw [halfToFloatI_normal fuel h he hfin, Option.map_some']
    obtain ⟨f1, f2, f3⟩ := single_fields_of (halfSign h) (halfExp h + 112)
      (halfMant h * 2 ^ 13) hs (by omega) (by omega)
    rw [floatToHalfI_normal _ (by omega) (by omega), f1, f2, f3]
    exact congrArg some (by omega)

theorem isPO2_iff (n : Nat) (hn : n < 2 ^ 32) :
    isPO2 n = true ↔ n = 0 ∨ ∃ k, k ≤ 31 ∧ n = 2 ^ k := by
  unfold isPO2
  rw [beq_iff_eq]
  constructor
  · intro h
    by_cases h0 : n = 0
    · exact Or.inl h0
    · right
      obtain ⟨k, hk, hlo, hhi⟩ := exists_log n h0 hn
      refine ⟨k, by omega, ?_⟩
      by_contra hne
      have hm : (n + (2 ^ 32 - 1)) % 2 ^ 32 = n - 1 := by omega
      rw [hm] at h
      have t1 := testBit_top n k hlo hhi
      have t2 := testBit_top (n - 1) k (by omega) (by omega)
      have t3 : (n &&& (n - 1)).testBit k = true := by
        rw [Nat.testBit_and, t1, t2]
        rfl
      rw [h, Nat.zero_testBit] at t3
      exact Bool.false_ne_true t3
  · rintro (rfl | ⟨k, hk, rfl⟩)
    · decide
    · have hpos : 1 ≤ 2 ^ k := Nat.one_le_two_pow
      have hlt : 2 ^ k < 2 ^ 32 := hn
      have hm : (2 ^ k + (2 ^ 32 - 1)) % 2 ^ 32 = 2 ^ k - 1 := by omega
      rw [hm, Nat.and_pow_two_sub_one_eq_mod, Nat.mod_self]

theorem mostSignificantBitSetLoop_zero (result : Nat) :
    mostSignificantBitSetLoop 0 result = result := by
  rw [mostSignificantBitSetLoop]
  simp

theorem mostSignificantBitSetLoop_step (value result : Nat) (h : value ≠ 0) :
    mostSignificantBitSetLoop value result =
      mostSignificantBitSetLoop (value >>> 1) ((result + 1) % 2 ^ 32) := by
  rw [mostSignificantBitSetLoop, if_pos h]

/-- The loop counts the bits of `value`. -/
theorem mostSignificantBitSetLoop_eq (k : Nat) : ∀ value result : Nat,
    2 ^ k ≤ value → value < 2 ^ (k + 1) → result + k + 1 < 2 ^ 32 →
    mostSignificantBitSetLoop value result = result + k + 1 := by
  induction k with
  | zero =>
    intro value result h1 h2 h3
    have hv : value = 1 := by omega
    subst hv
    rw [mostSignificantBitSetLoop_step _ _ (by norm_num)]
    have : (1 : Nat) >>> 1 = 0 := by decide
    rw [this, mostSignificantBitSetLoop_zero]
    omega
  | succ k ih =>
    intro value result h1 h2 h3
    have hpos : 1 ≤ 2 ^ k := Nat.one_le_two_pow
    have e1 : 2 ^ (k + 1) = 2 * 2 ^ k := by ring
    have e2 : 2 ^ (k + 1 + 1) = 2 * (2 * 2 ^ k) := by ring
    rw [e1] at h1
    rw [e2] at h2
    rw [mostSignificantBitSetLoop_step _ _ (by omega), Nat.shiftRight_eq_div_pow,
      Nat.mod_eq_of_lt (by omega),
      ih (value / 2 ^ 1) (result + 1) (by omega) (by rw [e1]; omega) (by omega)]
    omega

theorem mostSignificantBitSet_spec (value : Nat) (hv : value < 2 ^ 32) :
    (value ≠ 0 → ∃ k, k ≤ 31 ∧ mostSignificantBitSet value = k ∧ 2 ^ k ≤ value ∧
      value < 2 ^ (k + 1)) ∧
    (value = 0 → mostSignificantBitSet value = 2 ^ 32 - 1) := by
  constructor
  · intro h0
    obtain ⟨k, hk, hlo, hhi⟩ := exists_log value h0 hv
    refine ⟨k, by omega, ?_, hlo, hhi⟩
    unfold mostSignificantBitSet
    rw [mostSignificantBitSetLoop_eq k value 0 hlo hhi (by omega)]
    omega
  · rintro rfl
    unfold mostSignificantBitSet
    rw [mostSignificantBitSetLoop_zero]
    norm_num

theorem getBitShiftLoop_spec (mask : Nat) : ∀ (result : Nat) (h : mask ≠ 0),
    ∃ r, getBitShiftLoop mask result h = result + r ∧ mask % 2 ^ r = 0 ∧
      mask / 2 ^ r % 2 = 1 := by
  induction mask using Nat.strong_induction_on with
  | _ mask ih =>
    intro result h
    rw [getBitShiftLoop]
    by_cases hb : mask &&& 1 = 0
    · rw [dif_pos hb]
      have hb' := hb
      rw [Nat.and_one_is_mod] at hb'
      have hlt : mask >>> 1 < mask := by
        rw [Nat.shiftRight_eq_div_pow]
        omega
      have hne : mask >>> 1 ≠ 0 := by
        rw [Nat.shiftRight_eq_div_pow]
        omega
      obtain ⟨r, h1, h2, h3⟩ := ih (mask >>> 1) hlt (result + 1) hne
      refine ⟨r + 1, ?_, ?_, ?_⟩
      · rw [h1]
        omega
      · rw [Nat.shiftRight_eq_div_pow] at h2
        have hd := Nat.div_add_mod mask 2
        have e : 2 ^ (r + 1) = 2 * 2 ^ r := by ring
        rw [e]
        have hm : mask = 2 * (mask / 2) := by omega
        rw [hm, Nat.mul_mod_mul_left]
        rw [Nat.pow_one] at h2
        rw [h2]
      · rw [Nat.shiftRight_eq_div_pow, Nat.pow_one] at h3
        have e : 2 ^ (r + 1) = 2 * 2 ^ r := by ring
        rw [e, ← Nat.div_div_eq_div_mul]
        exact h3
    · rw [dif_neg hb]
      rw [Nat.and_one_is_mod] at hb
      refine ⟨0, rfl, ?_, ?_⟩
      · rw [Nat.pow_zero]
        exact Nat.mod_one mask
      · rw [Nat.pow_zero, Nat.div_one]
        omega

theorem getBitShift_zero : getBitShift 0 = 0 := by decide

theorem getBitShift_spec (mask : Nat) (h : mask ≠ 0) :
    mask % 2 ^ getBitShift mask = 0 ∧ mask / 2 ^ getBitShift mask % 2 = 1 := by
  obtain ⟨r, h1, h2, h3⟩ := getBitShiftLoop_spec mask 0 h
  have : getBitShift mask = r := by
    unfold getBitShift
    rw [dif_neg h, h1]
    omega
  rw [this]
  exact ⟨h2, h3⟩

theorem getBitShift_le (mask : Nat) (h : mask ≠ 0) (hm : mask < 2 ^ 32) :
    getBitShift mask ≤ 31 := by
  obtain ⟨h1, -⟩ := getBitShift_spec mask h
  by_contra hc
  have hdvd : 2 ^ getBitShift mask ∣ mask := Nat.dvd_of_mod_eq_zero h1
  have hle : 2 ^ getBitShift mask ≤ mask := Nat.le_of_dvd (by omega) hdvd
  have : 2 ^ 32 ≤ 2 ^ getBitShift mask := Nat.pow_le_pow_right (by norm_num) (by omega)
  omega

theorem getBitShift_claim (mask : Nat) (hm : mask < 2 ^ 32) :
    (mask ≠ 0 → getBitShift mask ≤ 31 ∧ (mask >>> getBitShift mask) % 2 = 1 ∧
      (mask >>> getBitShift mask) <<< getBitShift mask = mask) ∧
    (mask = 0 → getBitShift mask = 0) := by
  constructor
  · intro h
    obtain ⟨h1, h2⟩ := getBitShift_spec mask h
    refine ⟨getBitShift_le mask h hm, ?_, ?_⟩
    · rw [Nat.shiftRight_eq_div_pow]
      exact h2
    · rw [Nat.shiftRight_eq_div_pow, Nat.shiftLeft_eq]
      exact Nat.div_mul_cancel (Nat.dvd_of_mod_eq_zero h1)
  · rintro rfl
    exact getBitShift_zero

/-- `convertBitPattern` with its intermediate values named. -/
theorem convertBitPattern_eq (srcValue srcBitMask destBitMask : Nat) :
    convertBitPattern srcValue srcBitMask destBitMask =
      if srcBitMask >>> getBitShift srcBitMask = 0 then none
      else some ((((((srcValue &&& srcBitMask) >>> getBitShift srcBitMask) *
        (destBitMask >>> getBitShift destBitMask)) % 2 ^ 32) /
          (srcBitMask >>> getBitShift srcBitMask)) <<< getBitShift destBitMask % 2 ^ 32) := rfl

theorem srcMax_ne_zero (mask : Nat) (h : mask ≠ 0) : mask >>> getBitShift mask ≠ 0 := by
  obtain ⟨-, h2⟩ := getBitShift_spec mask h
  rw [Nat.shiftRight_eq_div_pow]
  intro h0
  rw [h0] at h2
  exact absurd h2 (by decide)

theorem shiftRight_shiftLeft_getBitShift (mask : Nat) :
    (mask >>> getBitShift mask) <<< getBitShift mask = mask := by
  by_cases h : mask = 0
  · subst h
    decide
  · obtain ⟨h1, -⟩ := getBitShift_spec mask h
    rw [Nat.shiftRight_eq_div_pow, Nat.shiftLeft_eq]
    exact Nat.div_mul_cancel (Nat.dvd_of_mod_eq_zero h1)

theorem convertBitPattern_formula (srcValue srcBitMask destBitMask : Nat)
    (hs : srcBitMask ≠ 0) (hd : destBitMask < 2 ^ 32)
    (hmax : (srcBitMask >>> getBitShift srcBitMask) *
      (destBitMask >>> getBitShift destBitMask) < 2 ^ 32) :
    convertBitPattern srcValue srcBitMask destBitMask =
      some (((((srcValue &&& srcBitMask) >>> getBitShift srcBitMask) *
        (destBitMask >>> getBitShift destBitMask)) /
          (srcBitMask >>> getBitShift srcBitMask)) <<< getBitShift destBitMask) := by
  have hne := srcMax_ne_zero srcBitMask hs
  have hback := shiftRight_shiftLeft_getBitShift destBitMask
  have hv : (srcValue &&& srcBitMask) >>> getBitShift srcBitMask ≤
      srcBitMask >>> getBitShift srcBitMask := by
    rw [Nat.shiftRight_eq_div_pow, Nat.shiftRight_eq_div_pow]
    exact Nat.div_le_div_right Nat.and_le_right
  rw [convertBitPattern_eq, if_neg hne]
  generalize (srcValue &&& srcBitMask) >>> getBitShift srcBitMask = v at hv ⊢
  generalize srcBitMask >>> getBitShift srcBitMask = srcMax at hv hne hmax ⊢
  generalize getBitShift destBitMask = destShift at hback hmax ⊢
  generalize destBitMask >>> destShift = destMax at hback hmax ⊢
  have hprod : v * destMax ≤ srcMax * destMax := Nat.mul_le_mul_right _ hv
  have hq : v * destMax / srcMax ≤ destMax :=
    Nat.div_le_of_le_mul hprod
  have hsh : (v * destMax / srcMax) <<< destShift ≤ destBitMask := by
    rw [← hback, Nat.shiftLeft_eq, Nat.shiftLeft_eq]
    exact Nat.mul_le_mul_right _ hq
  rw [Nat.mod_eq_of_lt (lt_of_le_of_lt hprod hmax), Nat.mod_eq_of_lt (lt_of_le_of_lt hsh hd)]

theorem convertBitPattern_spec (srcValue srcBitMask destBitMask : Nat)
    (hs : srcBitMask ≠ 0) (hd : destBitMask < 2 ^ 32)
    (hmax : (srcBitMask >>> getBitShift srcBitMask) *
      (destBitMask >>> getBitShift destBitMask) < 2 ^ 32) :
    convertBitPattern srcValue srcBitMask destBitMask =
      some (((((srcValue &&& srcBitMask) >>> getBitShift srcBitMask) *
        (destBitMask >>> getBitShift destBitMask)) /
          (srcBitMask >>> getBitShift srcBitMask)) <<< getBitShift destBitMask) ∧
    (srcValue &&& srcBitMask = 0 →
      convertBitPattern srcValue srcBitMask destBitMask = some 0) ∧
    (srcValue &&& srcBitMask = srcBitMask →
      convertBitPattern srcValue srcBitMask destBitMask = some destBitMask) := by
  have hf := convertBitPattern_formula srcValue srcBitMask destBitMask hs hd hmax
  have hne := srcMax_ne_zero srcBitMask hs
  refine ⟨hf, fun h0 => ?_, fun h1 => ?_⟩
  · rw [hf, h0, Nat.zero_shiftRight, Nat.zero_mul, Nat.zero_div, Nat.zero_shiftLeft]
  · rw [hf, h1, Nat.mul_div_cancel_left _ (Nat.pos_of_ne_zero hne),
      shiftRight_shiftLeft_getBitShift]

/-- With a non-zero source mask the divisor of `convertBitPattern` is non-zero and a
result is produced; with a zero source mask the divisor is zero. -/
theorem convertBitPattern_defined (srcValue srcBitMask destBitMask : Nat) :
    (srcBitMask ≠ 0 → srcBitMask >>> getBitShift srcBitMask ≠ 0 ∧
      ∃ r, convertBitPattern srcValue srcBitMask destBitMask = some r) ∧
    (srcBitMask = 0 → srcBitMask >>> getBitShift srcBitMask = 0 ∧
      convertBitPattern srcValue srcBitMask destBitMask = none) := by
  constructor
  · intro hs
    have hne := srcMax_ne_zero srcBitMask hs
    refine ⟨hne, ?_⟩
    rw [convertBitPattern_eq, if_neg hne]
    exact ⟨_, rfl⟩
  · rintro rfl
    have h0 : (0 : Nat) >>> getBitShift 0 = 0 := Nat.zero_shiftRight _
    refine ⟨h0, ?_⟩
    rw [convertBitPattern_eq, if_pos h0]

theorem lowMask_eq (k : Nat) (hk : k ≤ 31) : lowMask k = 2 ^ k - 1 := by
  unfold lowMask
  have h1 : 1 ≤ 2 ^ k := Nat.one_le_two_pow
  have h2 : 2 ^ k ≤ 2 ^ 31 := Nat.pow_le_pow_right (by norm_num) hk
  rw [Nat.shiftLeft_eq, Nat.one_mul]
  omega

theorem ones_shiftRight (n p : Nat) (h : p ≤ n) : (2 ^ n - 1) >>> (n - p) = 2 ^ p - 1 := by
  rw [Nat.shiftRight_eq_div_pow]
  have hpow : 2 ^ p * 2 ^ (n - p) = 2 ^ n := by
    rw [← Nat.pow_add]
    congr 1
    omega
  have h1 : 1 ≤ 2 ^ p := Nat.one_le_two_pow
  have h2 : 1 ≤ 2 ^ (n - p) := Nat.one_le_two_pow
  have h3 : (2 ^ p - 1) * 2 ^ (n - p) = 2 ^ n - 2 ^ (n - p) := by
    rw [Nat.sub_mul, hpow, Nat.one_mul]
  have h4 : 2 ^ (n - p) ≤ 2 ^ n := Nat.pow_le_pow_right (by norm_num) (by omega)
  apply Nat.div_eq_of_lt_le
  · rw [h3]
    omega
  · rw [Nat.sub_add_cancel h1, hpow]
    omega

theorem fixedToFixed_zero (n p : Nat) : fixedToFixed 0 n p = some 0 := by
  unfold fixedToFixed
  by_cases h1 : n > p
  · rw [if_pos h1, Nat.zero_shiftRight]
  · rw [if_neg h1]
    by_cases h2 : n < p
    · rw [if_pos h2, if_pos rfl]
    · rw [if_neg h2]

theorem fixedToFixed_max (n p : Nat) (hn1 : 1 ≤ n) (hn : n ≤ 31) (hp : p ≤ 31) :
    fixedToFixed (2 ^ n - 1) n p = some (2 ^ p - 1) := by
  have hpos : 2 ^ 1 ≤ 2 ^ n := Nat.pow_le_pow_right (by norm_num) hn1
  have hne : 2 ^ n - 1 ≠ 0 := by omega
  unfold fixedToFixed
  by_cases h1 : n > p
  · rw [if_pos h1, ones_shiftRight n p (by omega)]
  · rw [if_neg h1]
    by_cases h2 : n < p
    · rw [if_pos h2, if_neg hne, if_pos (lowMask_eq n hn).symm, lowMask_eq p hp]
    · have : n = p := by omega
      rw [if_neg h2, this]

theorem fixedToFixed_endpoints (n p : Nat) (hn1 : 1 ≤ n) (hn : n ≤ 31) (hp : p ≤ 31) :
    fixedToFixed 0 n p = some 0 ∧ fixedToFixed (2 ^ n - 1) n p = some (2 ^ p - 1) :=
  ⟨fixedToFixed_zero n p, fixedToFixed_max n p hn1 hn hp⟩

/-- The arithmetic core of the base case: dividing `(D * k + r) * Q` by `D * Q - 1`. -/
theorem div_pred_mul (D Q k r N : Nat) (hN : N + 1 = D * Q) (hr : r < D)
    (hval : D * k + r < N) : (D * k + r) * Q / N = k := by
  have hk : k < Q := by
    have h1 : D * k < D * Q := by omega
    exact Nat.lt_of_mul_lt_mul_left h1
  have hQ : 1 ≤ Q := by omega
  have hexp : (D * k + r) * Q = k * (N + 1) + r * Q := by
    rw [hN]
    ring
  have hkey : k + r * Q + 1 < D * Q := by
    by_cases hr2 : r + 2 ≤ D
    · have h1 : (r + 2) * Q ≤ D * Q := Nat.mul_le_mul_right _ hr2
      have h2 : (r + 2) * Q = r * Q + 2 * Q := by ring
      omega
    · have hrD : r + 1 = D := by omega
      have h1 : D * (k + 1) < D * Q := by
        have : D * (k + 1) = D * k + D := by ring
        omega
      have h2 : k + 1 < Q := Nat.lt_of_mul_lt_mul_left h1
      have h3 : (r + 1) * Q = D * Q := by rw [hrD]
      have h4 : (r + 1) * Q = r * Q + Q := by ring
      omega
  apply Nat.div_eq_of_lt_le
  · rw [hexp]
    have : k * (N + 1) = k * N + k := by ring
    omega
  · rw [hexp]
    have h1 : k * (N + 1) = k * N + k := by ring
    have h2 : (k + 1) * N = k * N + N := by ring
    omega

theorem scale_small (value n q : Nat) (hq : q ≤ n) (hv : value < 2 ^ n - 1) :
    value * 2 ^ q / (2 ^ n - 1) = value >>> (n - q) := by
  have hpow : 2 ^ (n - q) * 2 ^ q = 2 ^ n := by
    rw [← Nat.pow_add]
    congr 1
    omega
  have hD : 0 < 2 ^ (n - q) := Nat.two_pow_pos _
  have hdm := Nat.div_add_mod value (2 ^ (n - q))
  have hr := Nat.mod_lt value hD
  rw [Nat.shiftRight_eq_div_pow]
  have h1 : 1 ≤ 2 ^ n := Nat.one_le_two_pow
  have key := div_pred_mul (2 ^ (n - q)) (2 ^ q) (value / 2 ^ (n - q)) (value % 2 ^ (n - q))
    (2 ^ n - 1) (by rw [hpow]; omega) hr (by rw [hdm]; exact hv)
  rw [hdm] at key
  exact key

theorem scale_step (value n q : Nat) (hq : n ≤ q) (hn : 1 ≤ 2 ^ n - 1) :
    value * 2 ^ q / (2 ^ n - 1) =
      value * 2 ^ (q - n) + value * 2 ^ (q - n) / (2 ^ n - 1) := by
  have hpow : 2 ^ q = 2 ^ (q - n) * 2 ^ n := by
    rw [← Nat.pow_add]
    congr 1
    omega
  have h1 : 1 ≤ 2 ^ n := Nat.one_le_two_pow
  have hsplit : value * 2 ^ q =
      value * 2 ^ (q - n) + (2 ^ n - 1) * (value * 2 ^ (q - n)) := by
    rw [hpow, Nat.sub_mul, Nat.one_mul]
    have : value * 2 ^ (q - n) ≤ 2 ^ n * (value * 2 ^ (q - n)) :=
      Nat.le_mul_of_pos_left _ (by omega)
    have e : value * (2 ^ (q - n) * 2 ^ n) = 2 ^ n * (value * 2 ^ (q - n)) := by ring
    rw [e]
    omega
  rw [hsplit, Nat.add_mul_div_left _ _ (by omega : 0 < 2 ^ n - 1)]
  omega

theorem scale_lt (value n q : Nat) (hv : value < 2 ^ n - 1) :
    value * 2 ^ q / (2 ^ n - 1) < 2 ^ q := by
  apply Nat.div_lt_of_lt_mul
  exact Nat.mul_lt_mul_of_pos_right hv (Nat.two_pow_pos q)

theorem repeatedPattern_zero (value n : Nat) : repeatedPattern value n 0 = 0 := by
  rw [repeatedPattern]

theorem repeatedPattern_small (value n p : Nat) (hp : 1 ≤ p) (hpn : p ≤ n) :
    repeatedPattern value n p = value >>> (n - p) := by
  obtain ⟨q, rfl⟩ : ∃ q, p = q + 1 := ⟨p - 1, by omega⟩
  rw [repeatedPattern, if_pos hpn]

theorem repeatedPattern_large (value n p : Nat) (hn : 1 ≤ n) (hpn : n < p) :
    repeatedPattern value n p = (value <<< (p - n)) ||| repeatedPattern value n (p - n) := by
  obtain ⟨q, rfl⟩ : ∃ q, p = q + 1 := ⟨p - 1, by omega⟩
  rw [repeatedPattern, if_neg (by omega), if_neg (by omega)]

/-- The quotient by `2 ^ n - 1` writes out the repeated pattern. -/
theorem scale_eq_repeatedPattern (value n : Nat) (hn : 1 ≤ n) (hv : value < 2 ^ n - 1) :
    ∀ p, value * 2 ^ p / (2 ^ n - 1) = repeatedPattern value n p := by
  intro p
  induction p using Nat.strong_induction_on with
  | _ p ih =>
    by_cases h0 : p = 0
    · subst h0
      rw [repeatedPattern_zero, Nat.pow_zero, Nat.mul_one]
      exact Nat.div_eq_of_lt hv
    by_cases hpn : p ≤ n
    · rw [repeatedPattern_small value n p (by omega) hpn, scale_small value n p hpn hv]
    · rw [repeatedPattern_large value n p hn (by omega), ← ih (p - n) (by omega),
        scale_step value n p (by omega) (by omega), Nat.shiftLeft_eq,
        or_eq_add_of_lt (p - n) _ _ (Nat.mul_mod_left _ _) (scale_lt value n (p - n) hv)]

theorem repeatedPattern_of_zero (n : Nat) (hn : 1 ≤ n) : ∀ p, repeatedPattern 0 n p = 0 := by
  intro p
  induction p using Nat.strong_induction_on with
  | _ p ih =>
    by_cases h0 : p = 0
    · subst h0
      exact repeatedPattern_zero 0 n
    by_cases hpn : p ≤ n
    · rw [repeatedPattern_small 0 n p (by omega) hpn, Nat.zero_shiftRight]
    · rw [repeatedPattern_large 0 n p hn (by omega), ih (p - n) (by omega),
        Nat.zero_shiftLeft]
      rfl

theorem repeatedPattern_of_ones (n : Nat) (hn : 1 ≤ n) :
    ∀ p, repeatedPattern (2 ^ n - 1) n p = 2 ^ p - 1 := by
  intro p
  induction p using Nat.strong_induction_on with
  | _ p ih =>
    by_cases h0 : p = 0
    · subst h0
      exact repeatedPattern_zero _ n
    by_cases hpn : p ≤ n
    · rw [repeatedPattern_small _ n p (by omega) hpn, ones_shiftRight n p hpn]
    · have hpow : 2 ^ n * 2 ^ (p - n) = 2 ^ p := by
        rw [← Nat.pow_add]
        congr 1
        omega
      have h1 : 1 ≤ 2 ^ (p - n) := Nat.one_le_two_pow
      have h2 : (2 ^ n - 1) * 2 ^ (p - n) = 2 ^ p - 2 ^ (p - n) := by
        rw [Nat.sub_mul, hpow, Nat.one_mul]
      have h3 : 2 ^ (p - n) ≤ 2 ^ p := Nat.pow_le_pow_right (by norm_num) (by omega)
      rw [repeatedPattern_large _ n p hn (by omega), ih (p - n) (by omega), Nat.shiftLeft_eq,
        or_eq_add_of_lt (p - n) _ _ (Nat.mul_mod_left _ _) (by omega), h2]
      omega

/-- When the product `value * 2 ^ p` fits 32 bits, expanding fills the `p` bits with
the repeated pattern. -/
theorem fixedToFixed_repeats (value n p : Nat) (hn1 : 1 ≤ n) (hnp : n < p) (hp : p ≤ 31)
    (hv : value < 2 ^ n) (hfit : value * 2 ^ p < 2 ^ 32) :
    fixedToFixed value n p = some (repeatedPattern value n p) := by
  have hpos : 2 ^ 1 ≤ 2 ^ n := Nat.pow_le_pow_right (by norm_num) hn1
  have hp31 : 2 ^ p ≤ 2 ^ 31 := Nat.pow_le_pow_right (by norm_num) hp
  have hlow := lowMask_eq n (by omega)
  by_cases h0 : value = 0
  · subst h0
    rw [fixedToFixed_zero, repeatedPattern_of_zero n hn1]
  by_cases hmax : value = 2 ^ n - 1
  · subst hmax
    rw [fixedToFixed_max n p hn1 (by omega) hp, repeatedPattern_of_ones n hn1]
  unfold fixedToFixed
  rw [if_neg (by omega), if_pos hnp, if_neg h0, hlow, if_neg hmax, if_neg (by omega),
    Nat.shiftLeft_eq, Nat.one_mul, Nat.mod_eq_of_lt (by omega : 2 ^ p < 2 ^ 32),
    Nat.mod_eq_of_lt hfit, scale_eq_repeatedPattern value n hn1 (by omega)]

theorem repeatedPattern_two (value n p : Nat) (hn1 : 1 ≤ n) (hnp : n < p) (hp2 : p ≤ 2 * n) :
    repeatedPattern value n p = (value <<< (p - n)) ||| (value >>> (2 * n - p)) := by
  rw [repeatedPattern_large value n p hn1 hnp,
    repeatedPattern_small value n (p - n) (by omega) (by omega)]
  have : n - (p - n) = 2 * n - p := by omega
  rw [this]

theorem three_bytes_or (a b c : Nat) (ha : a < 2 ^ 8) (hb : b < 2 ^ 8) (hc : c < 2 ^ 8) :
    ((c <<< 16) % 2 ^ 32) ||| ((b <<< 8) % 2 ^ 32) ||| a = c * 2 ^ 16 + b * 2 ^ 8 + a ∧
    a ||| ((b <<< 8) % 2 ^ 32) ||| ((c <<< 16) % 2 ^ 32) = c * 2 ^ 16 + b * 2 ^ 8 + a := by
  rw [Nat.shiftLeft_eq, Nat.shiftLeft_eq, Nat.mod_eq_of_lt (by omega : c * 2 ^ 16 < 2 ^ 32),
    Nat.mod_eq_of_lt (by omega : b * 2 ^ 8 < 2 ^ 32)]
  constructor
  · rw [or_eq_add_of_lt 16 (c * 2 ^ 16) (b * 2 ^ 8) (by omega) (by omega),
      or_eq_add_of_lt 8 _ a (by omega) ha]
  · rw [Nat.or_comm a, or_eq_add_of_lt 8 (b * 2 ^ 8) a (by omega) ha,
      Nat.or_comm, or_eq_add_of_lt 16 (c * 2 ^ 16) _ (by omega) (by omega)]
    omega

theorem readBack_one (be : Bool) (dest : List Nat) (value : Nat)
    (hlen : 1 ≤ dest.length) :
    intRead be (intWrite be dest 1 value) 1 = value % 2 ^ 8 := by
  rcases dest with _ | ⟨a, t⟩
  · simp at hlen
  · simp [intRead, intWrite]

theorem readBack_two (be : Bool) (dest : List Nat) (value : Nat)
    (hlen : 2 ≤ dest.length) :
    intRead be (intWrite be dest 2 value) 2 = value % 2 ^ 16 := by
  rcases dest with _ | ⟨a, _ | ⟨b, t⟩⟩
  · simp at hlen
  · simp at hlen
  · cases be <;> simp [intRead, intWrite, store16, load16] <;> omega

theorem readBack_four (be : Bool) (dest : List Nat) (value : Nat)
    (hlen : 4 ≤ dest.length) :
    intRead be (intWrite be dest 4 value) 4 = value % 2 ^ 32 := by
  rcases dest with _ | ⟨a, _ | ⟨b, _ | ⟨c, _ | ⟨d, t⟩⟩⟩⟩
  · simp at hlen
  · simp at hlen
  · simp at hlen
  · simp at hlen
  · cases be <;> simp [intRead, intWrite, store32, load32] <;> omega

theorem intWrite_three (be : Bool) (a b c : Nat) (t : List Nat) (value : Nat) :
    intWrite be (a :: b :: c :: t) 3 value =
      if be then (value / 2 ^ 16 % 2 ^ 8) :: (value / 2 ^ 8 % 2 ^ 8) :: (value % 2 ^ 8) :: t
      else (value % 2 ^ 8) :: (value / 2 ^ 8 % 2 ^ 8) :: (value / 2 ^ 16 % 2 ^ 8) :: t := by
  have h0 : (value &&& 0xFF) % 2 ^ 8 = value % 2 ^ 8 := by
    rw [and_byte0]
    omega
  have h1 : ((value >>> 8) &&& 0xFF) % 2 ^ 8 = value / 2 ^ 8 % 2 ^ 8 := by
    rw [and_byte0, Nat.shiftRight_eq_div_pow]
    omega
  have h2 : ((value >>> 16) &&& 0xFF) % 2 ^ 8 = value / 2 ^ 16 % 2 ^ 8 := by
    rw [and_byte0, Nat.shiftRight_eq_div_pow]
    omega
  unfold intWrite
  rw [if_neg (by decide), if_neg (by decide), if_pos rfl, h0, h1, h2]
  cases be <;> rfl

theorem readBack_three (be : Bool) (dest : List Nat) (value : Nat)
    (hlen : 3 ≤ dest.length) :
    intRead be (intWrite be dest 3 value) 3 = value % 2 ^ 24 := by
  rcases dest with _ | ⟨a, _ | ⟨b, _ | ⟨c, t⟩⟩⟩
  · simp at hlen
  · simp at hlen
  · simp at hlen
  · have h0 : value % 2 ^ 8 < 2 ^ 8 := Nat.mod_lt _ (by norm_num)
    have h1 : value / 2 ^ 8 % 2 ^ 8 < 2 ^ 8 := Nat.mod_lt _ (by norm_num)
    have h2 : value / 2 ^ 16 % 2 ^ 8 < 2 ^ 8 := Nat.mod_lt _ (by norm_num)
    obtain ⟨e1, e2⟩ := three_bytes_or _ _ _ h0 h1 h2
    rw [intWrite_three]
    unfold intRead
    rw [if_neg (by decide), if_neg (by decide), if_pos rfl]
    cases be
    · simp only [Bool.false_eq_true, if_false, List.getD_cons_zero, List.getD_cons_succ]
      rw [e2]
      omega
    · simp only [if_true, List.getD_cons_zero, List.getD_cons_succ]
      rw [e1]
      omega

theorem isSingle_normal (s e m : Nat) (hs : s < 2) (he1 : 1 ≤ e) (he : e ≤ 254)
    (hm : m < 2 ^ 23) :
    IsSingle ((-1 : ℚ) ^ s * ((2 ^ 23 + m : Nat) : ℚ) * (2 : ℚ) ^ ((e : Int) - 150)) := by
  refine ⟨s * 2 ^ 31 + e * 2 ^ 23 + m, by omega, ?_⟩
  rw [singleValue_fields s e m hs (by omega) hm, if_neg (by omega), if_neg (by omega)]

theorem isSingle_subnormal (s m : Nat) (hs : s < 2) (hm : m < 2 ^ 23) :
    IsSingle ((-1 : ℚ) ^ s * (m : ℚ) * (2 : ℚ) ^ (-149 : Int)) := by
  refine ⟨s * 2 ^ 31 + 0 * 2 ^ 23 + m, by omega, ?_⟩
  rw [singleValue_fields s 0 m hs (by norm_num) hm, if_neg (by omega), if_pos rfl]

theorem isSingle_neg_one : IsSingle (-1) := by
  have h := isSingle_normal 1 127 0 (by norm_num) (by norm_num) (by norm_num) (by norm_num)
  have e : (-1 : ℚ) ^ 1 * ((2 ^ 23 + 0 : Nat) : ℚ) * (2 : ℚ) ^ (((127 : Nat) : Int) - 150) = -1 := by
    norm_num [zpow_neg]
  rwa [e] at h

theorem isSingle_neg_32767 : IsSingle (-32767) := by
  have h := isSingle_normal 1 141 8388096 (by norm_num) (by norm_num) (by norm_num)
    (by norm_num)
  have e : (-1 : ℚ) ^ 1 * ((2 ^ 23 + 8388096 : Nat) : ℚ) *
      (2 : ℚ) ^ (((141 : Nat) : Int) - 150) = -32767 := by
    norm_num [zpow_neg]
  rwa [e] at h

theorem isSingle_neg_32767_half : IsSingle (-32767 - 1 / 2) := by
  have h := isSingle_normal 1 141 8388352 (by norm_num) (by norm_num) (by norm_num)
    (by norm_num)
  have e : (-1 : ℚ) ^ 1 * ((2 ^ 23 + 8388352 : Nat) : ℚ) *
      (2 : ℚ) ^ (((141 : Nat) : Int) - 150) = -32767 - 1 / 2 := by
    norm_num [zpow_neg]
  rwa [e] at h

theorem isSingle_neg_32768 : IsSingle (-32768) := by
  have h := isSingle_normal 1 142 0 (by norm_num) (by norm_num) (by norm_num) (by norm_num)
  have e : (-1 : ℚ) ^ 1 * ((2 ^ 23 + 0 : Nat) : ℚ) *
      (2 : ℚ) ^ (((142 : Nat) : Int) - 150) = -32768 := by
    norm_num [zpow_neg]
  rwa [e] at h

theorem isSingle_neg_127 : IsSingle (-127) := by
  have h := isSingle_normal 1 133 8257536 (by norm_num) (by norm_num) (by norm_num)
    (by norm_num)
  have e : (-1 : ℚ) ^ 1 * ((2 ^ 23 + 8257536 : Nat) : ℚ) *
      (2 : ℚ) ^ (((133 : Nat) : Int) - 150) = -127 := by
    norm_num [zpow_neg]
  rwa [e] at h

theorem isSingle_neg_127_half : IsSingle (-127 - 1 / 2) := by
  have h := isSingle_normal 1 133 8323072 (by norm_num) (by norm_num) (by norm_num)
    (by norm_num)
  have e : (-1 : ℚ) ^ 1 * ((2 ^ 23 + 8323072 : Nat) : ℚ) *
      (2 : ℚ) ^ (((133 : Nat) : Int) - 150) = -127 - 1 / 2 := by
    norm_num [zpow_neg]
  rwa [e] at h

theorem isSingle_neg_128 : IsSingle (-128) := by
  have h := isSingle_normal 1 134 0 (by norm_num) (by norm_num) (by norm_num) (by norm_num)
  have e : (-1 : ℚ) ^ 1 * ((2 ^ 23 + 0 : Nat) : ℚ) *
      (2 : ℚ) ^ (((134 : Nat) : Int) - 150) = -128 := by
    norm_num [zpow_neg]
  rwa [e] at h

theorem truncate_neg_half (k : Nat) : truncate (-(k : ℚ) - 1 / 2) = -(k : Int) := by
  unfold truncate
  have hk : (0 : ℚ) ≤ k := Nat.cast_nonneg k
  rw [if_neg (by linarith)]
  rw [Int.ceil_eq_iff]
  constructor
  · push_cast
    linarith
  · push_cast
    linarith

theorem floatToSnorm16_neg_one (rnd : ℚ → ℚ) (hexact : ∀ q, IsSingle q → rnd q = q) :
    floatToSnorm16 rnd (-1) = -32767 := by
  unfold floatToSnorm16
  have h1 : (-1 : ℚ) * 32767 = -32767 := by norm_num
  rw [if_neg (by norm_num), h1, hexact _ isSingle_neg_32767,
    hexact _ isSingle_neg_32767_half]
  have h2 : clamp (-32767 - 1 / 2) (-32768) 32767 = -((32767 : Nat) : ℚ) - 1 / 2 := by
    unfold clamp
    rw [min_eq_left (by norm_num), max_eq_left (by norm_num)]
    norm_num
  rw [h2, truncate_neg_half]
  norm_num

theorem floatToSnorm8_neg_one (rnd : ℚ → ℚ) (hexact : ∀ q, IsSingle q → rnd q = q) :
    floatToSnorm8 rnd (-1) = -127 := by
  unfold floatToSnorm8
  have h1 : (-1 : ℚ) * 127 = -127 := by norm_num
  rw [if_neg (by norm_num), h1, hexact _ isSingle_neg_127, hexact _ isSingle_neg_127_half]
  have h2 : clamp (-127 - 1 / 2) (-128) 127 = -((127 : Nat) : ℚ) - 1 / 2 := by
    unfold clamp
    rw [min_eq_left (by norm_num), max_eq_left (by norm_num)]
    norm_num
  rw [h2, truncate_neg_half]
  norm_num

theorem snormToFloat_neg_one (rnd : ℚ → ℚ) (hexact : ∀ q, IsSingle q → rnd q = q)
    (hmono : Monotone rnd) :
    snorm16ToFloat rnd (-32768) = -1 ∧ snorm16ToFloat rnd (-32767) = -1 ∧
    snorm8ToFloat rnd (-128) = -1 ∧ snorm8ToFloat rnd (-127) = -1 := by
  have hm1 := hexact _ isSingle_neg_one
  refine ⟨?_, ?_, ?_, ?_⟩
  · unfold snorm16ToFloat
    have hc : ((-32768 : Int) : ℚ) = -32768 := by norm_num
    rw [hc, hexact _ isSingle_neg_32768]
    have hle : rnd (-32768 / 32767) ≤ rnd (-1) := hmono (by norm_num)
    rw [hm1] at hle
    exact max_eq_right hle
  · unfold snorm16ToFloat
    have hc : ((-32767 : Int) : ℚ) = -32767 := by norm_num
    have hd : (-32767 : ℚ) / 32767 = -1 := by norm_num
    rw [hc, hexact _ isSingle_neg_32767, hd, hm1]
    exact max_self _
  · unfold snorm8ToFloat
    have hc : ((-128 : Int) : ℚ) = -128 := by norm_num
    rw [hc, hexact _ isSingle_neg_128]
    have hle : rnd (-128 / 127) ≤ rnd (-1) := hmono (by norm_num)
    rw [hm1] at hle
    exact max_eq_right hle
  · unfold snorm8ToFloat
    have hc : ((-127 : Int) : ℚ) = -127 := by norm_num
    have hd : (-127 : ℚ) / 127 = -1 := by norm_num
    rw [hc, hexact _ isSingle_neg_127, hd, hm1]
    exact max_self _

theorem two_zpow_neg23 : (2 : ℚ) ^ (-23 : Int) = 1 / 2 ^ 23 := by
  rw [zpow_neg, one_div, zpow_ofNat]

theorem isSingle_two_pow (k : Nat) (hk : k ≤ 31) : IsSingle ((2 : ℚ) ^ k) := by
  have h := isSingle_normal 0 (k + 127) 0 (by norm_num) (by omega) (by omega) (by norm_num)
  have hx : (((k + 127 : Nat) : Int) - 150) = -23 + (k : Int) := by omega
  have e : (-1 : ℚ) ^ 0 * ((2 ^ 23 + 0 : Nat) : ℚ) * (2 : ℚ) ^ (((k + 127 : Nat) : Int) - 150) =
      (2 : ℚ) ^ k := by
    rw [hx, zpow_add₀ (by norm_num : (2 : ℚ) ≠ 0), zpow_natCast, two_zpow_neg23]
    push_cast
    ring
  rwa [e] at h

theorem neg_one_pow_of_lt_two (s : Nat) (hs : s < 2) :
    (-1 : ℚ) ^ s = 1 ∨ (-1 : ℚ) ^ s = -1 := by
  interval_cases s
  · left; norm_num
  · right; norm_num

/-- Scaling a `float` strictly between 0 and 1 by a power of two up to `2 ^ 31` gives
a `float`. -/
theorem isSingle_scale (value : ℚ) (bits : Nat) (hv : IsSingle value) (h0 : 0 < value)
    (h1 : value < 1) (hb : bits ≤ 31) : IsSingle (value * (2 : ℚ) ^ bits) := by
  obtain ⟨i, -, hi⟩ := hv
  have hs := singleSign_lt i
  have hm := singleMant_lt i
  have he := singleExp_lt i
  have h20 : (2 : ℚ) ≠ 0 := by norm_num
  rw [singleValue_eq_fields] at hi
  by_cases he255 : singleExp i = 255
  · rw [if_pos he255] at hi
    exact absurd hi (by simp)
  rw [if_neg he255] at hi
  by_cases he0 : singleExp i = 0
  · rw [if_pos he0] at hi
    have hval : (-1 : ℚ) ^ singleSign i * (singleMant i : ℚ) * (2 : ℚ) ^ (-149 : Int) = value :=
      Option.some.inj hi
    have hpw : (0 : ℚ) < (2 : ℚ) ^ (-149 : Int) := zpow_pos (by norm_num) _
    have hmq : (0 : ℚ) ≤ (singleMant i : ℚ) := Nat.cast_nonneg _
    have hsign : (-1 : ℚ) ^ singleSign i = 1 := by
      rcases neg_one_pow_of_lt_two _ hs with h | h
      · exact h
      · rw [h] at hval
        have : value ≤ 0 := by
          rw [← hval]
          have := mul_nonneg hmq hpw.le
          linarith
        linarith
    rw [hsign, one_mul] at hval
    have hm0 : singleMant i ≠ 0 := by
      intro hz
      rw [hz] at hval
      simp at hval
      linarith
    generalize singleMant i = m at hm hval hm0
    obtain ⟨k, -, hlo, hhi⟩ := exists_log m hm0 (by omega)
    have hk22 : k ≤ 22 := by
      by_contra hc
      have : 2 ^ 23 ≤ 2 ^ k := Nat.pow_le_pow_right (by norm_num) (by omega)
      omega
    have hpow : 2 ^ k * 2 ^ (23 - k) = 2 ^ 23 := by
      rw [← Nat.pow_add]
      congr 1
      omega
    by_cases hbj : bits < 23 - k
    · have hlt : m * 2 ^ bits < 2 ^ 23 := by
        have hp1 : 2 ^ (k + 1) * 2 ^ (22 - k) = 2 ^ 23 := by
          rw [← Nat.pow_add]
          congr 1
          omega
        have hp2 : 2 ^ bits ≤ 2 ^ (22 - k) := Nat.pow_le_pow_right (by norm_num) (by omega)
        calc m * 2 ^ bits ≤ m * 2 ^ (22 - k) := Nat.mul_le_mul_left _ hp2
          _ < 2 ^ (k + 1) * 2 ^ (22 - k) :=
            Nat.mul_lt_mul_of_pos_right hhi (Nat.two_pow_pos _)
          _ = 2 ^ 23 := hp1
      have h := isSingle_subnormal 0 (m * 2 ^ bits) (by norm_num) hlt
      have e : (-1 : ℚ) ^ 0 * ((m * 2 ^ bits : Nat) : ℚ) * (2 : ℚ) ^ (-149 : Int) =
          value * (2 : ℚ) ^ bits := by
        rw [← hval]
        push_cast
        ring
      rwa [e] at h
    · have hge : 2 ^ 23 ≤ m * 2 ^ (23 - k) := by
        calc 2 ^ 23 = 2 ^ k * 2 ^ (23 - k) := hpow.symm
          _ ≤ m * 2 ^ (23 - k) := Nat.mul_le_mul_right _ hlo
      have hlt : m * 2 ^ (23 - k) < 2 ^ 24 := by
        have hp1 : 2 ^ (k + 1) * 2 ^ (23 - k) = 2 ^ 24 := by
          rw [← Nat.pow_add]
          congr 1
          omega
        calc m * 2 ^ (23 - k) < 2 ^ (k + 1) * 2 ^ (23 - k) :=
            Nat.mul_lt_mul_of_pos_right hhi (Nat.two_pow_pos _)
          _ = 2 ^ 24 := hp1
      have h := isSingle_normal 0 (bits - (23 - k) + 1) (m * 2 ^ (23 - k) - 2 ^ 23)
        (by norm_num) (by omega) (by omega) (by omega)
      have hn : 2 ^ 23 + (m * 2 ^ (23 - k) - 2 ^ 23) = m * 2 ^ (23 - k) := by omega
      have hx : (((bits - (23 - k) + 1 : Nat) : Int) - 150) =
          -149 + (bits : Int) + -((23 - k : Nat) : Int) := by omega
      have e : (-1 : ℚ) ^ 0 * ((2 ^ 23 + (m * 2 ^ (23 - k) - 2 ^ 23) : Nat) : ℚ) *
          (2 : ℚ) ^ (((bits - (23 - k) + 1 : Nat) : Int) - 150) = value * (2 : ℚ) ^ bits := by
        rw [hn, hx, zpow_add₀ h20, zpow_add₀ h20, zpow_neg (2 : ℚ) ((23 - k : Nat) : Int),
          zpow_natCast, zpow_natCast, ← hval]
        push_cast
        have : (2 : ℚ) ^ (23 - k) ≠ 0 := pow_ne_zero _ h20
        field_simp
        ring
      rwa [e] at h
  · rw [if_neg he0] at hi
    have hval : (-1 : ℚ) ^ singleSign i * ((2 ^ 23 + singleMant i : Nat) : ℚ) *
        (2 : ℚ) ^ ((singleExp i : Int) - 150) = value := Option.some.inj hi
    have hpw : (0 : ℚ) < (2 : ℚ) ^ ((singleExp i : Int) - 150) := zpow_pos (by norm_num) _
    have hmq : (0 : ℚ) ≤ ((2 ^ 23 + singleMant i : Nat) : ℚ) := Nat.cast_nonneg _
    have hsign : (-1 : ℚ) ^ singleSign i = 1 := by
      rcases neg_one_pow_of_lt_two _ hs with h | h
      · exact h
      · rw [h] at hval
        have : value ≤ 0 := by
          rw [← hval]
          have := mul_nonneg hmq hpw.le
          linarith
        linarith
    rw [hsign, one_mul] at hval
    have he126 : singleExp i ≤ 126 := by
      by_contra hc
      have hp : (2 : ℚ) ^ (-23 : Int) ≤ (2 : ℚ) ^ ((singleExp i : Int) - 150) :=
        zpow_le_zpow_right₀ (by norm_num) (by omega)
      have h23 := two_zpow_neg23
      have hm23 : (2 : ℚ) ^ 23 ≤ ((2 ^ 23 + singleMant i : Nat) : ℚ) := by
        push_cast
        have : (0 : ℚ) ≤ (singleMant i : ℚ) := Nat.cast_nonneg _
        linarith
      have : (1 : ℚ) ≤ value := by
        rw [← hval]
        calc (1 : ℚ) = 2 ^ 23 * (1 / 2 ^ 23) := by norm_num
          _ ≤ ((2 ^ 23 + singleMant i : Nat) : ℚ) * (2 : ℚ) ^ ((singleExp i : Int) - 150) := by
            rw [← h23]
            exact mul_le_mul hm23 hp (zpow_pos (by norm_num) _).le hmq
      linarith
    have h := isSingle_normal 0 (singleExp i + bits) (singleMant i) (by norm_num) (by omega)
      (by omega) hm
    have hx : (((singleExp i + bits : Nat) : Int) - 150) =
        ((singleExp i : Int) - 150) + (bits : Int) := by omega
    have e : (-1 : ℚ) ^ 0 * ((2 ^ 23 + singleMant i : Nat) : ℚ) *
        (2 : ℚ) ^ (((singleExp i + bits : Nat) : Int) - 150) = value * (2 : ℚ) ^ bits := by
      rw [hx, zpow_add₀ h20, zpow_natCast, ← hval]
      ring
    rwa [e] at h

theorem floatToFixed_spec (rnd : ℚ → ℚ) (hexact : ∀ q, IsSingle q → rnd q = q) (value : ℚ)
    (bits : Nat) (hv : IsSingle value) (hb : bits ≤ 31) :
    (value ≤ 0 → floatToFixed rnd value bits = 0) ∧
    (1 ≤ value → floatToFixed rnd value bits = 2 ^ bits - 1) ∧
    (0 < value → value < 1 →
      floatToFixed rnd value bits = ⌊value * (2 : ℚ) ^ bits⌋.toNat ∧
      floatToFixed rnd value bits ≤ 2 ^ bits - 1) := by
  refine ⟨fun h => ?_, fun h => ?_, fun h0 h1 => ?_⟩
  · unfold floatToFixed
    rw [if_pos h]
  · unfold floatToFixed
    rw [if_neg (by linarith), if_pos h, lowMask_eq bits hb]
  · have hp31 : 2 ^ bits ≤ 2 ^ 31 := Nat.pow_le_pow_right (by norm_num) hb
    have hsh : (1 <<< bits) % 2 ^ 32 = 2 ^ bits := by
      rw [Nat.shiftLeft_eq, Nat.one_mul]
      exact Nat.mod_eq_of_lt (by omega)
    have hcast : (((1 <<< bits) % 2 ^ 32 : Nat) : ℚ) = (2 : ℚ) ^ bits := by
      rw [hsh]
      push_cast
      rfl
    have hpos : (0 : ℚ) < (2 : ℚ) ^ bits := pow_pos (by norm_num) _
    have hnn : (0 : ℚ) ≤ value * (2 : ℚ) ^ bits := (mul_pos h0 hpos).le
    have hval : floatToFixed rnd value bits = ⌊value * (2 : ℚ) ^ bits⌋.toNat := by
      unfold floatToFixed
      rw [if_neg (by linarith), if_neg (by linarith), hcast,
        hexact _ (isSingle_two_pow bits hb), hexact _ (isSingle_scale value bits hv h0 h1 hb)]
      unfold truncate
      rw [if_pos hnn]
    refine ⟨hval, ?_⟩
    rw [hval]
    have hlt : ⌊value * (2 : ℚ) ^ bits⌋ < ((2 ^ bits : Nat) : Int) := by
      rw [Int.floor_lt]
      push_cast
      calc value * (2 : ℚ) ^ bits < 1 * (2 : ℚ) ^ bits := mul_lt_mul_of_pos_right h1 hpos
        _ = (2 : ℚ) ^ bits := one_mul _
    have hnonneg : 0 ≤ ⌊value * (2 : ℚ) ^ bits⌋ := Int.floor_nonneg.mpr hnn
    omega

theorem even_quotient (mask a b : Nat) (hab : a < b) (hb : mask % 2 ^ b = 0) :
    mask / 2 ^ a % 2 = 0 := by
  obtain ⟨c, hc⟩ := Nat.dvd_of_mod_eq_zero hb
  have hpow : 2 ^ b = 2 ^ a * (2 * 2 ^ (b - a - 1)) := by
    rw [← Nat.pow_succ', ← Nat.pow_add]
    congr 1
    omega
  rw [hc, hpow, Nat.mul_assoc, Nat.mul_div_cancel_left _ (Nat.two_pow_pos a), Nat.mul_assoc]
  exact Nat.mul_mod_right 2 _

/-- The shift count is determined by its two properties. -/
theorem getBitShift_unique (mask r : Nat) (h1 : mask % 2 ^ r = 0)
    (h2 : mask / 2 ^ r % 2 = 1) : getBitShift mask = r := by
  have hne : mask ≠ 0 := by
    rintro rfl
    rw [Nat.zero_div] at h2
    exact absurd h2 (by decide)
  obtain ⟨g1, g2⟩ := getBitShift_spec mask hne
  rcases Nat.lt_trichotomy (getBitShift mask) r with h | h | h
  · have := even_quotient mask _ r h h1
    omega
  · exact h
  · have := even_quotient mask r _ h g1
    omega

theorem isSingle_half : IsSingle (1 / 2) := by
  have h := isSingle_normal 0 126 0 (by norm_num) (by norm_num) (by norm_num) (by norm_num)
  have e : (-1 : ℚ) ^ 0 * ((2 ^ 23 + 0 : Nat) : ℚ) *
      (2 : ℚ) ^ (((126 : Nat) : Int) - 150) = 1 / 2 := by
    norm_num [zpow_neg]
  rwa [e] at h

/-- At most one `k` brackets `value` between `2 ^ k` and `2 ^ (k + 1)`. -/
theorem bracket_unique (value j k : Nat) (hj1 : 2 ^ j ≤ value) (hj2 : value < 2 ^ (j + 1))
    (hk1 : 2 ^ k ≤ value) (hk2 : value < 2 ^ (k + 1)) : j = k := by
  rcases Nat.lt_trichotomy j k with h | h | h
  · have : 2 ^ (j + 1) ≤ 2 ^ k := Nat.pow_le_pow_right (by norm_num) (by omega)
    omega
  · exact h
  · have : 2 ^ (k + 1) ≤ 2 ^ j := Nat.pow_le_pow_right (by norm_num) (by omega)
    omega

/-- The wrapped product keeps its factor `2 ^ p` and does not exceed the true product. -/
theorem wrapped_product (value p : Nat) (hp : p ≤ 32) :
    (value * 2 ^ p) % 2 ^ 32 ≤ value * 2 ^ p ∧
    (value * 2 ^ p) % 2 ^ 32 = 2 ^ p * (value % 2 ^ (32 - p)) := by
  refine ⟨Nat.mod_le _ _, ?_⟩
  have hsum : p + (32 - p) = 32 := by omega
  have hpow : (2 : Nat) ^ 32 = 2 ^ p * 2 ^ (32 - p) := by
    rw [← Nat.pow_add, hsum]
  rw [hpow, Nat.mul_comm value, Nat.mul_mod_mul_left]

theorem fixedToFixed_lt (value n p : Nat) (hn1 : 1 ≤ n) (hn : n ≤ 31) (hp : p ≤ 31)
    (hv : value < 2 ^ n) : ∃ r, fixedToFixed value n p = some r ∧ r < 2 ^ p := by
  have hpos : 2 ^ 1 ≤ 2 ^ n := Nat.pow_le_pow_right (by norm_num) hn1
  have hppos : 0 < 2 ^ p := Nat.two_pow_pos p
  have hp31 : 2 ^ p ≤ 2 ^ 31 := Nat.pow_le_pow_right (by norm_num) hp
  have hlow := lowMask_eq n hn
  by_cases h0 : value = 0
  · subst h0
    exact ⟨0, fixedToFixed_zero n p, hppos⟩
  by_cases hmax : value = 2 ^ n - 1
  · subst hmax
    exact ⟨2 ^ p - 1, fixedToFixed_max n p hn1 hn hp, by omega⟩
  unfold fixedToFixed
  by_cases h1 : n > p
  · rw [if_pos h1]
    refine ⟨_, rfl, ?_⟩
    rw [Nat.shiftRight_eq_div_pow]
    apply Nat.div_lt_of_lt_mul
    have hsum : n - p + p = n := by omega
    have hpow : 2 ^ (n - p) * 2 ^ p = 2 ^ n := by
      rw [← Nat.pow_add, hsum]
    rw [hpow]
    exact hv
  · rw [if_neg h1]
    by_cases h2 : n < p
    · rw [if_pos h2, if_neg h0, hlow, if_neg hmax, if_neg (by omega)]
      refine ⟨_, rfl, ?_⟩
      rw [Nat.shiftLeft_eq, Nat.one_mul, Nat.mod_eq_of_lt (by omega : 2 ^ p < 2 ^ 32)]
      apply Nat.div_lt_of_lt_mul
      have hw := (wrapped_product value p (by omega)).1
      have hlt : value * 2 ^ p < (2 ^ n - 1) * 2 ^ p :=
        Nat.mul_lt_mul_of_pos_right (by omega) hppos
      exact lt_of_le_of_lt hw hlt
    · have hnp : n = p := by omega
      rw [if_neg h2]
      exact ⟨value, rfl, by rw [← hnp]; exact hv⟩

theorem fixedToFixed_same (value n : Nat) : fixedToFixed value n n = some value := by
  unfold fixedToFixed
  rw [if_neg (by omega), if_neg (by omega)]

theorem fixedToFixed_shrink (value n p : Nat) (h : p < n) :
    fixedToFixed value n p = some (value >>> (n - p)) := by
  unfold fixedToFixed
  rw [if_pos h]

/-- Expanding and contracting again gives the value back when the product fits. -/
theorem fixedToFixed_roundtrip (value n p : Nat) (hn1 : 1 ≤ n) (hnp : n ≤ p)
    (hsum : n + p ≤ 32) (hv : value < 2 ^ n) :
    (fixedToFixed value n p).bind (fun e => fixedToFixed e p n) = some value := by
  by_cases heq : n = p
  · subst heq
    rw [fixedToFixed_same, Option.some_bind, fixedToFixed_same]
  have hlt : n < p := by omega
  have hpos : 2 ^ 1 ≤ 2 ^ n := Nat.pow_le_pow_right (by norm_num) hn1
  by_cases h0 : value = 0
  · subst h0
    rw [fixedToFixed_zero, Option.some_bind, fixedToFixed_zero]
  by_cases hmax : value = 2 ^ n - 1
  · subst hmax
    rw [fixedToFixed_max n p hn1 (by omega) (by omega), Option.some_bind,
      fixedToFixed_max p n (by omega) (by omega) (by omega)]
  have hfit : value * 2 ^ p < 2 ^ 32 := by
    have h1 : value * 2 ^ p < 2 ^ n * 2 ^ p :=
      Nat.mul_lt_mul_of_pos_right hv (Nat.two_pow_pos p)
    have h2 : 2 ^ n * 2 ^ p ≤ 2 ^ 32 := by
      rw [← Nat.pow_add]
      exact Nat.pow_le_pow_right (by norm_num) hsum
    omega
  have hvm : value < 2 ^ n - 1 := by omega
  rw [fixedToFixed_repeats value n p hn1 hlt (by omega) hv hfit, Option.some_bind,
    fixedToFixed_shrink _ p n hlt, ← scale_eq_repeatedPattern value n hn1 hvm p,
    scale_step value n p (by omega) (by omega), Nat.shiftRight_eq_div_pow]
  have hF := scale_lt value n (p - n) hvm
  have hD : 0 < 2 ^ (p - n) := Nat.two_pow_pos _
  generalize value * 2 ^ (p - n) / (2 ^ n - 1) = F at hF ⊢
  rw [Nat.mul_comm value, Nat.mul_add_div hD, Nat.div_eq_of_lt hF, Nat.add_zero]

theorem half_fields_of (s e m : Nat) (hs : s < 2) (he : e < 2 ^ 5) (hm : m < 2 ^ 10) :
    halfSign (s * 2 ^ 15 + e * 2 ^ 10 + m) = s ∧ halfExp (s * 2 ^ 15 + e * 2 ^ 10 + m) = e ∧
    halfMant (s * 2 ^ 15 + e * 2 ^ 10 + m) = m := by
  rw [halfSign_eq, halfExp_eq, halfMant_eq]
  refine ⟨?_, ?_, ?_⟩ <;> omega

theorem and_clear_low13 (i : Nat) (hi : i < 2 ^ 32) :
    i &&& 0xFFFFE000 =
      singleSign i * 2 ^ 31 + singleExp i * 2 ^ 23 + singleMant i / 2 ^ 13 * 2 ^ 13 := by
  have h := and_shifted_mask i 19 13
  have e : (0xFFFFE000 : Nat) = (2 ^ 19 - 1) * 2 ^ 13 := by norm_num
  rw [e, h, singleSign_eq, singleExp_eq, singleMant_eq]
  omega

/-- In the normal half range the round trip through a half clears the low 13 mantissa
bits and keeps everything else. -/
theorem truncation_normal (i fuel : Nat) (hi : i < 2 ^ 32) (h1 : 113 ≤ singleExp i)
    (h2 : singleExp i ≤ 142) :
    halfToFloatI fuel (floatToHalfI i) = some (i &&& 0xFFFFE000) := by
  have hs := singleSign_lt i
  have hm := singleMant_lt i
  have hM : singleMant i / 2 ^ 13 < 2 ^ 10 := by omega
  obtain ⟨f1, f2, f3⟩ := half_fields_of (singleSign i) (singleExp i - 112)
    (singleMant i / 2 ^ 13) hs (by omega) hM
  rw [floatToHalfI_normal i h1 h2,
    halfToFloatI_normal fuel _ (by rw [f2]; omega) (by rw [f2]; omega), f1, f2, f3,
    and_clear_low13 i hi]
  have e : singleExp i - 112 + 112 = singleExp i := by omega
  rw [e]

/-- A single that is too large for a half, or infinite, becomes the half infinity of
its sign. -/
theorem floatToHalfI_overflow (i : Nat) (h1 : 143 ≤ singleExp i)
    (hnan : ¬ (singleExp i = 255 ∧ singleMant i ≠ 0)) :
    floatToHalfI i = ((i >>> 16) &&& 0x00008000) ||| 0x7c00 ∧
    floatToHalfI i = singleSign i * 2 ^ 15 + 0x7c00 := by
  have hs := singleSign_lt i
  have he := singleExp_lt i
  have hor : singleSign i * 2 ^ 15 ||| 0x7c00 = singleSign i * 2 ^ 15 + 0x7c00 :=
    or_eq_add_of_lt 15 _ _ (by omega) (by norm_num)
  have hval : floatToHalfI i = singleSign i * 2 ^ 15 + 0x7c00 := by
    rw [floatToHalfI_fields, if_neg (by omega)]
    by_cases h255 : singleExp i = 255
    · have hm0 : singleMant i = 0 := by
        by_contra hc
        exact hnan ⟨h255, hc⟩
      rw [if_pos (by omega), if_pos hm0, hor]
      omega
    · rw [if_neg (by omega), if_pos (by omega), hor]
      omega
  exact ⟨by rw [sign16_eq, hor]; exact hval, hval⟩

theorem countTrailingZeros_spec (w : Nat) : ∀ x : Nat, x % 2 ^ w ≠ 0 →
    countTrailingZeros w x < w ∧ x % 2 ^ countTrailingZeros w x = 0 ∧
      x / 2 ^ countTrailingZeros w x % 2 = 1 := by
  induction w with
  | zero =>
    intro x h
    exact absurd (Nat.mod_one x) h
  | succ w ih =>
    intro x h
    by_cases hodd : x % 2 = 1
    · have e : countTrailingZeros (w + 1) x = 0 := by
        rw [countTrailingZeros, if_pos hodd]
      rw [e]
      refine ⟨by omega, Nat.mod_one x, ?_⟩
      rw [Nat.pow_zero, Nat.div_one]
      exact hodd
    · have e : countTrailingZeros (w + 1) x = countTrailingZeros w (x / 2) + 1 := by
        rw [countTrailingZeros, if_neg hodd]
      have hx : x = 2 * (x / 2) := by omega
      have hne : x / 2 % 2 ^ w ≠ 0 := by
        intro h0
        apply h
        rw [hx, Nat.pow_succ', Nat.mul_mod_mul_left, h0]
      obtain ⟨h1, h2, h3⟩ := ih (x / 2) hne
      rw [e]
      refine ⟨by omega, ?_, ?_⟩
      · rw [Nat.pow_succ']
        nth_rewrite 1 [hx]
        rw [Nat.mul_mod_mul_left, h2]
      · rw [Nat.pow_succ', ← Nat.div_div_eq_div_mul]
        exact h3

theorem countLeadingZeros_eq (w : Nat) : ∀ x k : Nat, 2 ^ k ≤ x → x < 2 ^ (k + 1) → k < w →
    countLeadingZeros w x = w - 1 - k := by
  induction w with
  | zero =>
    intro x k _ _ hk
    omega
  | succ w ih =>
    intro x k hlo hhi hk
    by_cases hkw : k = w
    · subst hkw
      have hq : x / 2 ^ k = 1 := by
        apply Nat.div_eq_of_lt_le
        · omega
        · rw [Nat.pow_succ] at hhi
          omega
      rw [countLeadingZeros, hq, if_pos rfl]
      omega
    · have hle : 2 ^ (k + 1) ≤ 2 ^ w := Nat.pow_le_pow_right (by norm_num) (by omega)
      have hq : x / 2 ^ w = 0 := Nat.div_eq_of_lt (by omega)
      rw [countLeadingZeros, hq, if_neg (by decide), ih x k hlo hhi (by omega)]
      omega

/-- Two shift counts with the two properties of the trailing zero count agree. -/
theorem trailing_unique (x a b : Nat) (ha1 : x % 2 ^ a = 0) (ha2 : x / 2 ^ a % 2 = 1)
    (hb1 : x % 2 ^ b = 0) (hb2 : x / 2 ^ b % 2 = 1) : a = b := by
  rcases Nat.lt_trichotomy a b with h | h | h
  · have := even_quotient x a b h hb1
    omega
  · exact h
  · have := even_quotient x b a h ha1
    omega

theorem ctz32_spec (x : Nat) (h0 : x ≠ 0) (hx : x < 2 ^ 32) :
    ctz32 x ≤ 31 ∧ x % 2 ^ ctz32 x = 0 ∧ x / 2 ^ ctz32 x % 2 = 1 := by
  have hne : x % 2 ^ 32 ≠ 0 := by
    rw [Nat.mod_eq_of_lt hx]
    exact h0
  obtain ⟨h1, h2, h3⟩ := countTrailingZeros_spec 32 x hne
  have e : ctz32 x = countTrailingZeros 32 x := by
    unfold ctz32
    rw [if_neg h0]
    exact Nat.mod_eq_of_lt (by omega)
  rw [e]
  exact ⟨by omega, h2, h3⟩

theorem ctz32_lowest_bit (x : Nat) (h0 : x ≠ 0) (hx : x < 2 ^ 32) :
    ctz32 x ≤ 31 ∧ x.testBit (ctz32 x) = true ∧ ∀ j, j < ctz32 x → x.testBit j = false := by
  obtain ⟨h1, h2, h3⟩ := ctz32_spec x h0 hx
  refine ⟨h1, ?_, fun j hj => ?_⟩
  · rw [Nat.testBit_to_div_mod, h3]
    rfl
  · rw [Nat.testBit_to_div_mod, even_quotient x j _ hj h2]
    rfl

theorem clz32_spec (x : Nat) (h0 : x ≠ 0) (hx : x < 2 ^ 32) :
    clz32 x = 31 - mostSignificantBitSet x := by
  obtain ⟨k, hk, hm, hlo, hhi⟩ := (mostSignificantBitSet_spec x hx).1 h0
  unfold clz32
  rw [if_neg h0, countLeadingZeros_eq 32 x k hlo hhi (by omega), hm]
  omega

theorem zero_counts_single_bit (k : Nat) (hk : k ≤ 31) :
    ctz32 (2 ^ k) = k ∧ clz32 (2 ^ k) = 31 - k := by
  have hpos : 0 < 2 ^ k := Nat.two_pow_pos k
  have hlt : 2 ^ k < 2 ^ 32 := Nat.pow_lt_pow_right (by norm_num) (by omega)
  constructor
  · obtain ⟨-, h2, h3⟩ := ctz32_spec (2 ^ k) (by omega) hlt
    exact trailing_unique (2 ^ k) _ k h2 h3 (Nat.mod_self _) (by rw [Nat.div_self hpos])
  · unfold clz32
    rw [if_neg (by omega), countLeadingZeros_eq 32 (2 ^ k) k (le_refl _)
      (Nat.pow_lt_pow_right (by norm_num) (by omega)) (by omega)]
    omega

/-! ## The claims -/

/-- Claim C1, at the input where the code departs from it: negative zero `0x8000` is a
finite half, `halfToFloatI` maps it to the single negative zero `0x80000000`, and
`floatToHalfI` maps that to `0x0000`, so the round trip does not return `0x8000`.
(`floatToHalfI_halfToFloatI` shows the round trip is exact on every other finite half.) -/
theorem roundtrip_negative_zero :
    halfExp 0x8000 ≠ 31 ∧ halfToFloatI 10 0x8000 = some 0x80000000 ∧
      (halfToFloatI 10 0x8000).map floatToHalfI = some 0x0000 := by
  decide

/-- Claim C2, evaluated: three of the four signed-zero equalities hold, and the fourth
fails because `floatToHalfI` returns `0` without the sign on its underflow path, so
`floatToHalfI 0x80000000` is `0x0000` instead of `0x8000`. -/
theorem signed_zero_evaluated :
    halfToFloatI 0 0x0000 = some 0x00000000 ∧ halfToFloatI 0 0x8000 = some 0x80000000 ∧
      floatToHalfI 0x00000000 = 0x0000 ∧ floatToHalfI 0x80000000 = 0x0000 := by
  decide

/-- Claim C3: for every finite half pattern `h`, with fuel for ten shifts (or more) the
renormalisation loop of `halfToFloatI` terminates, and the single it returns denotes
exactly the rational that `h` denotes as an IEEE half. -/
theorem halfToFloatI_exact (h fuel : Nat) (hfin : halfExp h ≠ 31) (hfuel : 10 ≤ fuel) :
    ∃ r q, halfToFloatI fuel h = some r ∧ singleValue r = some q ∧ halfValue h = some q := by
  obtain ⟨r, hr, hv⟩ := halfToFloatI_value h fuel hfin hfuel
  obtain ⟨q, hq⟩ := halfValue_isSome h hfin
  exact ⟨r, q, hr, hv.trans hq, hq⟩

/-- Witness of C3 at the smallest subnormal, which needs all ten shifts. -/
theorem halfToFloatI_exact_witness :
    halfExp 0x0001 ≠ 31 ∧ 10 ≤ 10 ∧
      ∃ r q, halfToFloatI 10 0x0001 = some r ∧ singleValue r = some q ∧
        halfValue 0x0001 = some q :=
  ⟨by decide, by decide, halfToFloatI_exact 0x0001 10 (by decide) (by decide)⟩

/-- Claim C4: for every single NaN pattern `i` (exponent field 255, mantissa non-zero),
`floatToHalfI i` is a 16-bit half NaN and never an infinity: it has the sign bit of `i`,
exponent field 31, and as mantissa the top ten mantissa bits of `i` when these are not
all zero and `1` otherwise; in particular the mantissa is non-zero. -/
theorem floatToHalfI_nan (i : Nat) (he : singleExp i = 255) (hm : singleMant i ≠ 0) :
    floatToHalfI i < 2 ^ 16 ∧ halfSign (floatToHalfI i) = singleSign i ∧
    halfExp (floatToHalfI i) = 31 ∧
    halfMant (floatToHalfI i) =
      (if singleMant i >>> 13 ≠ 0 then singleMant i >>> 13 else 1) ∧
    halfMant (floatToHalfI i) ≠ 0 :=
  floatToHalfI_nan_fields i he hm

/-- Witness of C4 at a negative NaN whose top ten mantissa bits are zero. -/
theorem floatToHalfI_nan_witness :
    singleExp 0xff800001 = 255 ∧ singleMant 0xff800001 ≠ 0 ∧
    floatToHalfI 0xff800001 < 2 ^ 16 ∧
    halfSign (floatToHalfI 0xff800001) = singleSign 0xff800001 ∧
    halfExp (floatToHalfI 0xff800001) = 31 ∧
    halfMant (floatToHalfI 0xff800001) =
      (if singleMant 0xff800001 >>> 13 ≠ 0 then singleMant 0xff800001 >>> 13 else 1) ∧
    halfMant (floatToHalfI 0xff800001) ≠ 0 :=
  ⟨by decide, by decide, floatToHalfI_nan 0xff800001 (by decide) (by decide)⟩

/-- Claim C5 as stated fails: `0x47800000` (65536.0) is a finite single, but
`floatToHalfI` sends it to the half infinity `0x7c00`, which `halfToFloatI` sends to the
single infinity `0x7f800000`; the result denotes no finite number, so no tolerance
bound can hold. -/
theorem roundtrip_tolerance_counterexample :
    singleExp 0x47800000 ≠ 255 ∧
      ¬ ∃ r qr qf, halfToFloatI 10 (floatToHalfI 0x47800000) = some r ∧
        singleValue r = some qr ∧ singleValue 0x47800000 = some qf ∧
        |qr - qf| ≤ max ((2 : ℚ) ^ (-10 : Int) * |qf|) ((2 : ℚ) ^ (-24 : Int)) := by
  refine ⟨by decide, ?_⟩
  rintro ⟨r, qr, qf, hr, hq, -, -⟩
  have h1 : halfToFloatI 10 (floatToHalfI 0x47800000) = some 0x7f800000 := by decide
  rw [h1] at hr
  have h2 : r = 0x7f800000 := (Option.some.inj hr).symm
  have h3 : singleValue 0x7f800000 = none := by
    simp [singleValue]
  rw [h2, h3] at hq
  exact Option.noConfusion hq

/-- Claim C5, amended: for every single pattern `f` whose exponent field is at most 142
(magnitude below 65536, the range `floatToHalfI` does not send to infinity), the round
trip `halfToFloatI (floatToHalfI f)` returns with fuel for ten shifts, its result and
`f` both denote finite numbers, and these differ by at most
`max (2 ^ -10 * |f|) (2 ^ -24)`. -/
theorem roundtrip_tolerance (f fuel : Nat) (hE : singleExp f ≤ 142) (hfuel : 10 ≤ fuel) :
    ∃ r qr qf, halfToFloatI fuel (floatToHalfI f) = some r ∧ singleValue r = some qr ∧
      singleValue f = some qf ∧
      |qr - qf| ≤ max ((2 : ℚ) ^ (-10 : Int) * |qf|) ((2 : ℚ) ^ (-24 : Int)) :=
  roundtrip_tolerance_aux f fuel hE hfuel

/-- Witness of the amended C5 at `0x3eaaaaab` (about one third). -/
theorem roundtrip_tolerance_witness :
    singleExp 0x3eaaaaab ≤ 142 ∧ 10 ≤ 10 ∧
      ∃ r qr qf, halfToFloatI 10 (floatToHalfI 0x3eaaaaab) = some r ∧
        singleValue r = some qr ∧ singleValue 0x3eaaaaab = some qf ∧
        |qr - qf| ≤ max ((2 : ℚ) ^ (-10 : Int) * |qf|) ((2 : ℚ) ^ (-24 : Int)) :=
  ⟨by decide, by decide, roundtrip_tolerance 0x3eaaaaab 10 (by decide) (by decide)⟩

/-- Claim C6: for every 32-bit unsigned `x`, the portable `bswap32` applied twice
returns `x`. -/
theorem bswap32_involutive (x : Nat) (hx : x < 2 ^ 32) : bswap32 (bswap32 x) = x :=
  bswap32_bswap32 x hx

/-- Witness of C6 at `0x12345678`. -/
theorem bswap32_involutive_witness :
    (0x12345678 : Nat) < 2 ^ 32 ∧ bswap32 (bswap32 0x12345678) = 0x12345678 :=
  ⟨by decide, bswap32_involutive 0x12345678 (by decide)⟩

/-- Claim C7: the portable `bswap16`, `bswap32` and `bswap64` return their argument with
the bytes in reversed order: byte `k` of the result is byte `W - 1 - k` of the argument
for every `k < W`, with `W` = 2, 4, 8, the result stays within the width, and on either
byte order of the machine `bswap64 x` is `bswap32` of the low word shifted up by 32, or-ed
with `bswap32` of the high word. -/
theorem bswap_reverses_bytes (bigEndian : Bool) (x16 x32 x64 k2 k4 k8 : Nat)
    (h64 : x64 < 2 ^ 64) (hk2 : k2 < 2) (hk4 : k4 < 4) (hk8 : k8 < 8) :
    (byteOf (bswap16 x16) k2 = byteOf x16 (1 - k2) ∧ bswap16 x16 < 2 ^ 16) ∧
    (byteOf (bswap32 x32) k4 = byteOf x32 (3 - k4) ∧ bswap32 x32 < 2 ^ 32) ∧
    (byteOf (bswap64 bigEndian x64) k8 = byteOf x64 (7 - k8) ∧
      bswap64 bigEndian x64 < 2 ^ 64) ∧
    bswap64 bigEndian x64 =
      (bswap32 (x64 &&& 0xFFFFFFFF) <<< 32) ||| bswap32 (x64 >>> 32) :=
  ⟨⟨byteOf_bswap16 x16 k2 hk2, bswap16_lt x16⟩, ⟨byteOf_bswap32 x32 k4 hk4, bswap32_lt x32⟩,
    ⟨byteOf_bswap64 bigEndian x64 k8 hk8, bswap64_lt bigEndian x64⟩,
    bswap64_words bigEndian x64 h64⟩

/-- Witness of C7 on a little-endian machine. -/
theorem bswap_reverses_bytes_witness :
    (0x0123456789abcdef : Nat) < 2 ^ 64 ∧ 1 < 2 ∧ 2 < 4 ∧ 5 < 8 ∧
    (byteOf (bswap16 0x1234) 1 = byteOf 0x1234 (1 - 1) ∧ bswap16 0x1234 < 2 ^ 16) ∧
    (byteOf (bswap32 0x12345678) 2 = byteOf 0x12345678 (3 - 2) ∧
      bswap32 0x12345678 < 2 ^ 32) ∧
    (byteOf (bswap64 false 0x0123456789abcdef) 5 = byteOf 0x0123456789abcdef (7 - 5) ∧
      bswap64 false 0x0123456789abcdef < 2 ^ 64) ∧
    bswap64 false 0x0123456789abcdef =
      (bswap32 (0x0123456789abcdef &&& 0xFFFFFFFF) <<< 32) |||
        bswap32 (0x0123456789abcdef >>> 32) :=
  ⟨by decide, by decide, by decide, by decide,
    bswap_reverses_bytes false 0x1234 0x12345678 0x0123456789abcdef 1 2 5
      (by decide) (by decide) (by decide) (by decide)⟩

/-- Claim C8: for a buffer holding at least `size` bytes (every `size`, zero, one and
odd ones included) `bswapBuffer` keeps the length, puts at every index `i < size` the
byte that was at `size - 1 - i`, leaves the bytes from `size` on alone, and when `size`
is the whole length the buffer becomes its reverse. -/
theorem bswapBuffer_reverses {α : Type} (pData : List α) (size : Nat)
    (h : size ≤ pData.length) :
    (bswapBuffer pData size).length = pData.length ∧
    (∀ i : Nat, i < size → (bswapBuffer pData size)[i]? = pData[size - 1 - i]?) ∧
    (∀ i : Nat, size ≤ i → (bswapBuffer pData size)[i]? = pData[i]?) ∧
    (size = pData.length → bswapBuffer pData size = pData.reverse) :=
  bswapBuffer_spec pData size h

/-- Witness of C8 on a buffer of three bytes. -/
theorem bswapBuffer_reverses_witness :
    3 ≤ [(10 : Nat), 20, 30].length ∧
    (bswapBuffer [(10 : Nat), 20, 30] 3).length = [(10 : Nat), 20, 30].length ∧
    (∀ i : Nat, i < 3 →
      (bswapBuffer [(10 : Nat), 20, 30] 3)[i]? = [(10 : Nat), 20, 30][3 - 1 - i]?) ∧
    (∀ i : Nat, 3 ≤ i → (bswapBuffer [(10 : Nat), 20, 30] 3)[i]? = [(10 : Nat), 20, 30][i]?) ∧
    (3 = [(10 : Nat), 20, 30].length →
      bswapBuffer [(10 : Nat), 20, 30] 3 = [(10 : Nat), 20, 30].reverse) :=
  ⟨by decide, bswapBuffer_reverses [(10 : Nat), 20, 30] 3 (by decide)⟩

/-- Claim C9: for a buffer holding at least `size * count` bytes, `bswapChunks` keeps
the length, reverses the bytes inside each of the first `count` chunks of `size` bytes
(the byte at `c * size + i` afterwards is the one that was at `c * size + (size - 1 - i)`),
so the chunks stay in their order, and leaves every byte from `size * count` on alone. -/
theorem bswapChunks_reverses {α : Type} (pData : List α) (size count : Nat)
    (h : size * count ≤ pData.length) :
    (bswapChunks pData size count).length = pData.length ∧
    (∀ c i : Nat, c < count → i < size →
      (bswapChunks pData size count)[c * size + i]? = pData[c * size + (size - 1 - i)]?) ∧
    (∀ j : Nat, size * count ≤ j → (bswapChunks pData size count)[j]? = pData[j]?) :=
  bswapChunks_invariant pData size count h

/-- Witness of C9 on seven bytes seen as two chunks of three. -/
theorem bswapChunks_reverses_witness :
    3 * 2 ≤ [(1 : Nat), 2, 3, 4, 5, 6, 7].length ∧
    (bswapChunks [(1 : Nat), 2, 3, 4, 5, 6, 7] 3 2).length =
      [(1 : Nat), 2, 3, 4, 5, 6, 7].length ∧
    (∀ c i : Nat, c < 2 → i < 3 →
      (bswapChunks [(1 : Nat), 2, 3, 4, 5, 6, 7] 3 2)[c * 3 + i]? =
        [(1 : Nat), 2, 3, 4, 5, 6, 7][c * 3 + (3 - 1 - i)]?) ∧
    (∀ j : Nat, 3 * 2 ≤ j →
      (bswapChunks [(1 : Nat), 2, 3, 4, 5, 6, 7] 3 2)[j]? = [(1 : Nat), 2, 3, 4, 5, 6, 7][j]?) :=
  ⟨by decide, bswapChunks_reverses [(1 : Nat), 2, 3, 4, 5, 6, 7] 3 2 (by decide)⟩

/-- Claim C10 as stated fails: `2 ^ 31 + 1` is a 32-bit value, and `firstPO2From` maps it
to `0` (the next power of two, `2 ^ 32`, wraps), which is not greater than or equal to
the argument. -/
theorem firstPO2From_counterexample :
    (2147483649 : Nat) < 2 ^ 32 ∧ firstPO2From 2147483649 = 0 ∧
      ¬ (2147483649 ≤ firstPO2From 2147483649) := by
  decide

/-- Claim C10, amended: for every 32-bit `n` up to `2 ^ 31`, `firstPO2From n` is the
smallest `m ≥ n` that is zero or a power of two; for a 32-bit `n` above `2 ^ 31` the
result is `0`; and `firstPO2From` maps 0, 1, 5 to 0, 1, 8. -/
theorem firstPO2From_spec (n : Nat) (hn : n < 2 ^ 32) :
    (n ≤ 2 ^ 31 → n ≤ firstPO2From n ∧ PowerOfTwoOrZero (firstPO2From n) ∧
      ∀ m, n ≤ m → PowerOfTwoOrZero m → firstPO2From n ≤ m) ∧
    (2 ^ 31 < n → firstPO2From n = 0) ∧
    firstPO2From 0 = 0 ∧ firstPO2From 1 = 1 ∧ firstPO2From 5 = 8 :=
  ⟨firstPO2From_least n, fun h => firstPO2From_wrap n h hn, by decide, by decide, by decide⟩

/-- Witness of the amended C10 at `n = 5`. -/
theorem firstPO2From_spec_witness :
    (5 : Nat) < 2 ^ 32 ∧
    (5 ≤ 2 ^ 31 → 5 ≤ firstPO2From 5 ∧ PowerOfTwoOrZero (firstPO2From 5) ∧
      ∀ m, 5 ≤ m → PowerOfTwoOrZero m → firstPO2From 5 ≤ m) ∧
    (2 ^ 31 < 5 → firstPO2From 5 = 0) ∧
    firstPO2From 0 = 0 ∧ firstPO2From 1 = 1 ∧ firstPO2From 5 = 8 :=
  ⟨by decide, firstPO2From_spec 5 (by decide)⟩

/-- Claim C11: for every unsigned 32-bit `n`, `isPO2 n` is true exactly when `n` is zero
or `2 ^ k` for some `k` in `0 .. 31`. -/
theorem isPO2_spec (n : Nat) (hn : n < 2 ^ 32) :
    isPO2 n = true ↔ n = 0 ∨ ∃ k, k ≤ 31 ∧ n = 2 ^ k :=
  isPO2_iff n hn

/-- Witness of C11 at `n = 64`. -/
theorem isPO2_spec_witness :
    (64 : Nat) < 2 ^ 32 ∧ (isPO2 64 = true ↔ 64 = 0 ∨ ∃ k, k ≤ 31 ∧ 64 = 2 ^ k) :=
  ⟨by decide, isPO2_spec 64 (by decide)⟩

/-- Claim C12: `mostSignificantBitSet` is a total function (its loop stops on every
input), and for every 32-bit `value`: when `value` is not zero the result is the one `k`,
at most 31, with `2 ^ k ≤ value < 2 ^ (k + 1)`; when `value` is zero the result is the
wrapped `0 - 1`, that is `2 ^ 32 - 1`. -/
theorem mostSignificantBitSet_index (value : Nat) (hv : value < 2 ^ 32) :
    (value ≠ 0 → ∃ k, k ≤ 31 ∧ mostSignificantBitSet value = k ∧ 2 ^ k ≤ value ∧
      value < 2 ^ (k + 1) ∧ ∀ j, 2 ^ j ≤ value → value < 2 ^ (j + 1) → j = k) ∧
    (value = 0 → mostSignificantBitSet value = 2 ^ 32 - 1) := by
  obtain ⟨h1, h2⟩ := mostSignificantBitSet_spec value hv
  refine ⟨fun h0 => ?_, h2⟩
  obtain ⟨k, hk, hm, hlo, hhi⟩ := h1 h0
  exact ⟨k, hk, hm, hlo, hhi, fun j hj1 hj2 => bracket_unique value j k hj1 hj2 hlo hhi⟩

/-- Witness of C12 at `value = 1000`. -/
theorem mostSignificantBitSet_index_witness :
    (1000 : Nat) < 2 ^ 32 ∧
    ((1000 : Nat) ≠ 0 → ∃ k, k ≤ 31 ∧ mostSignificantBitSet 1000 = k ∧ 2 ^ k ≤ 1000 ∧
      1000 < 2 ^ (k + 1) ∧ ∀ j, 2 ^ j ≤ 1000 → 1000 < 2 ^ (j + 1) → j = k) ∧
    ((1000 : Nat) = 0 → mostSignificantBitSet 1000 = 2 ^ 32 - 1) :=
  ⟨by decide, mostSignificantBitSet_index 1000 (by decide)⟩

/-- Claim C13: `getBitShift` is a total function (behind its guard the loop stops on
every mask), and for every 32-bit `mask`: when `mask` is not zero the result `r` is at
most 31, `mask >> r` is odd and `(mask >> r) << r` is `mask`; when `mask` is zero the
result is 0. -/
theorem getBitShift_trailing_zeros (mask : Nat) (hm : mask < 2 ^ 32) :
    (mask ≠ 0 → getBitShift mask ≤ 31 ∧ (mask >>> getBitShift mask) % 2 = 1 ∧
      (mask >>> getBitShift mask) <<< getBitShift mask = mask) ∧
    (mask = 0 → getBitShift mask = 0) :=
  getBitShift_claim mask hm

/-- Witness of C13 at `mask = 0xFF00`. -/
theorem getBitShift_trailing_zeros_witness :
    (0xFF00 : Nat) < 2 ^ 32 ∧
    ((0xFF00 : Nat) ≠ 0 → getBitShift 0xFF00 ≤ 31 ∧ (0xFF00 >>> getBitShift 0xFF00) % 2 = 1 ∧
      (0xFF00 >>> getBitShift 0xFF00) <<< getBitShift 0xFF00 = 0xFF00) ∧
    ((0xFF00 : Nat) = 0 → getBitShift 0xFF00 = 0) :=
  ⟨by decide, getBitShift_trailing_zeros 0xFF00 (by decide)⟩

/-- Claim C14: for a non-zero source mask and a 32-bit destination mask whose maxima
`srcMax = srcBitMask >> srcShift` and `destMax = destBitMask >> destShift` have a product
below `2 ^ 32`, `convertBitPattern` returns
`(((srcValue & srcBitMask) >> srcShift) * destMax / srcMax) << destShift`; a source value
with no mask bit set maps to 0 and one with every mask bit set maps to `destBitMask`. -/
theorem convertBitPattern_rescales (srcValue srcBitMask destBitMask : Nat)
    (hs : srcBitMask ≠ 0) (hd : destBitMask < 2 ^ 32)
    (hmax : (srcBitMask >>> getBitShift srcBitMask) *
      (destBitMask >>> getBitShift destBitMask) < 2 ^ 32) :
    convertBitPattern srcValue srcBitMask destBitMask =
      some (((((srcValue &&& srcBitMask) >>> getBitShift srcBitMask) *
        (destBitMask >>> getBitShift destBitMask)) /
          (srcBitMask >>> getBitShift srcBitMask)) <<< getBitShift destBitMask) ∧
    (srcValue &&& srcBitMask = 0 →
      convertBitPattern srcValue srcBitMask destBitMask = some 0) ∧
    (srcValue &&& srcBitMask = srcBitMask →
      convertBitPattern srcValue srcBitMask destBitMask = some destBitMask) :=
  convertBitPattern_spec srcValue srcBitMask destBitMask hs hd hmax

/-- Witness of C14: a 5-bit channel at bit 11 rescaled to an 8-bit channel at bit 16. -/
theorem convertBitPattern_rescales_witness :
    (0xF800 : Nat) ≠ 0 ∧ (0xFF0000 : Nat) < 2 ^ 32 ∧
    (0xF800 >>> getBitShift 0xF800) * (0xFF0000 >>> getBitShift 0xFF0000) < 2 ^ 32 ∧
    convertBitPattern 0x5555 0xF800 0xFF0000 =
      some (((((0x5555 &&& 0xF800) >>> getBitShift 0xF800) *
        (0xFF0000 >>> getBitShift 0xFF0000)) /
          (0xF800 >>> getBitShift 0xF800)) <<< getBitShift 0xFF0000) ∧
    (0x5555 &&& 0xF800 = 0 → convertBitPattern 0x5555 0xF800 0xFF0000 = some 0) ∧
    (0x5555 &&& 0xF800 = 0xF800 →
      convertBitPattern 0x5555 0xF800 0xFF0000 = some 0xFF0000) := by
  have hmax : (0xF800 >>> getBitShift 0xF800) * (0xFF0000 >>> getBitShift 0xFF0000) <
      2 ^ 32 := by
    rw [getBitShift_unique 0xF800 11 (by decide) (by decide),
      getBitShift_unique 0xFF0000 16 (by decide) (by decide)]
    decide
  exact ⟨by decide, by decide, hmax,
    convertBitPattern_rescales 0x5555 0xF800 0xFF0000 (by decide) (by decide) hmax⟩

/-- Claim C15 as stated fails: with the source mask zero, `getBitShift` returns 0, the
divisor `srcMax = 0 >> 0` is zero, and `convertBitPattern` divides by zero. -/
theorem convertBitPattern_zero_mask_counterexample :
    (0 : Nat) >>> getBitShift 0 = 0 ∧ convertBitPattern 0x1234 0 0xFF = none := by
  decide

/-- Claim C15, amended: for every source value, every destination mask and every
non-zero source mask the divisor `srcMax = srcBitMask >> getBitShift srcBitMask` is not
zero and `convertBitPattern` returns a value; only for the zero source mask is the
divisor zero, and the division undefined. -/
theorem convertBitPattern_divisor (srcValue srcBitMask destBitMask : Nat)
    (hs : srcBitMask ≠ 0) :
    srcBitMask >>> getBitShift srcBitMask ≠ 0 ∧
    (∃ r, convertBitPattern srcValue srcBitMask destBitMask = some r) ∧
    ((0 : Nat) >>> getBitShift 0 = 0 ∧ convertBitPattern srcValue 0 destBitMask = none) :=
  ⟨((convertBitPattern_defined srcValue srcBitMask destBitMask).1 hs).1,
    ((convertBitPattern_defined srcValue srcBitMask destBitMask).1 hs).2,
    (convertBitPattern_defined srcValue 0 destBitMask).2 rfl⟩

/-- Witness of the amended C15 with the all-ones source mask. -/
theorem convertBitPattern_divisor_witness :
    (0xFFFFFFFF : Nat) ≠ 0 ∧
    0xFFFFFFFF >>> getBitShift 0xFFFFFFFF ≠ 0 ∧
    (∃ r, convertBitPattern 0x1234 0xFFFFFFFF 0 = some r) ∧
    ((0 : Nat) >>> getBitShift 0 = 0 ∧ convertBitPattern 0x1234 0 0 = none) :=
  ⟨by decide, convertBitPattern_divisor 0x1234 0xFFFFFFFF 0 (by decide)⟩

/-- Claim C16: for all bit widths `n` in `1 .. 31` and `p` up to 31 (so also for every
`p` in `1 .. 31`), whichever of the two is larger, `fixedToFixed` maps 0 to 0 and the largest `n`-bit value `2 ^ n - 1` to the
largest `p`-bit value `2 ^ p - 1`. -/
theorem fixedToFixed_keeps_endpoints (n p : Nat) (hn1 : 1 ≤ n) (hn : n ≤ 31) (hp : p ≤ 31) :
    fixedToFixed 0 n p = some 0 ∧ fixedToFixed (2 ^ n - 1) n p = some (2 ^ p - 1) :=
  fixedToFixed_endpoints n p hn1 hn hp

/-- Witness of C16 for the expansion from 5 to 8 bits. -/
theorem fixedToFixed_keeps_endpoints_witness :
    1 ≤ 5 ∧ 5 ≤ 31 ∧ 8 ≤ 31 ∧
    fixedToFixed 0 5 8 = some 0 ∧ fixedToFixed (2 ^ 5 - 1) 5 8 = some (2 ^ 8 - 1) :=
  ⟨by decide, by decide, by decide,
    fixedToFixed_keeps_endpoints 5 8 (by decide) (by decide) (by decide)⟩

/-- Claim C17, at an input where the code departs from it: expanding the 16-bit value
`0x8000` to 24 bits, the product `0x8000 * 2 ^ 24` wraps to 0 in 32 bits and
`fixedToFixed` returns 0, while the repeated pattern is
`(0x8000 << 8) | (0x8000 >> 8) = 0x800080`.  (`fixedToFixed_repeats` shows that the
pattern is repeated whenever the product fits 32 bits.) -/
theorem fixedToFixed_wraps :
    (0x8000 : Nat) < 2 ^ 16 ∧ fixedToFixed 0x8000 16 24 = some 0 ∧
      (0x8000 <<< (24 - 16)) ||| (0x8000 >>> (2 * 16 - 24)) = 0x800080 := by
  decide

/-- Claim C18: with a `float` as the rational it denotes and a rounding `rnd` that
leaves every value a `float` can hold as it is, for every `bits ≤ 31`: `floatToFixed` is
0 for `value ≤ 0`, is `2 ^ bits - 1` for `value ≥ 1`, and for a `float` `value` strictly
between 0 and 1 is `floor (value * 2 ^ bits)`, which is at most `2 ^ bits - 1`. -/
theorem floatToFixed_clamps (rnd : ℚ → ℚ) (hexact : ∀ q, IsSingle q → rnd q = q)
    (value : ℚ) (bits : Nat) (hv : IsSingle value) (hb : bits ≤ 31) :
    (value ≤ 0 → floatToFixed rnd value bits = 0) ∧
    (1 ≤ value → floatToFixed rnd value bits = 2 ^ bits - 1) ∧
    (0 < value → value < 1 →
      floatToFixed rnd value bits = ⌊value * (2 : ℚ) ^ bits⌋.toNat ∧
      floatToFixed rnd value bits ≤ 2 ^ bits - 1) :=
  floatToFixed_spec rnd hexact value bits hv hb

/-- Witness of C18 with exact arithmetic as the rounding, at one half and 8 bits. -/
theorem floatToFixed_clamps_witness :
    (∀ q, IsSingle q → id q = q) ∧ IsSingle (1 / 2) ∧ 8 ≤ 31 ∧
    (((1 : ℚ) / 2 ≤ 0 → floatToFixed id (1 / 2) 8 = 0) ∧
    (1 ≤ (1 : ℚ) / 2 → floatToFixed id (1 / 2) 8 = 2 ^ 8 - 1) ∧
    (0 < (1 : ℚ) / 2 → (1 : ℚ) / 2 < 1 →
      floatToFixed id (1 / 2) 8 = ⌊(1 : ℚ) / 2 * (2 : ℚ) ^ 8⌋.toNat ∧
      floatToFixed id (1 / 2) 8 ≤ 2 ^ 8 - 1)) :=
  ⟨fun _ _ => rfl, isSingle_half, by decide,
    floatToFixed_clamps id (fun _ _ => rfl) (1 / 2) 8 isSingle_half (by decide)⟩

/-- Claim C19: on either byte order, for `n` in 1, 2, 3, 4 and a destination of at
least `n` bytes, `intRead` after `intWrite` returns `value mod 2 ^ (8 * n)`; in the
3-byte little-endian case the bytes at offsets 0, 1, 2 are `value & 0xFF`,
`(value >> 8) & 0xFF` and `(value >> 16) & 0xFF`. -/
theorem intRead_intWrite (bigEndian : Bool) (dest : List Nat) (n : Nat) (value : Nat)
    (hn1 : 1 ≤ n) (hn4 : n ≤ 4) (hlen : n ≤ dest.length) :
    intRead bigEndian (intWrite bigEndian dest n value) n = value % 2 ^ (8 * n) ∧
    (n = 3 → (intWrite false dest n value)[0]? = some (value &&& 0xFF) ∧
      (intWrite false dest n value)[1]? = some ((value >>> 8) &&& 0xFF) ∧
      (intWrite false dest n value)[2]? = some ((value >>> 16) &&& 0xFF)) := by
  constructor
  · interval_cases n
    · exact readBack_one bigEndian dest value hlen
    · exact readBack_two bigEndian dest value hlen
    · exact readBack_three bigEndian dest value hlen
    · exact readBack_four bigEndian dest value hlen
  · rintro rfl
    rcases dest with _ | ⟨a, _ | ⟨b, _ | ⟨c, t⟩⟩⟩
    · simp at hlen
    · simp at hlen
    · simp at hlen
    · have h := intWrite_three false a b c t value
      rw [if_neg (by decide)] at h
      have e : (((3 : Nat) : Int)) = 3 := rfl
      rw [e, h, and_byte0, and_byte0, and_byte0, Nat.shiftRight_eq_div_pow,
        Nat.shiftRight_eq_div_pow]
      exact ⟨by simp, by simp, by simp⟩

/-- Witness of C19 for three bytes on a little-endian machine. -/
theorem intRead_intWrite_witness :
    1 ≤ 3 ∧ 3 ≤ 4 ∧ 3 ≤ [(0 : Nat), 0, 0, 0].length ∧
    intRead false (intWrite false [(0 : Nat), 0, 0, 0] (3 : Nat) 0x12345678) (3 : Nat) =
      0x12345678 % 2 ^ (8 * 3) ∧
    (3 = 3 →
      (intWrite false [(0 : Nat), 0, 0, 0] (3 : Nat) 0x12345678)[0]? =
        some (0x12345678 &&& 0xFF) ∧
      (intWrite false [(0 : Nat), 0, 0, 0] (3 : Nat) 0x12345678)[1]? =
        some ((0x12345678 >>> 8) &&& 0xFF) ∧
      (intWrite false [(0 : Nat), 0, 0, 0] (3 : Nat) 0x12345678)[2]? =
        some ((0x12345678 >>> 16) &&& 0xFF)) :=
  ⟨by decide, by decide, by decide,
    intRead_intWrite false [(0 : Nat), 0, 0, 0] 3 0x12345678 (by decide) (by decide)
      (by decide)⟩

/-- Claim C20: with a `float` as the rational it denotes and a monotone rounding `rnd`
that leaves every value a `float` can hold as it is, `floatToSnorm16 (-1)` is one of the
two most negative codes (it is -32767), `snorm16ToFloat` maps both -32768 and -32767 to
exactly -1, and likewise `floatToSnorm8 (-1)` is -128 or -127 (it is -127) and
`snorm8ToFloat` maps both -128 and -127 to exactly -1. -/
theorem snorm_minus_one (rnd : ℚ → ℚ) (hexact : ∀ q, IsSingle q → rnd q = q)
    (hmono : Monotone rnd) :
    (floatToSnorm16 rnd (-1) = -32768 ∨ floatToSnorm16 rnd (-1) = -32767) ∧
    snorm16ToFloat rnd (-32768) = -1 ∧ snorm16ToFloat rnd (-32767) = -1 ∧
    (floatToSnorm8 rnd (-1) = -128 ∨ floatToSnorm8 rnd (-1) = -127) ∧
    snorm8ToFloat rnd (-128) = -1 ∧ snorm8ToFloat rnd (-127) = -1 := by
  obtain ⟨h1, h2, h3, h4⟩ := snormToFloat_neg_one rnd hexact hmono
  exact ⟨Or.inr (floatToSnorm16_neg_one rnd hexact), h1, h2,
    Or.inr (floatToSnorm8_neg_one rnd hexact), h3, h4⟩

/-- Witness of C20 with exact arithmetic as the rounding. -/
theorem snorm_minus_one_witness :
    (∀ q, IsSingle q → id q = q) ∧ Monotone (id : ℚ → ℚ) ∧
    (floatToSnorm16 id (-1) = -32768 ∨ floatToSnorm16 id (-1) = -32767) ∧
    snorm16ToFloat id (-32768) = -1 ∧ snorm16ToFloat id (-32767) = -1 ∧
    (floatToSnorm8 id (-1) = -128 ∨ floatToSnorm8 id (-1) = -127) ∧
    snorm8ToFloat id (-128) = -1 ∧ snorm8ToFloat id (-127) = -1 :=
  ⟨fun _ _ => rfl, monotone_id, snorm_minus_one id (fun _ _ => rfl) monotone_id⟩

/-- Claim C21: the zero-count functions return the full bit width at zero, through their
own guard and without reaching the intrinsic: `ctz32 0 = 32`, `clz32 0 = 32`,
`ctz64 0 = 64` and `clz64 0 = 64`. -/
theorem zero_counts_at_zero :
    ctz32 0 = 32 ∧ clz32 0 = 32 ∧ ctz64 0 = 64 ∧ clz64 0 = 64 := by
  decide

/-- Claim C22: for every `k` in `0 .. 31`, `ctz32 (2 ^ k) = k` and
`clz32 (2 ^ k) = 31 - k`; and for every non-zero 32-bit `x`, `ctz32 x` is the index of
the lowest set bit of `x` (that bit is set and no bit below it is) and
`clz32 x = 31 - mostSignificantBitSet x`. -/
theorem zero_counts_32 (x k : Nat) (hx0 : x ≠ 0) (hx : x < 2 ^ 32) (hk : k ≤ 31) :
    (ctz32 (2 ^ k) = k ∧ clz32 (2 ^ k) = 31 - k) ∧
    (ctz32 x ≤ 31 ∧ x.testBit (ctz32 x) = true ∧ ∀ j, j < ctz32 x → x.testBit j = false) ∧
    clz32 x = 31 - mostSignificantBitSet x :=
  ⟨zero_counts_single_bit k hk, ctz32_lowest_bit x hx0 hx, clz32_spec x hx0 hx⟩

/-- Witness of C22 at `x = 40` and `k = 5`. -/
theorem zero_counts_32_witness :
    (40 : Nat) ≠ 0 ∧ (40 : Nat) < 2 ^ 32 ∧ 5 ≤ 31 ∧
    (ctz32 (2 ^ 5) = 5 ∧ clz32 (2 ^ 5) = 31 - 5) ∧
    (ctz32 40 ≤ 31 ∧ (40 : Nat).testBit (ctz32 40) = true ∧
      ∀ j, j < ctz32 40 → (40 : Nat).testBit j = false) ∧
    clz32 40 = 31 - mostSignificantBitSet 40 :=
  ⟨by decide, by decide, by decide, zero_counts_32 40 5 (by decide) (by decide) (by decide)⟩

/-- Claim C24: for all widths `n` in `1 .. 31` and `p` up to 31 and every `value` below
`2 ^ n`, `fixedToFixed` returns a value below `2 ^ p`, also when the 32-bit product
`value * 2 ^ p` wraps. -/
theorem fixedToFixed_within_width (value n p : Nat) (hn1 : 1 ≤ n) (hn : n ≤ 31)
    (hp : p ≤ 31) (hv : value < 2 ^ n) :
    ∃ r, fixedToFixed value n p = some r ∧ r < 2 ^ p :=
  fixedToFixed_lt value n p hn1 hn hp hv

/-- Witness of C24 where the product wraps: the 16-bit value `0x8001` expanded to 24
bits. -/
theorem fixedToFixed_within_width_witness :
    1 ≤ 16 ∧ 16 ≤ 31 ∧ 24 ≤ 31 ∧ (0x8001 : Nat) < 2 ^ 16 ∧
    ∃ r, fixedToFixed 0x8001 16 24 = some r ∧ r < 2 ^ 24 :=
  ⟨by decide, by decide, by decide, by decide,
    fixedToFixed_within_width 0x8001 16 24 (by decide) (by decide) (by decide) (by decide)⟩

/-- Claim C25: for all `1 ≤ n ≤ p` with `n + p ≤ 32` and every `value` below `2 ^ n`,
expanding from `n` to `p` bits and contracting back to `n` bits returns `value`. -/
theorem fixedToFixed_lossless (value n p : Nat) (hn1 : 1 ≤ n) (hnp : n ≤ p)
    (hsum : n + p ≤ 32) (hv : value < 2 ^ n) :
    (fixedToFixed value n p).bind (fun e => fixedToFixed e p n) = some value :=
  fixedToFixed_roundtrip value n p hn1 hnp hsum hv

/-- Witness of C25 for a 5-bit value expanded to 8 bits. -/
theorem fixedToFixed_lossless_witness :
    1 ≤ 5 ∧ 5 ≤ 8 ∧ 5 + 8 ≤ 32 ∧ (21 : Nat) < 2 ^ 5 ∧
    (fixedToFixed 21 5 8).bind (fun e => fixedToFixed e 8 5) = some 21 :=
  ⟨by decide, by decide, by decide, by decide,
    fixedToFixed_lossless 21 5 8 (by decide) (by decide) (by decide) (by decide)⟩

/-- Claim C26: `floatToHalfI` truncates.  For every 32-bit single pattern `i` with
exponent field in `113 .. 142`, the round trip `halfToFloatI (floatToHalfI i)` is
`i & 0xFFFFE000` (whatever the fuel: no renormalisation is needed); and every `i` that is
not a NaN and has exponent field at least 143 maps to the half infinity of its sign,
`sign | 0x7c00`. -/
theorem floatToHalfI_truncates (i fuel : Nat) (hi : i < 2 ^ 32) :
    (113 ≤ singleExp i → singleExp i ≤ 142 →
      halfToFloatI fuel (floatToHalfI i) = some (i &&& 0xFFFFE000)) ∧
    (143 ≤ singleExp i → ¬ (singleExp i = 255 ∧ singleMant i ≠ 0) →
      floatToHalfI i = ((i >>> 16) &&& 0x00008000) ||| 0x7c00) :=
  ⟨fun h1 h2 => truncation_normal i fuel hi h1 h2,
    fun h1 hnan => (floatToHalfI_overflow i h1 hnan).1⟩

/-- Witness of C26 at `0x3fffffff`, the single just below 2, which rounding to nearest
would send to 2. -/
theorem floatToHalfI_truncates_witness :
    (0x3fffffff : Nat) < 2 ^ 32 ∧
    (113 ≤ singleExp 0x3fffffff → singleExp 0x3fffffff ≤ 142 →
      halfToFloatI 0 (floatToHalfI 0x3fffffff) = some (0x3fffffff &&& 0xFFFFE000)) ∧
    (143 ≤ singleExp 0x3fffffff →
      ¬ (singleExp 0x3fffffff = 255 ∧ singleMant 0x3fffffff ≠ 0) →
      floatToHalfI 0x3fffffff = ((0x3fffffff >>> 16) &&& 0x00008000) ||| 0x7c00) :=
  ⟨by decide, floatToHalfI_truncates 0x3fffffff 0 (by decide)⟩

end Bitwise

namespace SimpleMatrixAf4x3

/-! ## The 4x3 matrix slot -/

theorem loadLoop_step {α : Type} (src : Matrix4 α) (i : Nat) (c : Nat → α) (h : i < 12) :
    loadLoop src i c =
      loadLoop src (i + 4) (assign (assign (assign (assign c i (src._m i)) (i + 1)
        (src._m (i + 1))) (i + 2) (src._m (i + 2))) (i + 3) (src._m (i + 3))) := by
  rw [loadLoop, if_pos h]

theorem loadLoop_stop {α : Type} (src : Matrix4 α) (i : Nat) (c : Nat → α) (h : ¬ i < 12) :
    loadLoop src i c = c := by
  rw [loadLoop, if_neg h]

theorem storeLoop_step {α : Type} (self : SimpleMatrixAf4x3 α) (i : Nat) (m : Nat → α)
    (h : i < 12) :
    storeLoop self i m =
      storeLoop self (i + 4) (assign (assign (assign (assign m i (self.mChunkBase i)) (i + 1)
        (self.mChunkBase (i + 1))) (i + 2) (self.mChunkBase (i + 2))) (i + 3)
        (self.mChunkBase (i + 3))) := by
  rw [storeLoop, if_pos h]

theorem storeLoop_stop {α : Type} (self : SimpleMatrixAf4x3 α) (i : Nat) (m : Nat → α)
    (h : ¬ i < 12) : storeLoop self i m = m := by
  rw [storeLoop, if_neg h]

/-- After `load` the twelve chunks hold the first twelve values of the source. -/
theorem load_mChunkBase {α : Type} (self : SimpleMatrixAf4x3 α) (src : Matrix4 α) (i : Nat)
    (hi : i < 12) : (self.load src).mChunkBase i = src._m i := by
  unfold load
  simp only
  rw [loadLoop_step _ _ _ (by decide), loadLoop_step _ _ _ (by decide),
    loadLoop_step _ _ _ (by decide), loadLoop_stop _ _ _ (by decide)]
  interval_cases i <;> simp [assign]

/-- After `store` the first twelve values are the chunks and the last row is fixed. -/
theorem store_m {α : Type} [OfNat α 0] [OfNat α 1] (self : SimpleMatrixAf4x3 α)
    (dst : Matrix4 α) :
    (∀ i, i < 12 → (self.store dst)._m i = self.mChunkBase i) ∧
    (self.store dst)._m 12 = 0 ∧ (self.store dst)._m 13 = 0 ∧ (self.store dst)._m 14 = 0 ∧
    (self.store dst)._m 15 = 1 := by
  unfold store
  simp only
  rw [storeLoop_step _ _ _ (by decide), storeLoop_step _ _ _ (by decide),
    storeLoop_step _ _ _ (by decide), storeLoop_stop _ _ _ (by decide)]
  refine ⟨fun i hi => ?_, ?_, ?_, ?_, ?_⟩
  · interval_cases i <;> simp [assign]
  · simp [assign]
  · simp [assign]
  · simp [assign]
  · simp [assign]

/-- Claim C23: loading a matrix into a slot and storing the slot into a destination gives
`dst._m[i] == src._m[i]` for every `i` in `0 .. 11` and `dst._m[12 .. 15] == [0, 0, 0, 1]`,
whatever the slot and the destination held before and whatever the last row of the source
is. -/
theorem load_store_roundtrip {α : Type} [OfNat α 0] [OfNat α 1] (slot : SimpleMatrixAf4x3 α)
    (src dst : Matrix4 α) (i : Nat) (hi : i < 12) :
    ((slot.load src).store dst)._m i = src._m i ∧
    ((slot.load src).store dst)._m 12 = 0 ∧ ((slot.load src).store dst)._m 13 = 0 ∧
    ((slot.load src).store dst)._m 14 = 0 ∧ ((slot.load src).store dst)._m 15 = 1 := by
  obtain ⟨h, h12, h13, h14, h15⟩ := store_m (slot.load src) dst
  exact ⟨(h i hi).trans (load_mChunkBase slot src i hi), h12, h13, h14, h15⟩

/-- Witness of C23 over the naturals: the source holds `100 + j` at index `j` (so its last
row is `112 .. 115`), the slot and the destination hold 7 and 9 everywhere, and index 6
is read back. -/
theorem load_store_roundtrip_witness :
    6 < 12 ∧
    (((SimpleMatrixAf4x3.mk (fun _ => (7 : Nat))).load (Matrix4.mk (fun j => 100 + j))).store
      (Matrix4.mk (fun _ => 9)))._m 6 = 106 ∧
    (((SimpleMatrixAf4x3.mk (fun _ => (7 : Nat))).load (Matrix4.mk (fun j => 100 + j))).store
      (Matrix4.mk (fun _ => 9)))._m 12 = 0 ∧
    (((SimpleMatrixAf4x3.mk (fun _ => (7 : Nat))).load (Matrix4.mk (fun j => 100 + j))).store
      (Matrix4.mk (fun _ => 9)))._m 13 = 0 ∧
    (((SimpleMatrixAf4x3.mk (fun _ => (7 : Nat))).load (Matrix4.mk (fun j => 100 + j))).store
      (Matrix4.mk (fun _ => 9)))._m 14 = 0 ∧
    (((SimpleMatrixAf4x3.mk (fun _ => (7 : Nat))).load (Matrix4.mk (fun j => 100 + j))).store
      (Matrix4.mk (fun _ => 9)))._m 15 = 1 :=
  ⟨by decide, load_store_roundtrip (SimpleMatrixAf4x3.mk (fun _ => (7 : Nat)))
    (Matrix4.mk (fun j => 100 + j)) (Matrix4.mk (fun _ => 9)) 6 (by decide)⟩

end SimpleMatrixAf4x3
end Ogre
